import Mathlib

/-!
TBTK: sparse amplitude storage and pattern-driven property extraction.

A shallow embedding of `AmplitudeSet` (src/Lib/src/Core/AmplitudeSet.cpp), of
`DPropertyExtractor` (src/Lib/src/PropertyExtractors/DPropertyExtractor.cpp) and
of the constructor of `Magnetization` (src/Lib/src/Properties/Magnetization.cpp),
followed by theorems about the embedded functions.

Conventions of the embedding.
* `int` is modelled by `Int`. The member `int size` of `Magnetization`, a
  product of caller-chosen extents, is reduced to the 32-bit two's-complement
  range after every multiplication (`wrapInt`), and the theorems about it carry
  the bound under which no reduction takes place. No other `int` is reduced.
* `getBasisIndex` is not among the sources; it is a parameter of the embedding.
  Its contract (the basis positions of the indices that occur as an endpoint
  are a bijection onto `[0, basisSize)`) enters the theorems that need it as
  the hypothesis `NonNegTraversal`.
* `complex<double>` is modelled by an arbitrary additive monoid `V` with a
  conjugation `conj : V → V` (exact arithmetic, no rounding); where real and
  imaginary parts matter, by the pairs `Cx R` over a commutative ring `R`.
* A heap array is a `List`; a cell of a `new int[n]` array that has not been
  written yet is `none`.
* `double` is modelled by an arbitrary additive monoid `R` with a multiplication
  (exact arithmetic, no rounding); where eigenvalues are binned, by a linearly
  ordered field with a floor function, and the conversion `(int)x` rounds
  toward zero.
* The quantity functions that can return `NULL` return a `Run`: the pointer
  returned together with a record of the allocation and of the callback
  invocations made.
* A run of an `AmplitudeSet` member function that writes outside an array has no
  defined result: `Outcome.undefinedBehaviour`. For `tabulate` and for the
  functions of `DPropertyExtractor` the result is an `Option`, and `none` stands
  for a run that does not return normally: an access outside an array or an
  exception thrown by `at()`.
-/

namespace TBTK

/-! ## Definitions: AmplitudeSet -/

/-- A physical index: a variable-length sequence of `int` (class `Index`). -/
abbrev Index := List Int

/-- A hopping amplitude: the fields read by `AmplitudeSet.cpp`
(`ha->fromIndex`, `ha->toIndex`, `ha->getAmplitude()`). -/
structure HoppingAmplitude (V : Type) where
  amplitude : V
  fromIndex : Index
  toIndex : Index
deriving DecidableEq, Repr

/-- The member function `getAmplitude()`. -/
def HoppingAmplitude.getAmplitude {V : Type} (ha : HoppingAmplitude V) : V := ha.amplitude

/-- Result of running a member function on an object of state `σ`.
`ok` is a normal return, `fatal` is a failed `TBTKAssert` and carries the
object state at the moment of the abort, `undefinedBehaviour` is an access
outside an array. -/
inductive Outcome (σ α : Type) where
  | ok (state : σ) (value : α)
  | fatal (state : σ) (function message hint : String)
  | undefinedBehaviour
deriving DecidableEq, Repr

/-- Modelled from the spec: the macro `TBTKAssert` of `TBTKMacros.h`, which is
not among the sources. A violated precondition is a fatal assertion: the
operation aborts immediately with a message naming the failing operation, the
violated condition and a remedy. `TBTKAssert c f m h s k` continues with `k`
when `c` holds and aborts in state `s` otherwise. -/
def TBTKAssert {σ α : Type} (expression : Bool) (function message hint : String)
    (s : σ) (k : Outcome σ α) : Outcome σ α :=
  if expression then k else Outcome.fatal s function message hint

/-- The data members of `AmplitudeSet`. `tree` is the sequence of hopping
amplitudes in the order in which the iterator (`getIterator`, `getHA`,
`searchNextHA`) delivers them; a `NULL` array pointer is `none`. -/
structure AmplitudeSet (V : Type) where
  tree : List (HoppingAmplitude V)
  isConstructed : Bool
  isSorted : Bool
  numMatrixElements : Int
  cooRowIndices : Option (List (Option Int))
  cooColIndices : Option (List (Option Int))
  cooValues : Option (List V)
deriving DecidableEq, Repr

/-- The constructor `AmplitudeSet::AmplitudeSet()`. -/
def AmplitudeSet.new (V : Type) : AmplitudeSet V :=
  { tree := [], isConstructed := false, isSorted := false, numMatrixElements := -1,
    cooRowIndices := none, cooColIndices := none, cooValues := none }

/-- The member function `AmplitudeSet::getNumMatrixElements()`. -/
def AmplitudeSet.getNumMatrixElements {V : Type} (s : AmplitudeSet V) :
    Outcome (AmplitudeSet V) Int :=
  TBTKAssert (s.numMatrixElements != -1)
    "AmplitudeSet::getNumMatrixElements()"
    "COO format not constructed."
    "Use Model::constructCOO() to construct COO format."
    s
    (Outcome.ok s s.numMatrixElements)

/-- The local variables of the counting loop of `constructCOO`. -/
structure CountState where
  numMatrixElements : Int
  currentCol : Int
  currentRow : Int
deriving DecidableEq, Repr

/-- One iteration of the counting loop of `constructCOO` (lines 78-91). -/
def countStep {V : Type} (getBasisIndex : Index → Int) (st : CountState)
    (ha : HoppingAmplitude V) : CountState :=
  let col := getBasisIndex ha.fromIndex
  let row := getBasisIndex ha.toIndex
  let st1 : CountState :=
    if col > st.currentCol then { st with currentCol := col, currentRow := -1 } else st
  if row > st1.currentRow then
    { st1 with currentRow := row, numMatrixElements := st1.numMatrixElements + 1 }
  else st1

/-- The counting loop of `constructCOO` (lines 72-91). -/
def countPass {V : Type} (getBasisIndex : Index → Int) (tree : List (HoppingAmplitude V)) :
    CountState :=
  tree.foldl (countStep getBasisIndex)
    { numMatrixElements := 0, currentCol := -1, currentRow := -1 }

/-- The assignment `a[i] = v` on a heap array: defined only inside the array. -/
def writeAt {α : Type} (a : List α) (i : Int) (v : α) : Option (List α) :=
  if 0 ≤ i ∧ i < a.length then some (a.set i.toNat v) else none

/-- The update `a[i] += v` on a heap array: defined only inside the array. -/
def addAt {α : Type} [Add α] (a : List α) (i : Int) (v : α) : Option (List α) :=
  if 0 ≤ i ∧ i < a.length then
    match a.get? i.toNat with
    | some x => some (a.set i.toNat (x + v))
    | none => none
  else none

/-- The local variables of the filling loop of `constructCOO` together with
the three arrays it writes. -/
structure FillState (V : Type) where
  currentMatrixElement : Int
  currentCol : Int
  currentRow : Int
  cooRowIndices : List (Option Int)
  cooColIndices : List (Option Int)
  cooValues : List V
deriving DecidableEq, Repr

/-- One iteration of the filling loop of `constructCOO` (lines 102-129);
`none` when the iteration writes outside an array. -/
def fillStep {V : Type} [Add V] (getBasisIndex : Index → Int) (conj : V → V)
    (st : FillState V) (ha : HoppingAmplitude V) : Option (FillState V) :=
  let col := getBasisIndex ha.fromIndex
  let row := getBasisIndex ha.toIndex
  let amplitude := ha.getAmplitude
  let st1 : FillState V :=
    if col > st.currentCol then { st with currentCol := col, currentRow := -1 } else st
  if row > st1.currentRow then
    let cme := st1.currentMatrixElement + 1
    match writeAt st1.cooRowIndices cme (some col),
          writeAt st1.cooColIndices cme (some row),
          writeAt st1.cooValues cme (conj amplitude) with
    | some rows, some cols, some vals =>
      some { st1 with currentRow := row, currentMatrixElement := cme,
                      cooRowIndices := rows, cooColIndices := cols, cooValues := vals }
    | _, _, _ => none
  else
    match addAt st1.cooValues st1.currentMatrixElement (conj amplitude) with
    | some vals => some { st1 with cooValues := vals }
    | none => none

/-- The allocation of the three arrays and the filling loop of `constructCOO`
(lines 93-129) for `numMatrixElements = n`. -/
def fillPass {V : Type} [Add V] [Zero V] (getBasisIndex : Index → Int) (conj : V → V)
    (n : Int) (tree : List (HoppingAmplitude V)) : Option (FillState V) :=
  tree.foldlM (fillStep getBasisIndex conj)
    { currentMatrixElement := -1, currentCol := -1, currentRow := -1,
      cooRowIndices := List.replicate n.toNat none,
      cooColIndices := List.replicate n.toNat none,
      cooValues := List.replicate n.toNat 0 }

/-- The member function `AmplitudeSet::constructCOO()`. `getBasisIndex` is the
member function of that name, which is not among the sources. -/
def AmplitudeSet.constructCOO {V : Type} [Add V] [Zero V] (getBasisIndex : Index → Int)
    (conj : V → V) (s : AmplitudeSet V) : Outcome (AmplitudeSet V) Unit :=
  TBTKAssert s.isSorted
    "AmplitudeSet::constructCOO()"
    "Amplitudes not sorted."
    ""
    s
  (TBTKAssert (s.numMatrixElements == -1)
    "AmplitudeSet::constructCOO()"
    "Hamiltonain on COO format already constructed."
    ""
    s
    (let n := (countPass getBasisIndex s.tree).numMatrixElements
     match fillPass getBasisIndex conj n s.tree with
     | none => Outcome.undefinedBehaviour
     | some st =>
       Outcome.ok { s with numMatrixElements := n,
                           cooRowIndices := some st.cooRowIndices,
                           cooColIndices := some st.cooColIndices,
                           cooValues := some st.cooValues } ()))

/-- The member function `AmplitudeSet::destructCOO()`. -/
def AmplitudeSet.destructCOO {V : Type} (s : AmplitudeSet V) : AmplitudeSet V :=
  { s with numMatrixElements := -1, cooRowIndices := none, cooColIndices := none,
           cooValues := none }

/-- The member function `AmplitudeSet::reconstructCOO()`. -/
def AmplitudeSet.reconstructCOO {V : Type} [Add V] [Zero V] (getBasisIndex : Index → Int)
    (conj : V → V) (s : AmplitudeSet V) : Outcome (AmplitudeSet V) Unit :=
  if s.numMatrixElements != -1 then
    AmplitudeSet.constructCOO getBasisIndex conj (AmplitudeSet.destructCOO s)
  else Outcome.ok s ()

/-- The pair (from-basis-position, to-basis-position) of a hopping amplitude. -/
def basisPair {V : Type} (getBasisIndex : Index → Int) (ha : HoppingAmplitude V) : Int × Int :=
  (getBasisIndex ha.fromIndex, getBasisIndex ha.toIndex)

/-- Lexicographic order on (from-basis-position, to-basis-position) pairs. -/
def pairLe (p q : Int × Int) : Prop := p.1 < q.1 ∨ (p.1 = q.1 ∧ p.2 ≤ q.2)

instance (p q : Int × Int) : Decidable (pairLe p q) := by
  unfold pairLe; infer_instance

/-- The traversal is non-decreasing in (from-basis-position, to-basis-position). -/
def SortedTraversal {V : Type} (getBasisIndex : Index → Int)
    (tree : List (HoppingAmplitude V)) : Prop :=
  (tree.map (basisPair getBasisIndex)).Pairwise pairLe

instance {V : Type} (gb : Index → Int) (tree : List (HoppingAmplitude V)) :
    Decidable (SortedTraversal gb tree) := by
  unfold SortedTraversal; infer_instance

/-- Every basis position met in the traversal is non-negative: the part of the
contract of `getBasisIndex` (the basis positions of the stored endpoints are a
bijection onto `[0, basisSize)`) that `constructCOO` relies on. -/
def NonNegTraversal {V : Type} (getBasisIndex : Index → Int)
    (tree : List (HoppingAmplitude V)) : Prop :=
  ∀ ha ∈ tree, 0 ≤ getBasisIndex ha.fromIndex ∧ 0 ≤ getBasisIndex ha.toIndex

instance {V : Type} (gb : Index → Int) (tree : List (HoppingAmplitude V)) :
    Decidable (NonNegTraversal gb tree) := by
  unfold NonNegTraversal; infer_instance

/-- Number of distinct (from-basis-position, to-basis-position) pairs of the traversal. -/
def distinctPairs {V : Type} (getBasisIndex : Index → Int)
    (tree : List (HoppingAmplitude V)) : Nat :=
  ((tree.map (basisPair getBasisIndex)).dedup).length

/-- Sum of the complex conjugates of the amplitudes of all traversed hopping
amplitudes whose (from, to) basis positions are `p`. -/
def conjSum {V : Type} [AddMonoid V] (getBasisIndex : Index → Int) (conj : V → V)
    (tree : List (HoppingAmplitude V)) (p : Int × Int) : V :=
  ((tree.filter (fun ha => decide (basisPair getBasisIndex ha = p))).map
    (fun ha => conj ha.getAmplitude)).sum

/-- The basis positions of the scenario: `[0,0] ↦ 0`, `[1,0] ↦ 1`, anything else `-1`. -/
def scenarioBasis (i : Index) : Int :=
  if i = [0, 0] then 0 else if i = [1, 0] then 1 else -1

/-- Conjugation on Gaussian-integer pairs `(re, im)`. -/
def conjZ (z : Int × Int) : Int × Int := (z.1, -z.2)

/-- The scenario of the spec: `(2+0i, [0,0] → [1,0])` and its Hermitian conjugate. -/
def scenarioTree : List (HoppingAmplitude (Int × Int)) :=
  [ { amplitude := (2, 0), fromIndex := [0, 0], toIndex := [1, 0] },
    { amplitude := conjZ (2, 0), fromIndex := [1, 0], toIndex := [0, 0] } ]

/-- The scenario of the spec after `construct()`: sorted, no snapshot built. -/
def scenarioSet : AmplitudeSet (Int × Int) :=
  { tree := scenarioTree, isConstructed := true, isSorted := true, numMatrixElements := -1,
    cooRowIndices := none, cooColIndices := none, cooValues := none }

/-- A sorted set whose second hopping amplitude ends at `[2,0]`, an index with
basis position `-1` under `scenarioBasis`. -/
def negativeSet : AmplitudeSet (Int × Int) :=
  { tree := [ { amplitude := (1, 0), fromIndex := [0, 0], toIndex := [0, 0] },
              { amplitude := (1, 0), fromIndex := [1, 0], toIndex := [2, 0] } ],
    isConstructed := true, isSorted := true, numMatrixElements := -1,
    cooRowIndices := none, cooColIndices := none, cooValues := none }

/-- The scenario of the spec with its snapshot built. -/
def scenarioBuilt : AmplitudeSet (Int × Int) :=
  { scenarioSet with numMatrixElements := 2,
                     cooRowIndices := some [some 0, some 1],
                     cooColIndices := some [some 1, some 0],
                     cooValues := some [(2, 0), (2, 0)] }

/-- The out-parameters of `AmplitudeSet::tabulate`. -/
structure Tabulated (V : Type) where
  amplitudes : List V
  table : List Int
  numHoppingAmplitudes : Int
  maxIndexSize : Int
deriving DecidableEq, Repr

/-- One iteration of the first loop of `tabulate` (lines 197-205) on the pair
`(*numHoppingAmplitudes, *maxIndexSize)`. -/
def tabulateCountStep {V : Type} (st : Int × Int) (ha : HoppingAmplitude V) : Int × Int :=
  let numHoppingAmplitudes := st.1 + 1
  let indexSize : Int := ha.fromIndex.length
  if indexSize > st.2 then (numHoppingAmplitudes, indexSize) else (numHoppingAmplitudes, st.2)

/-- The first loop of `tabulate` (lines 193-205). -/
def tabulateCount {V : Type} (tree : List (HoppingAmplitude V)) : Int × Int :=
  tree.foldl tabulateCountStep (0, 0)

/-- The loop `for(n = 0; n < index.size(); n++) table[base + n] = index.at(n)`
of `tabulate` (lines 216-219). -/
def writeIndex (table : List Int) (base : Int) (index : Index) : Option (List Int) :=
  (List.range index.length).foldlM
    (fun t n => (index.get? n).bind (fun v => writeAt t (base + (n : Int)) v)) table

/-- The local state of the second loop of `tabulate`. -/
structure TabulateState (V : Type) where
  table : List Int
  amplitudes : List V
  counter : Int
deriving DecidableEq, Repr

/-- One iteration of the second loop of `tabulate` (lines 215-224);
`none` when the iteration writes outside an array. -/
def tabulateStep {V : Type} (maxIndexSize : Int) (st : TabulateState V)
    (ha : HoppingAmplitude V) : Option (TabulateState V) :=
  (writeIndex st.table (2 * maxIndexSize * st.counter) ha.fromIndex).bind fun t1 =>
  (writeIndex t1 (2 * maxIndexSize * st.counter + maxIndexSize) ha.toIndex).bind fun t2 =>
  (writeAt st.amplitudes st.counter ha.getAmplitude).bind fun a =>
  some { table := t2, amplitudes := a, counter := st.counter + 1 }

/-- The member function `AmplitudeSet::tabulate`; `none` when a write falls
outside the allocated arrays. -/
def tabulate {V : Type} [Zero V] (tree : List (HoppingAmplitude V)) : Option (Tabulated V) :=
  let numHoppingAmplitudes := (tabulateCount tree).1
  let maxIndexSize := (tabulateCount tree).2
  let tableSize := numHoppingAmplitudes * 2 * maxIndexSize
  let table : List Int := List.replicate tableSize.toNat (-1)
  let amplitudes : List V := List.replicate numHoppingAmplitudes.toNat 0
  (tree.foldlM (tabulateStep maxIndexSize)
    { table := table, amplitudes := amplitudes, counter := 0 }).map fun st =>
  { amplitudes := st.amplitudes, table := st.table,
    numHoppingAmplitudes := numHoppingAmplitudes, maxIndexSize := maxIndexSize }

/-- Length of the longest physical index among the entries, counting both the
`fromIndex` and the `toIndex` of every entry. -/
def longestIndex {V : Type} (tree : List (HoppingAmplitude V)) : Nat :=
  (tree.map (fun ha => max ha.fromIndex.length ha.toIndex.length)).foldr max 0

/-- A physical index left-aligned in `M` cells and padded with `-1`. -/
def padIndex (M : Nat) (index : Index) : List Int :=
  index ++ List.replicate (M - index.length) (-1)

/-- The row of the table for one entry: `fromIndex` then `toIndex`, each padded
to `M` cells. -/
def tableRow {V : Type} (M : Nat) (ha : HoppingAmplitude V) : List Int :=
  padIndex M ha.fromIndex ++ padIndex M ha.toIndex

/-- Length of the longest `fromIndex` among the entries. -/
def longestFromIndex {V : Type} (tree : List (HoppingAmplitude V)) : Nat :=
  (tree.map (fun ha => ha.fromIndex.length)).foldl max 0

/-- Two entries with non-negative index components; the `toIndex` of the first
is longer than every `fromIndex`. -/
def longToIndexTree : List (HoppingAmplitude (Int × Int)) :=
  [ { amplitude := (1, 0), fromIndex := [0], toIndex := [1, 2] },
    { amplitude := (1, 0), fromIndex := [3], toIndex := [4] } ]

/-- Strict lexicographic order on (from-basis-position, to-basis-position) pairs. -/
def pairLt (p q : Int × Int) : Prop := p.1 < q.1 ∨ (p.1 = q.1 ∧ p.2 < q.2)

instance (p q : Int × Int) : Decidable (pairLt p q) := by
  unfold pairLt; infer_instance

/-- The last pair of a list of slots, or the initial tracker value `(-1, -1)`. -/
def lastOr (slots : List (Int × Int)) : Int × Int := (slots.getLast?).getD (-1, -1)

/-! ## Definitions: DPropertyExtractor -/

/-- Number of negative entries of a pattern: the measure that decreases along the
recursion of `calculate`. -/
def countNegative (pattern : Index) : Nat := (pattern.filter (fun p => decide (p < 0))).length

/-- The scan `for(; currentSubindex >= 0; currentSubindex--) if(pattern.at(currentSubindex) < 0) break;`
of `calculate` (lines 404-408) started at `currentSubindex = k - 1`: the last
negative position below `k`, or `-1`. -/
def scanFrom (pattern : Index) : Nat → Int
  | 0 => -1
  | k + 1 => if pattern.getD k 0 < 0 then (k : Int) else scanFrom pattern k

/-- The scan ends at `-1` or at a negative entry of the pattern. -/
theorem scanFrom_spec (pattern : Index) (k : Nat) (hk : k ≤ pattern.length) :
    scanFrom pattern k = -1 ∨
      (0 ≤ scanFrom pattern k ∧ (scanFrom pattern k).toNat < pattern.length ∧
        pattern.getD (scanFrom pattern k).toNat 0 < 0) := by
  induction k with
  | zero => left; rfl
  | succ k ih =>
    unfold scanFrom
    by_cases h : pattern.getD k 0 < 0
    · right
      simp only [h, if_true]
      refine ⟨by omega, by simp; omega, by simpa using h⟩
    · simp only [h, if_false]
      exact ih (by omega)

/-- Writing a loop value `n ≥ 0` over a negative entry removes one negative entry. -/
theorem countNegative_set_lt (pattern : Index) (i : Nat) (hi : i < pattern.length)
    (hneg : pattern.getD i 0 < 0) (n : Nat) :
    countNegative (pattern.set i (n : Int)) < countNegative pattern := by
  induction pattern generalizing i with
  | nil => simp at hi
  | cons a l ih =>
    cases i with
    | zero =>
      simp only [List.getD_cons_zero] at hneg
      have h2 : ¬ ((n : Int) < 0) := by omega
      simp [countNegative, List.filter_cons, hneg, h2]
    | succ i =>
      simp only [List.getD_cons_succ] at hneg
      simp only [List.length_cons, Nat.add_lt_add_iff_right] at hi
      have := ih i hi hneg
      simp only [countNegative, List.set_cons_succ, List.filter_cons] at this ⊢
      split_ifs <;> simp <;> omega

/-- Every recursive call of `calculate` has fewer negative entries. -/
theorem calculate_decreasing (pattern : Index) (h : ¬ scanFrom pattern pattern.length = -1)
    (n : Nat) :
    countNegative (pattern.set (scanFrom pattern pattern.length).toNat (n : Int)) <
      countNegative pattern := by
  rcases scanFrom_spec pattern pattern.length (le_refl _) with h1 | ⟨_, h2, h3⟩
  · exact absurd h1 h
  · exact countNegative_set_lt pattern _ h2 h3 n

/-- The member function `DPropertyExtractor::calculate` (lines 391-433). `memory` is
the state behind the `void *memory` pointer and `callback` the function that
updates it; `IDX_SUM_ALL` is the constant of that name, which is not among the
sources. `none` when `ranges.at` throws or the callback does not return normally. -/
def calculate {M : Type} (IDX_SUM_ALL : Int) (callback : M → Index → Int → Option M)
    (memory : M) (pattern : Index) (ranges : Index) (currentOffset offsetMultiplier : Int) :
    Option M :=
  let currentSubindex := scanFrom pattern pattern.length
  if h : currentSubindex = -1 then
    callback memory pattern currentOffset
  else
    match pattern.get? currentSubindex.toNat, ranges.get? currentSubindex.toNat with
    | some p, some r =>
      let nextOffsetMultiplier := if p < IDX_SUM_ALL then offsetMultiplier * r else offsetMultiplier
      let isSumIndex : Bool := p == IDX_SUM_ALL
      ((List.range r.toNat).foldlM
        (fun (st : M × Int) (n : Nat) =>
          (calculate IDX_SUM_ALL callback st.1 (pattern.set currentSubindex.toNat (n : Int)) ranges
            st.2 nextOffsetMultiplier).map
            (fun m => (m, if !isSumIndex then st.2 + offsetMultiplier else st.2)))
        (memory, currentOffset)).map Prod.fst
    | _, _ => none
termination_by countNegative pattern
decreasing_by
  exact calculate_decreasing pattern h n

/-- The calls of the callback made by `calculate` when every position from
`k` on is concrete: positions `k-1, ..., 0` are expanded. -/
def expandFrom (IDX_SUM_ALL : Int) (ranges : Index) : Nat → Index → Int → Int → List (Index × Int)
  | 0, pattern, offset, _ => [(pattern, offset)]
  | k + 1, pattern, offset, multiplier =>
    if pattern.getD k 0 < 0 then
      (List.range (ranges.getD k 0).toNat).flatMap fun n =>
        expandFrom IDX_SUM_ALL ranges k (pattern.set k (n : Int))
          (if pattern.getD k 0 = IDX_SUM_ALL then offset else offset + (n : Int) * multiplier)
          (if pattern.getD k 0 < IDX_SUM_ALL then multiplier * ranges.getD k 0 else multiplier)
    else expandFrom IDX_SUM_ALL ranges k pattern offset multiplier

/-- Row-major index, in Horner form, of the values of `index` at the free positions
below `k` (free: `pattern[p] < IDX_SUM_ALL`). -/
def linFrom (IDX_SUM_ALL : Int) (pattern ranges index : Index) : Nat → Int
  | 0 => 0
  | k + 1 =>
    if pattern.getD k 0 < IDX_SUM_ALL then
      linFrom IDX_SUM_ALL pattern ranges index k * ranges.getD k 0 + index.getD k 0
    else linFrom IDX_SUM_ALL pattern ranges index k

/-- Product of `ranges` over the free positions below `k`. -/
def sizeFrom (IDX_SUM_ALL : Int) (pattern ranges : Index) : Nat → Int
  | 0 => 1
  | k + 1 =>
    if pattern.getD k 0 < IDX_SUM_ALL then
      sizeFrom IDX_SUM_ALL pattern ranges k * ranges.getD k 0
    else sizeFrom IDX_SUM_ALL pattern ranges k

/-- Every negative entry of the pattern is `IDX_SUM_ALL` or a free wildcard, that
is, strictly less than `IDX_SUM_ALL`. -/
def Admissible (IDX_SUM_ALL : Int) (pattern : Index) : Prop :=
  ∀ p ∈ pattern, p < 0 → p = IDX_SUM_ALL ∨ p < IDX_SUM_ALL

instance (S : Int) (pattern : Index) : Decidable (Admissible S pattern) := by
  unfold Admissible; infer_instance

/-- The entries of `values` at the free positions of the pattern (those with
`pattern[p] < IDX_SUM_ALL`), in index order. -/
def freeEntries (IDX_SUM_ALL : Int) (pattern values : Index) : List Int :=
  ((pattern.zip values).filter (fun pv => decide (pv.1 < IDX_SUM_ALL))).map Prod.snd

/-- The member function `DPropertyExtractor::getLoopRanges`: the out-parameters
`(*lDimensions, *lRanges)`; `none` when `pattern.at(n)` throws or a write falls
outside `*lRanges`. -/
def getLoopRanges (IDX_SUM_ALL : Int) (pattern ranges : Index) :
    Option (Int × List (Option Int)) :=
  ((List.range ranges.length).foldlM
    (fun (lDimensions : Int) (n : Nat) =>
      (pattern.get? n).map fun p => if p < IDX_SUM_ALL then lDimensions + 1 else lDimensions)
    0).bind fun lDimensions =>
  ((List.range ranges.length).foldlM
    (fun (st : List (Option Int) × Int) (n : Nat) =>
      (pattern.get? n).bind fun p =>
        if p < IDX_SUM_ALL then
          (ranges.get? n).bind fun r =>
            (writeAt st.1 st.2 (some r)).map fun a => (a, st.2 + 1)
        else some st)
    (List.replicate lDimensions.toNat none, 0)).map fun st => (lDimensions, st.1)

/-- The enumeration `Model::Statistics`. -/
inductive Statistics where
  | FermiDirac
  | BoseEinstein
deriving DecidableEq, Repr

/-- What `DPropertyExtractor` reads through `dSolver`, none of which is among the
sources: `getModel()->getBasisSize()`, `getModel()->getStatistics()`,
`getEigenValues()`, `getModel()->getChemicalPotential()`,
`getModel()->getTemperature()`, `getAmplitude(n, index)`, and the two functions
of `Functions.h`. `R` models `double` and `V` models `complex<double>`, both
with exact arithmetic. -/
structure Solver (R V : Type) where
  basisSize : Int
  statistics : Statistics
  eigenValues : Nat → R
  chemicalPotential : R
  temperature : R
  fermiDiracDistribution : R → R → R → R
  boseEinsteinDistribution : R → R → R → R
  getAmplitude : Nat → Index → V

/-- The occupation weight of eigenstate `n` computed at the head of each callback
loop (lines 275-285). -/
def Solver.weight {R V : Type} (solver : Solver R V) (n : Nat) : R :=
  match solver.statistics with
  | Statistics.FermiDirac =>
    solver.fermiDiracDistribution (solver.eigenValues n) solver.chemicalPotential
      solver.temperature
  | Statistics.BoseEinstein =>
    solver.boseEinsteinDistribution (solver.eigenValues n) solver.chemicalPotential
      solver.temperature

/-- The callback `DPropertyExtractor::calculateDensityCallback` (lines 266-291);
`normSq u` models `pow(abs(u), 2)`. `none` when `offset` is outside the buffer. -/
def calculateDensityCallback {R V : Type} [Add R] [Mul R] (solver : Solver R V)
    (normSq : V → R) (density : List R) (index : Index) (offset : Int) : Option (List R) :=
  (List.range solver.basisSize.toNat).foldlM
    (fun (density : List R) (n : Nat) =>
      let weight := solver.weight n
      let u := solver.getAmplitude n index
      addAt density offset (normSq u * weight))
    density

/-- The member function `DPropertyExtractor::ensureCompliantRanges` (lines 435-443):
the value of `ranges` after the call; `none` when `ranges.at(n)` throws. -/
def ensureCompliantRanges (pattern ranges : Index) : Option Index :=
  (List.range pattern.length).foldlM
    (fun (ranges : Index) (n : Nat) =>
      (pattern.get? n).bind fun p =>
        if p ≥ 0 then
          if n < ranges.length then some (ranges.set n 1) else none
        else some ranges)
    ranges

/-- Modelled from the spec: the class `Property::Density`, which is not among the
sources: an owned tensor, a flat buffer with its shape metadata. -/
structure Density (R : Type) where
  dimensions : Int
  ranges : List Int
  size : Int
  data : List R

/-- Reading every cell of an `int` array; `none` when a cell was never written. -/
def readArray : List (Option Int) → Option (List Int)
  | [] => some []
  | x :: xs => x.bind fun v => (readArray xs).map fun vs => v :: vs

/-- Modelled from the spec: the constructor `Property::Density(lDimensions, lRanges)`,
which is not among the sources: it fixes the rank and per-axis extent of the
output tensor and allocates a zero-filled buffer with one cell per coordinate. -/
def Density.new {R : Type} [Zero R] (dimensions : Int) (ranges : List (Option Int)) :
    Option (Density R) :=
  if dimensions.toNat ≤ ranges.length then
    (readArray (ranges.take dimensions.toNat)).map fun rs =>
      { dimensions := dimensions, ranges := rs, size := rs.prod,
        data := List.replicate rs.prod.toNat 0 }
  else none

/-- The member function `DPropertyExtractor::calculateDensity` (lines 133-147). -/
def calculateDensity {R V : Type} [AddMonoid R] [Mul R] (IDX_SUM_ALL : Int)
    (solver : Solver R V) (normSq : V → R) (pattern ranges : Index) : Option (Density R) :=
  (ensureCompliantRanges pattern ranges).bind fun ranges =>
  (getLoopRanges IDX_SUM_ALL pattern ranges).bind fun l =>
  (Density.new l.1 l.2).bind fun density =>
  (calculate IDX_SUM_ALL (calculateDensityCallback solver normSq) density.data pattern ranges
    0 1).map fun data => { density with data := data }

/-- A solver with two eigenstates, unit weights and unit amplitudes. -/
def unitSolver : Solver Int Int :=
  { basisSize := 2, statistics := Statistics.FermiDirac, eigenValues := fun _ => 0,
    chemicalPotential := 0, temperature := 0,
    fermiDiracDistribution := fun _ _ _ => 1, boseEinsteinDistribution := fun _ _ _ => 1,
    getAmplitude := fun _ _ => 1 }

/-- The entries of `values` at the positions that the spec calls free: the
pattern value is negative and neither `IDX_SUM_ALL` nor `IDX_SPIN`. -/
def claimedFreeEntries (IDX_SUM_ALL IDX_SPIN : Int) (pattern values : Index) : List Int :=
  ((pattern.zip values).filter
    (fun pv => decide (pv.1 < 0 ∧ pv.1 ≠ IDX_SUM_ALL ∧ pv.1 ≠ IDX_SPIN))).map Prod.snd

/-- The concrete indices on which `calculate` calls the callback when every
position from `k` on is concrete, without their offsets. -/
def indicesFrom (ranges : Index) : Nat → Index → List Index
  | 0, pattern => [pattern]
  | k + 1, pattern =>
    if pattern.getD k 0 < 0 then
      (List.range (ranges.getD k 0).toNat).flatMap fun n =>
        indicesFrom ranges k (pattern.set k (n : Int))
    else indicesFrom ranges k pattern

/-- The index `index` is obtained from the pattern by replacing every negative
position `p` with a value in `[0, ranges[p])` and keeping every non-negative
position. -/
def IsInstance (pattern ranges index : Index) : Prop :=
  index.length = pattern.length ∧
  ∀ i, i < pattern.length →
    (0 ≤ pattern.getD i 0 → index.getD i 0 = pattern.getD i 0) ∧
    (pattern.getD i 0 < 0 → 0 ≤ index.getD i 0 ∧ index.getD i 0 < ranges.getD i 0)

/-- The entries of `ranges` at the negative positions of the pattern, in index order. -/
def wildcardRanges (pattern ranges : Index) : List Int :=
  ((pattern.zip ranges).filter (fun pr => decide (pr.1 < 0))).map Prod.snd

/-- The number of loop iterations that the extents `rs` give: each loop
`for(n = 0; n < r; n++)` runs `r` times, and not at all when `r <= 0`. -/
def iterations (rs : List Int) : Nat := (rs.map Int.toNat).prod

/-- The conversion `(int)x` of a `double` to `int`: the fractional part is
discarded, that is, the value is rounded toward zero. The result is taken in the
unbounded integers. -/
def truncToInt {R : Type} [LinearOrderedField R] [FloorRing R] (x : R) : Int :=
  if 0 ≤ x then ⌊x⌋ else ⌈x⌉

/-- Modelled from the spec: the class `Property::DOS`, which is not among the
sources: a linear histogram of `resolution` bins over `[lowerBound, upperBound)`. -/
structure DOS (R : Type) where
  lowerBound : R
  upperBound : R
  resolution : Int
  data : List R

/-- Modelled from the spec: the constructor
`Property::DOS(lowerBound, upperBound, resolution)`, which is not among the
sources: it allocates a zero-filled histogram of `resolution` bins. -/
def DOS.new {R : Type} [Zero R] (lowerBound upperBound : R) (resolution : Int) : DOS R :=
  { lowerBound := lowerBound, upperBound := upperBound, resolution := resolution,
    data := List.replicate resolution.toNat 0 }

/-- One iteration of the loop of `calculateDOS` (lines 87-92) for the eigenvalue
`ev`; `none` when the update is outside the histogram. -/
def calculateDOSStep {R : Type} [LinearOrderedField R] [FloorRing R] (lowerBound upperBound : R)
    (resolution : Int) (data : List R) (ev : R) : Option (List R) :=
  let e := truncToInt (((ev - lowerBound) / (upperBound - lowerBound)) * (resolution : R))
  if e ≥ 0 ∧ e < resolution then addAt data e 1 else some data

/-- The member function `DPropertyExtractor::calculateDOS` (lines 79-95). -/
def calculateDOS {R V : Type} [LinearOrderedField R] [FloorRing R] (solver : Solver R V)
    (lowerBound upperBound : R) (resolution : Int) : Option (DOS R) :=
  let dos : DOS R := DOS.new lowerBound upperBound resolution
  ((List.range solver.basisSize.toNat).foldlM
    (fun (data : List R) (n : Nat) =>
      calculateDOSStep lowerBound upperBound resolution data (solver.eigenValues n))
    dos.data).map fun data => { dos with data := data }

/-- The bin index of the spec:
`floor((ev - lowerBound) / ((upperBound - lowerBound) / resolution))`. -/
def floorBin {R : Type} [LinearOrderedField R] [FloorRing R] (lowerBound upperBound : R)
    (resolution : Int) (ev : R) : Int :=
  ⌊(ev - lowerBound) / ((upperBound - lowerBound) / (resolution : R))⌋

/-- The number of eigenstates `n < m` whose bin index `bin n` is `k`. -/
def binCount (bin : Nat → Int) (m : Nat) (k : Int) : Nat :=
  ((List.range m).filter fun n => decide (bin n = k)).length

/-- A solver over the rationals with the four eigenvalues `-2, -1, 0, 1`. -/
def dosScenarioSolver : Solver ℚ ℚ :=
  { basisSize := 4, statistics := Statistics.FermiDirac, eigenValues := fun n => (n : ℚ) - 2,
    chemicalPotential := 0, temperature := 0,
    fermiDiracDistribution := fun _ _ _ => 1, boseEinsteinDistribution := fun _ _ _ => 1,
    getAmplitude := fun _ _ => 1 }

/-- A solver over the rationals with the single eigenvalue `ev` and unit amplitudes. -/
def singleSolver (ev : ℚ) : Solver ℚ ℚ :=
  { basisSize := 1, statistics := Statistics.FermiDirac, eigenValues := fun _ => ev,
    chemicalPotential := 0, temperature := 0,
    fermiDiracDistribution := fun _ _ _ => 1, boseEinsteinDistribution := fun _ _ _ => 1,
    getAmplitude := fun _ _ => 1 }

/-- One iteration of the loop of `calculateLDOSCallback` (lines 345-353) for the
eigenstate `n`; `re` models `real` and `conj` models `conj` on `complex<double>`.
`none` when the update is outside the buffer. -/
def calculateLDOSStep {R V : Type} [LinearOrderedField R] [FloorRing R] [Mul V]
    (solver : Solver R V) (re : V → R) (conj : V → V) (u_lim l_lim : R) (resolution : Int)
    (step_size : R) (index : Index) (offset : Int) (ldos : List R) (n : Nat) :
    Option (List R) :=
  if solver.eigenValues n > l_lim ∧ solver.eigenValues n < u_lim then
    let u := solver.getAmplitude n index
    let e := truncToInt ((solver.eigenValues n - l_lim) / step_size)
    let e := if e ≥ resolution then resolution - 1 else e
    addAt ldos (resolution * offset + e) (re (conj u * u))
  else some ldos

/-- The callback `DPropertyExtractor::calculateLDOSCallback` (lines 330-354);
`u_lim`, `l_lim` and `resolution` are the values it reads from `hint`. -/
def calculateLDOSCallback {R V : Type} [LinearOrderedField R] [FloorRing R] [Mul V]
    (solver : Solver R V) (re : V → R) (conj : V → V) (u_lim l_lim : R) (resolution : Int)
    (ldos : List R) (index : Index) (offset : Int) : Option (List R) :=
  let step_size := (u_lim - l_lim) / (resolution : R)
  (List.range solver.basisSize.toNat).foldlM
    (calculateLDOSStep solver re conj u_lim l_lim resolution step_size index offset) ldos

/-- One iteration of the loop of `calculateMAGCallback` (lines 306-327) for the
eigenstate `n`; `ofReal` models the conversion of the `double` weight in the
products `complex<double> * double`. `none` when an update is outside the buffer. -/
def calculateMAGStep {R V : Type} [Add V] [Mul V] (solver : Solver R V) (conj : V → V)
    (ofReal : R → V) (index_u index_d : Index) (offset : Int) (mag : List V) (n : Nat) :
    Option (List V) :=
  let weight := solver.weight n
  let u_u := solver.getAmplitude n index_u
  let u_d := solver.getAmplitude n index_d
  (addAt mag (4 * offset + 0) (conj u_u * u_u * ofReal weight)).bind fun mag =>
  (addAt mag (4 * offset + 1) (conj u_u * u_d * ofReal weight)).bind fun mag =>
  (addAt mag (4 * offset + 2) (conj u_d * u_u * ofReal weight)).bind fun mag =>
  addAt mag (4 * offset + 3) (conj u_d * u_d * ofReal weight)

/-- The callback `DPropertyExtractor::calculateMAGCallback` (lines 293-328);
`spin_index` is the value it reads from `hint`. `none` when `index.at(spin_index)`
throws or an update is outside the buffer. -/
def calculateMAGCallback {R V : Type} [Add V] [Mul V] (solver : Solver R V) (conj : V → V)
    (ofReal : R → V) (spin_index : Int) (mag : List V) (index : Index) (offset : Int) :
    Option (List V) :=
  if 0 ≤ spin_index ∧ spin_index < index.length then
    let index_u := index.set spin_index.toNat 0
    let index_d := index.set spin_index.toNat 1
    (List.range solver.basisSize.toNat).foldlM
      (calculateMAGStep solver conj ofReal index_u index_d offset) mag
  else none

/-- The contribution of eigenstate `n` to the component `j` of the cell of
`index`: `w_n * conj(u_up) * u_up`, `w_n * conj(u_up) * u_down`,
`w_n * conj(u_down) * u_up`, `w_n * conj(u_down) * u_down` for `j = 0, 1, 2, 3`,
where `u_up` and `u_down` are the amplitudes of eigenstate `n` at `index` with
the position `spin` set to 0 and to 1. -/
def magTerm {R V : Type} [Mul V] (solver : Solver R V) (conj : V → V) (ofReal : R → V)
    (spin : Nat) (index : Index) (j : Nat) (n : Nat) : V :=
  let u_up := solver.getAmplitude n (index.set spin 0)
  let u_down := solver.getAmplitude n (index.set spin 1)
  let w := ofReal (solver.weight n)
  match j with
  | 0 => w * conj u_up * u_up
  | 1 => w * conj u_up * u_down
  | 2 => w * conj u_down * u_up
  | _ => w * conj u_down * u_down

/-- A solver over the integers with two eigenstates, weights `2` and `3`, whose
amplitude at an index is the first component of the index plus one. -/
def spinSolver : Solver Int Int :=
  { basisSize := 2, statistics := Statistics.FermiDirac, eigenValues := fun n => (n : Int) + 2,
    chemicalPotential := 0, temperature := 0,
    fermiDiracDistribution := fun e _ _ => e, boseEinsteinDistribution := fun _ _ _ => 1,
    getAmplitude := fun _ index => index.getD 0 0 + 1 }

/-- A solver over the integers whose basis is empty: no eigenstate, so a
callback invocation updates no cell. -/
def emptySolver : Solver Int Int :=
  { basisSize := 0, statistics := Statistics.FermiDirac, eigenValues := fun _ => 0,
    chemicalPotential := 0, temperature := 0,
    fermiDiracDistribution := fun _ _ _ => 1, boseEinsteinDistribution := fun _ _ _ => 1,
    getAmplitude := fun _ _ => 1 }

/-- One iteration of the loop of `calculateSP_LDOSCallback` (lines 375-388) for
the eigenstate `n`. `none` when an update is outside the buffer. -/
def calculateSP_LDOSStep {R V : Type} [LinearOrderedField R] [FloorRing R] [Add V] [Mul V]
    (solver : Solver R V) (conj : V → V) (u_lim l_lim : R) (resolution : Int)
    (step_size : R) (index_u index_d : Index) (offset : Int) (sp_ldos : List V) (n : Nat) :
    Option (List V) :=
  if solver.eigenValues n > l_lim ∧ solver.eigenValues n < u_lim then
    let u_u := solver.getAmplitude n index_u
    let u_d := solver.getAmplitude n index_d
    let e := truncToInt ((solver.eigenValues n - l_lim) / step_size)
    let e := if e ≥ resolution then resolution - 1 else e
    (addAt sp_ldos (4 * resolution * offset + 4 * e + 0) (conj u_u * u_u)).bind fun sp_ldos =>
    (addAt sp_ldos (4 * resolution * offset + 4 * e + 1) (conj u_u * u_d)).bind fun sp_ldos =>
    (addAt sp_ldos (4 * resolution * offset + 4 * e + 2) (conj u_d * u_u)).bind fun sp_ldos =>
    addAt sp_ldos (4 * resolution * offset + 4 * e + 3) (conj u_d * u_d)
  else some sp_ldos

/-- The callback `DPropertyExtractor::calculateSP_LDOSCallback` (lines 356-389);
`u_lim`, `l_lim`, `resolution` and `spin_index` are the values it reads from
`hint`. `none` when `index.at(spin_index)` throws or an update is outside the
buffer. -/
def calculateSP_LDOSCallback {R V : Type} [LinearOrderedField R] [FloorRing R] [Add V] [Mul V]
    (solver : Solver R V) (conj : V → V) (u_lim l_lim : R) (resolution : Int)
    (spin_index : Int) (sp_ldos : List V) (index : Index) (offset : Int) : Option (List V) :=
  let step_size := (u_lim - l_lim) / (resolution : R)
  if 0 ≤ spin_index ∧ spin_index < index.length then
    let index_u := index.set spin_index.toNat 0
    let index_d := index.set spin_index.toNat 1
    (List.range solver.basisSize.toNat).foldlM
      (calculateSP_LDOSStep solver conj u_lim l_lim resolution step_size index_u index_d offset)
      sp_ldos
  else none

/-- The data members of `Property::Magnetization`. -/
structure Magnetization (V : Type) where
  dimensions : Int
  ranges : List Int
  size : Int
  data : List V

/-- The value that a 32-bit `int` variable holds after an arithmetic operation
whose mathematical result is `x`: `x` reduced modulo `2^32` into
`[-2^31, 2^31)` (wrap-around). -/
def wrapInt (x : Int) : Int := (x + 2147483648) % 4294967296 - 2147483648

/-- The constructor `Magnetization::Magnetization(int dimensions, const int* ranges)`
(Magnetization.cpp, lines 28-41). The member `size` is an `int`: each
`size *= ranges[n]` wraps around at 32 bits. `none` when a cell of `ranges` is
read outside the array or before it was written, or when an array of negative
size is requested. -/
def Magnetization.new {V : Type} [Zero V] (dimensions : Int) (ranges : List (Option Int)) :
    Option (Magnetization V) :=
  if 0 ≤ dimensions ∧ dimensions.toNat ≤ ranges.length then
    (readArray (ranges.take dimensions.toNat)).bind fun rs =>
      let size := rs.foldl (fun size r => wrapInt (size * r)) 4
      if 0 ≤ size then
        some { dimensions := dimensions, ranges := rs, size := size,
               data := List.replicate size.toNat 0 }
      else none
  else none

/-- Modelled from the spec: the class `Property::SpinPolarizedLDOS`, which is not
among the sources: an owned tensor with `4 * resolution` complex values per cell. -/
structure SpinPolarizedLDOS (R V : Type) where
  dimensions : Int
  ranges : List Int
  lowerBound : R
  upperBound : R
  resolution : Int
  size : Int
  data : List V

/-- Modelled from the spec: the constructor `Property::SpinPolarizedLDOS(lDimensions,
lRanges, lowerBound, upperBound, resolution)`, which is not among the sources: it
fixes the rank and per-axis extent of the output tensor and allocates a
zero-filled buffer with `4 * resolution` values per cell. -/
def SpinPolarizedLDOS.new {R V : Type} [Zero V] (dimensions : Int) (ranges : List (Option Int))
    (lowerBound upperBound : R) (resolution : Int) : Option (SpinPolarizedLDOS R V) :=
  if dimensions.toNat ≤ ranges.length then
    (readArray (ranges.take dimensions.toNat)).map fun rs =>
      { dimensions := dimensions, ranges := rs, lowerBound := lowerBound,
        upperBound := upperBound, resolution := resolution,
        size := 4 * resolution * rs.prod,
        data := List.replicate (4 * resolution * rs.prod).toNat 0 }
  else none

/-- What a call of a quantity function did: the pointer it returned (`none` is
`NULL`), whether it allocated an output tensor with `new`, and the callback
invocations it made, in order, each as (concrete index, offset). -/
structure Run (T : Type) where
  result : Option T
  allocated : Bool
  calls : List (Index × Int)

/-- The search loop for the spin position (lines 154-162 and 235-243) on the
remaining entries of the pattern, `n` being the position of the first of them:
the value of the hint after the loop, that is, the first position whose entry
is `IDX_SPIN`, or `-1` when there is none. -/
def findSpin (IDX_SPIN : Int) : Index → Nat → Int
  | [], _ => -1
  | p :: rest, n => if p == IDX_SPIN then (n : Int) else findSpin IDX_SPIN rest (n + 1)

/-- A callback together with the record of its invocations. -/
def recording {M : Type} (callback : M → Index → Int → Option M)
    (st : M × List (Index × Int)) (index : Index) (offset : Int) :
    Option (M × List (Index × Int)) :=
  (callback st.1 index offset).map fun m => (m, st.2 ++ [(index, offset)])

/-- The member function `DPropertyExtractor::calculateMagnetization` (lines
149-181). `IDX_SPIN` is the constant of that name, which is not among the
sources. `none` when the function does not return normally. -/
def calculateMagnetization {R V : Type} [Add V] [Mul V] [Zero V] (IDX_SUM_ALL IDX_SPIN : Int)
    (solver : Solver R V) (conj : V → V) (ofReal : R → V) (pattern ranges : Index) :
    Option (Run (Magnetization V)) :=
  let hint := findSpin IDX_SPIN pattern 0
  if hint = -1 then
    some { result := none, allocated := false, calls := [] }
  else if hint.toNat < ranges.length then
    let pattern := pattern.set hint.toNat 0
    let ranges := ranges.set hint.toNat 1
    (ensureCompliantRanges pattern ranges).bind fun ranges =>
    (getLoopRanges IDX_SUM_ALL pattern ranges).bind fun l =>
    (Magnetization.new l.1 l.2).bind fun magnetization =>
    (calculate IDX_SUM_ALL (recording (calculateMAGCallback solver conj ofReal hint))
      (magnetization.data, []) pattern ranges 0 1).map fun m =>
      { result := some { magnetization with data := m.1 }, allocated := true, calls := m.2 }
  else none

/-- The member function `DPropertyExtractor::calculateSpinPolarizedLDOS` (lines
214-264). `none` when the function does not return normally. -/
def calculateSpinPolarizedLDOS {R V : Type} [LinearOrderedField R] [FloorRing R] [Add V]
    [Mul V] [Zero V] (IDX_SUM_ALL IDX_SPIN : Int) (solver : Solver R V) (conj : V → V)
    (pattern ranges : Index) (lowerBound upperBound : R) (resolution : Int) :
    Option (Run (SpinPolarizedLDOS R V)) :=
  let hint := findSpin IDX_SPIN pattern 0
  if hint = -1 then
    some { result := none, allocated := false, calls := [] }
  else if hint.toNat < ranges.length then
    let pattern := pattern.set hint.toNat 0
    let ranges := ranges.set hint.toNat 1
    (ensureCompliantRanges pattern ranges).bind fun ranges =>
    (getLoopRanges IDX_SUM_ALL pattern ranges).bind fun l =>
    (SpinPolarizedLDOS.new l.1 l.2 lowerBound upperBound resolution).bind
      fun (spinPolarizedLDOS : SpinPolarizedLDOS R V) =>
    (calculate IDX_SUM_ALL
      (recording (calculateSP_LDOSCallback solver conj upperBound lowerBound resolution hint))
      (spinPolarizedLDOS.data, []) pattern ranges 0 1).map fun m =>
      { result := some { spinPolarizedLDOS with data := m.1 }, allocated := true,
        calls := m.2 }
  else none

/-- The entries of `values` at the free positions other than the SPIN position:
the pattern value is strictly less than `IDX_SUM_ALL` and is not `IDX_SPIN`. -/
def freeNonSpinEntries (IDX_SUM_ALL IDX_SPIN : Int) (pattern values : Index) : List Int :=
  ((pattern.zip values).filter
    (fun pv => decide (pv.1 < IDX_SUM_ALL ∧ pv.1 ≠ IDX_SPIN))).map Prod.snd

/-- Sum of the amplitudes of all traversed hopping amplitudes whose (from, to)
basis positions are `p`. -/
def ampSum {V : Type} [AddMonoid V] (getBasisIndex : Index → Int)
    (tree : List (HoppingAmplitude V)) (p : Int × Int) : V :=
  ((tree.filter (fun ha => decide (basisPair getBasisIndex ha = p))).map
    (fun ha => ha.getAmplitude)).sum

/-- The traversal is closed under Hermitian conjugation: with every pair
`(f, t)` of basis positions that has entries, the pair `(t, f)` has entries, and
the sum of the amplitudes from `t` to `f` is the complex conjugate of the sum of
the amplitudes from `f` to `t`. -/
def HermitianClosed {V : Type} [AddMonoid V] (getBasisIndex : Index → Int) (conj : V → V)
    (tree : List (HoppingAmplitude V)) : Prop :=
  ∀ p ∈ tree.map (basisPair getBasisIndex),
    (p.2, p.1) ∈ tree.map (basisPair getBasisIndex) ∧
    ampSum getBasisIndex tree (p.2, p.1) = conj (ampSum getBasisIndex tree p)

instance {V : Type} [AddMonoid V] [DecidableEq V] (gb : Index → Int) (conj : V → V)
    (tree : List (HoppingAmplitude V)) : Decidable (HermitianClosed gb conj tree) := by
  unfold HermitianClosed; infer_instance

/-- The entries (row, column, value) of the snapshot, in slot order; empty when
an array pointer is `NULL`. -/
def AmplitudeSet.entries {V : Type} (s : AmplitudeSet V) :
    List (Option Int × Option Int × V) :=
  match s.cooRowIndices, s.cooColIndices, s.cooValues with
  | some rows, some cols, some vals => List.zip rows (List.zip cols vals)
  | _, _, _ => []

/-- A sorted set that is closed under Hermitian conjugation and contains the
index `[2,0]`, whose basis position under `scenarioBasis` is `-1`: the pairs of
basis positions are `(-1, 1)`, `(0, 0)`, `(1, -1)`. -/
def hermitianNegativeSet : AmplitudeSet (Int × Int) :=
  { tree := [ { amplitude := (1, 1), fromIndex := [2, 0], toIndex := [1, 0] },
              { amplitude := (3, 0), fromIndex := [0, 0], toIndex := [0, 0] },
              { amplitude := (1, -1), fromIndex := [1, 0], toIndex := [2, 0] } ],
    isConstructed := true, isSorted := true, numMatrixElements := -1,
    cooRowIndices := none, cooColIndices := none, cooValues := none }

/-- The set `hermitianNegativeSet` with the snapshot that `constructCOO` builds. -/
def hermitianNegativeBuilt : AmplitudeSet (Int × Int) :=
  { hermitianNegativeSet with numMatrixElements := 2,
                              cooRowIndices := some [some (-1), some 0],
                              cooColIndices := some [some 1, some 0],
                              cooValues := some [(1, -1), (4, 1)] }

/-- The class `std::complex<T>` with exact arithmetic: a real and an imaginary part. -/
structure Cx (R : Type) where
  re : R
  im : R
deriving DecidableEq, Repr

theorem Cx.eq_iff {R : Type} (a b : Cx R) : a = b ↔ a.re = b.re ∧ a.im = b.im := by
  cases a; cases b; simp

instance {R : Type} [Zero R] : Zero (Cx R) := ⟨⟨0, 0⟩⟩

instance {R : Type} [Zero R] [One R] : One (Cx R) := ⟨⟨1, 0⟩⟩

instance {R : Type} [Add R] : Add (Cx R) := ⟨fun a b => ⟨a.re + b.re, a.im + b.im⟩⟩

instance {R : Type} [Add R] [Sub R] [Mul R] : Mul (Cx R) :=
  ⟨fun a b => ⟨a.re * b.re - a.im * b.im, a.re * b.im + a.im * b.re⟩⟩

/-- The function `conj` of `std::complex`. -/
def Cx.conj {R : Type} [Neg R] (a : Cx R) : Cx R := ⟨a.re, -a.im⟩

/-- The conversion of a real number to a complex number in the products
`complex<double> * double`. -/
def Cx.ofReal {R : Type} [Zero R] (x : R) : Cx R := ⟨x, 0⟩

theorem Cx.zero_re {R : Type} [Zero R] : (0 : Cx R).re = 0 := rfl

theorem Cx.zero_im {R : Type} [Zero R] : (0 : Cx R).im = 0 := rfl

theorem Cx.one_re {R : Type} [Zero R] [One R] : (1 : Cx R).re = 1 := rfl

theorem Cx.one_im {R : Type} [Zero R] [One R] : (1 : Cx R).im = 0 := rfl

theorem Cx.add_re {R : Type} [Add R] (a b : Cx R) : (a + b).re = a.re + b.re := rfl

theorem Cx.add_im {R : Type} [Add R] (a b : Cx R) : (a + b).im = a.im + b.im := rfl

theorem Cx.mul_re {R : Type} [Add R] [Sub R] [Mul R] (a b : Cx R) :
    (a * b).re = a.re * b.re - a.im * b.im := rfl

theorem Cx.mul_im {R : Type} [Add R] [Sub R] [Mul R] (a b : Cx R) :
    (a * b).im = a.re * b.im + a.im * b.re := rfl

instance {R : Type} [CommRing R] : CommSemiring (Cx R) where
  add_assoc a b c := by
    rw [Cx.eq_iff]; simp only [Cx.add_re, Cx.add_im, add_assoc, and_self]
  zero_add a := by
    rw [Cx.eq_iff]; simp only [Cx.add_re, Cx.add_im, Cx.zero_re, Cx.zero_im, zero_add, and_self]
  add_zero a := by
    rw [Cx.eq_iff]; simp only [Cx.add_re, Cx.add_im, Cx.zero_re, Cx.zero_im, add_zero, and_self]
  add_comm a b := by
    rw [Cx.eq_iff]; exact ⟨add_comm _ _, add_comm _ _⟩
  left_distrib a b c := by
    rw [Cx.eq_iff]; simp only [Cx.add_re, Cx.add_im, Cx.mul_re, Cx.mul_im]
    constructor <;> ring
  right_distrib a b c := by
    rw [Cx.eq_iff]; simp only [Cx.add_re, Cx.add_im, Cx.mul_re, Cx.mul_im]
    constructor <;> ring
  zero_mul a := by
    rw [Cx.eq_iff]; simp only [Cx.mul_re, Cx.mul_im, Cx.zero_re, Cx.zero_im]
    constructor <;> ring
  mul_zero a := by
    rw [Cx.eq_iff]; simp only [Cx.mul_re, Cx.mul_im, Cx.zero_re, Cx.zero_im]
    constructor <;> ring
  mul_assoc a b c := by
    rw [Cx.eq_iff]; simp only [Cx.mul_re, Cx.mul_im]
    constructor <;> ring
  one_mul a := by
    rw [Cx.eq_iff]; simp only [Cx.mul_re, Cx.mul_im, Cx.one_re, Cx.one_im]
    constructor <;> ring
  mul_one a := by
    rw [Cx.eq_iff]; simp only [Cx.mul_re, Cx.mul_im, Cx.one_re, Cx.one_im]
    constructor <;> ring
  mul_comm a b := by
    rw [Cx.eq_iff]; simp only [Cx.mul_re, Cx.mul_im]
    constructor <;> ring
  nsmul := nsmulRec

/-- A solver over the integers with two eigenstates, weights `2` and `3`, whose
complex amplitude at an index has the first component of the index plus one as
real part and the eigenstate number plus one as imaginary part. -/
def cxSolver : Solver Int (Cx Int) :=
  { basisSize := 2, statistics := Statistics.FermiDirac, eigenValues := fun n => (n : Int) + 2,
    chemicalPotential := 0, temperature := 0,
    fermiDiracDistribution := fun e _ _ => e, boseEinsteinDistribution := fun _ _ _ => 1,
    getAmplitude := fun n index => ⟨index.getD 0 0 + 1, (n : Int) + 1⟩ }

/-! ## Lemmas and theorems: AmplitudeSet -/

/-- Reading inside a list. -/
theorem get?_eq_some_getD (l : Index) (k : Nat) (hk : k < l.length) :
    l.get? k = some (l.getD k 0) := by
  rw [List.get?_eq_getElem?, List.getD_eq_getElem?_getD, List.getElem?_eq_getElem hk]
  rfl

theorem pairLt_ne {p q : Int × Int} (h : pairLt p q) : p ≠ q := by
  rintro rfl
  unfold pairLt at h
  omega

theorem pairLt_of_le_of_ne {p q : Int × Int} (h : pairLe p q) (hne : p ≠ q) : pairLt p q := by
  unfold pairLe at h
  unfold pairLt
  rcases h with h | ⟨h1, h2⟩
  · exact Or.inl h
  · right
    refine ⟨h1, lt_of_le_of_ne h2 ?_⟩
    intro h3
    exact hne (Prod.ext h1 h3)

theorem pairLt_of_lt_of_le {p q r : Int × Int} (h : pairLt p q) (h2 : pairLe q r) :
    pairLt p r := by
  unfold pairLt at *
  unfold pairLe at h2
  omega

/-- One counting iteration on a pair that is not below the tracked pair and has a
non-negative row: the trackers become the pair, and the count grows exactly when
the pair is new. -/
theorem countStep_eq {V : Type} (gb : Index → Int) (st : CountState) (ha : HoppingAmplitude V)
    (hle : pairLe (st.currentCol, st.currentRow) (basisPair gb ha))
    (hrow : 0 ≤ gb ha.toIndex) :
    countStep gb st ha =
      { numMatrixElements := st.numMatrixElements +
          (if basisPair gb ha = (st.currentCol, st.currentRow) then 0 else 1),
        currentCol := gb ha.fromIndex, currentRow := gb ha.toIndex } := by
  obtain ⟨n, c, r⟩ := st
  simp only [pairLe, basisPair] at hle
  simp only [countStep, basisPair, Prod.mk.injEq]
  by_cases h1 : gb ha.fromIndex > c
  · have h2 : gb ha.toIndex > -1 := by omega
    have h3 : ¬ (gb ha.fromIndex = c ∧ gb ha.toIndex = r) := by omega
    simp [h1, h2, h3]
  · have h4 : gb ha.fromIndex = c := by omega
    have h5 : r ≤ gb ha.toIndex := by omega
    by_cases h6 : gb ha.toIndex > r
    · have h3 : ¬ (gb ha.fromIndex = c ∧ gb ha.toIndex = r) := by omega
      have h8 : gb ha.toIndex ≠ r := by omega
      simp [h1, h6, h4, h8]
    · have h7 : gb ha.toIndex = r := by omega
      simp [h1, h6, h4, h7]

/-- The count never decreases. -/
theorem countStep_mono {V : Type} (gb : Index → Int) (st : CountState) (ha : HoppingAmplitude V) :
    st.numMatrixElements ≤ (countStep gb st ha).numMatrixElements := by
  unfold countStep
  simp only
  split_ifs <;> simp

theorem countPass_concat {V : Type} (gb : Index → Int) (pre : List (HoppingAmplitude V))
    (ha : HoppingAmplitude V) :
    countPass gb (pre ++ [ha]) = countStep gb (countPass gb pre) ha := by
  simp [countPass, List.foldl_append]

/-- Writing the first cell after a prefix `A`. -/
theorem writeAt_length_append {α : Type} (A R : List α) (x v : α) :
    writeAt (A ++ x :: R) (A.length : Int) v = some (A ++ v :: R) := by
  unfold writeAt
  have h : (0 : Int) ≤ (A.length : Int) ∧ (A.length : Int) < ((A ++ x :: R).length : Int) := by
    simp
  rw [if_pos h]
  simp

/-- Adding into the first cell after a prefix `A`. -/
theorem addAt_length_append {α : Type} [Add α] (A R : List α) (x v : α) :
    addAt (A ++ x :: R) (A.length : Int) v = some (A ++ (x + v) :: R) := by
  unfold addAt
  have h : (0 : Int) ≤ (A.length : Int) ∧ (A.length : Int) < ((A ++ x :: R).length : Int) := by
    simp
  rw [if_pos h]
  have hg : (A ++ x :: R).get? (A.length : Int).toNat = some x := by
    rw [List.get?_eq_getElem?, Int.toNat_ofNat, List.getElem?_append_right (le_refl _)]
    simp
  rw [hg]
  simp

/-- One filling iteration on a pair above the tracked pair: the next slot is written. -/
theorem fillStep_new {V : Type} [Add V] (gb : Index → Int) (conj : V → V) (st : FillState V)
    (ha : HoppingAmplitude V)
    (hle : pairLe (st.currentCol, st.currentRow) (basisPair gb ha))
    (hrow : 0 ≤ gb ha.toIndex)
    (hne : basisPair gb ha ≠ (st.currentCol, st.currentRow)) :
    fillStep gb conj st ha =
      match writeAt st.cooRowIndices (st.currentMatrixElement + 1) (some (gb ha.fromIndex)),
            writeAt st.cooColIndices (st.currentMatrixElement + 1) (some (gb ha.toIndex)),
            writeAt st.cooValues (st.currentMatrixElement + 1) (conj ha.getAmplitude) with
      | some rows, some cols, some vals =>
        some { currentMatrixElement := st.currentMatrixElement + 1,
               currentCol := gb ha.fromIndex, currentRow := gb ha.toIndex,
               cooRowIndices := rows, cooColIndices := cols, cooValues := vals }
      | _, _, _ => none := by
  obtain ⟨m, c, r, rows, cols, vals⟩ := st
  simp only [pairLe, basisPair] at hle
  simp only [basisPair, ne_eq, Prod.mk.injEq] at hne
  simp only [fillStep]
  by_cases h1 : gb ha.fromIndex > c
  · have h2 : gb ha.toIndex > -1 := by omega
    simp only [h1, h2, if_true]
  · have h4 : gb ha.fromIndex = c := by omega
    have h6 : gb ha.toIndex > r := by omega
    simp only [h1, h6, if_true, if_false]
    simp only [h4]

/-- One filling iteration on the tracked pair: the value is added into the current slot. -/
theorem fillStep_same {V : Type} [Add V] (gb : Index → Int) (conj : V → V) (st : FillState V)
    (ha : HoppingAmplitude V)
    (heq : basisPair gb ha = (st.currentCol, st.currentRow)) :
    fillStep gb conj st ha =
      match addAt st.cooValues st.currentMatrixElement (conj ha.getAmplitude) with
      | some vals => some { st with cooValues := vals }
      | none => none := by
  obtain ⟨m, c, r, rows, cols, vals⟩ := st
  simp only [basisPair, Prod.mk.injEq] at heq
  obtain ⟨h1, h2⟩ := heq
  have h3 : ¬ (gb ha.fromIndex > c) := by omega
  have h4 : ¬ (gb ha.toIndex > r) := by omega
  simp only [fillStep, h3, h4, if_false]

theorem conjSum_concat_of_ne {V : Type} [AddMonoid V] (gb : Index → Int) (conj : V → V)
    (pre : List (HoppingAmplitude V)) (e : HoppingAmplitude V) (q : Int × Int)
    (h : q ≠ basisPair gb e) : conjSum gb conj (pre ++ [e]) q = conjSum gb conj pre q := by
  have h2 : ¬ (basisPair gb e = q) := fun h3 => h h3.symm
  simp [conjSum, List.filter_append, List.filter_cons, h2]

theorem conjSum_concat_self {V : Type} [AddMonoid V] (gb : Index → Int) (conj : V → V)
    (pre : List (HoppingAmplitude V)) (e : HoppingAmplitude V) :
    conjSum gb conj (pre ++ [e]) (basisPair gb e) =
      conjSum gb conj pre (basisPair gb e) + conj e.getAmplitude := by
  simp [conjSum, List.filter_append, List.filter_cons]

theorem conjSum_of_not_mem {V : Type} [AddMonoid V] (gb : Index → Int) (conj : V → V)
    (pre : List (HoppingAmplitude V)) (q : Int × Int)
    (h : q ∉ pre.map (basisPair gb)) : conjSum gb conj pre q = 0 := by
  have h2 : pre.filter (fun ha => decide (basisPair gb ha = q)) = [] := by
    rw [List.filter_eq_nil_iff]
    intro a ha h3
    apply h
    simp only [decide_eq_true_eq] at h3
    exact List.mem_map.mpr ⟨a, ha, h3⟩
  simp [conjSum, h2]

theorem lastOr_concat (slots : List (Int × Int)) (p : Int × Int) :
    lastOr (slots ++ [p]) = p := by
  simp [lastOr]

theorem lastOr_mem_or (slots : List (Int × Int)) :
    slots = [] ∨ lastOr slots ∈ slots := by
  rcases List.eq_nil_or_concat slots with h | ⟨L, b, h⟩
  · exact Or.inl h
  · right
    subst h
    simp [lastOr]

theorem pairLt_lastOr_of_mem (slots : List (Int × Int)) (hs : slots.Pairwise pairLt)
    (q : Int × Int) (hq : q ∈ slots) : q = lastOr slots ∨ pairLt q (lastOr slots) := by
  rcases List.eq_nil_or_concat slots with h | ⟨L, b, h⟩
  · subst h; simp at hq
  · rw [List.concat_eq_append] at h
    subst h
    rw [lastOr_concat]
    rw [List.pairwise_append] at hs
    rcases List.mem_append.mp hq with h1 | h1
    · right
      exact hs.2.2 q h1 b (by simp)
    · left
      simpa using h1

theorem fillPass_concat {V : Type} [Add V] [Zero V] (gb : Index → Int) (conj : V → V) (n : Int)
    (pre : List (HoppingAmplitude V)) (e : HoppingAmplitude V) :
    fillPass gb conj n (pre ++ [e]) =
      (fillPass gb conj n pre).bind (fun st => fillStep gb conj st e) := by
  simp only [fillPass, List.foldlM_append, List.foldlM_cons, List.foldlM_nil]
  cases List.foldlM (fillStep gb conj) _ pre <;> simp

/-- Invariant of both loops of `constructCOO` after a prefix `pre` of a sorted
traversal with non-negative basis positions, for arrays of `n` cells: the slots
written so far are the distinct pairs of `pre` in increasing order, each with the
sum of the conjugated amplitudes of its pair, and the trackers hold the last pair. -/
theorem coo_prefix {V : Type} [AddMonoid V] (gb : Index → Int) (conj : V → V) (n : Nat)
    (pre : List (HoppingAmplitude V)) :
    SortedTraversal gb pre → NonNegTraversal gb pre →
    (countPass gb pre).numMatrixElements ≤ (n : Int) →
    ∃ (slots : List (Int × Int)) (rr rc : List (Option Int)) (rv : List V),
      slots.Pairwise pairLt ∧ (∀ p, p ∈ slots ↔ p ∈ pre.map (basisPair gb)) ∧
      countPass gb pre =
        { numMatrixElements := (slots.length : Int), currentCol := (lastOr slots).1,
          currentRow := (lastOr slots).2 } ∧
      slots.length + rr.length = n ∧ slots.length + rc.length = n ∧
      slots.length + rv.length = n ∧
      fillPass gb conj (n : Int) pre =
        some { currentMatrixElement := (slots.length : Int) - 1,
               currentCol := (lastOr slots).1, currentRow := (lastOr slots).2,
               cooRowIndices := slots.map (fun p => some p.1) ++ rr,
               cooColIndices := slots.map (fun p => some p.2) ++ rc,
               cooValues := slots.map (conjSum gb conj pre) ++ rv } := by
  induction pre using List.reverseRecOn with
  | nil =>
    intro _ _ _
    refine ⟨[], List.replicate n none, List.replicate n none, List.replicate n 0,
      List.Pairwise.nil, by simp, ?_, by simp, by simp, by simp, ?_⟩
    · simp [countPass, lastOr]
    · simp [fillPass, lastOr]
  | append_singleton pre e ih =>
    intro hs hn hc
    have hs0 : (pre.map (basisPair gb) ++ [basisPair gb e]).Pairwise pairLe := by
      simpa [SortedTraversal] using hs
    rw [List.pairwise_append] at hs0
    have hs1 : SortedTraversal gb pre := hs0.1
    have hle_all : ∀ q ∈ pre.map (basisPair gb), pairLe q (basisPair gb e) :=
      fun q hq => hs0.2.2 q hq _ (by simp)
    have hn1 : NonNegTraversal gb pre := fun x hx => hn x (List.mem_append_left _ hx)
    have hne : 0 ≤ gb e.fromIndex ∧ 0 ≤ gb e.toIndex := hn e (by simp)
    have hc1 : (countPass gb pre).numMatrixElements ≤ (n : Int) := by
      have h := countStep_mono gb (countPass gb pre) e
      rw [← countPass_concat] at h
      exact le_trans h hc
    obtain ⟨slots, rr, rc, rv, hpw, hmem, hcount, hlr, hlc, hlv, hfill⟩ := ih hs1 hn1 hc1
    have hlast : pairLe (lastOr slots) (basisPair gb e) := by
      rcases lastOr_mem_or slots with h | h
      · subst h
        simp only [lastOr, pairLe, basisPair, List.getLast?_nil, Option.getD_none]
        omega
      · exact hle_all _ ((hmem _).mp h)
    have hcs := countStep_eq gb (countPass gb pre) e (by rw [hcount]; exact hlast) hne.2
    rw [hcount] at hcs
    simp only [Prod.mk.eta] at hcs
    have hcp : countPass gb (pre ++ [e]) =
        { numMatrixElements := (slots.length : Int) +
            (if basisPair gb e = lastOr slots then 0 else 1),
          currentCol := gb e.fromIndex, currentRow := gb e.toIndex } := by
      rw [countPass_concat, hcount]
      exact hcs
    have hfp := fillPass_concat gb conj (n : Int) pre e
    rw [hfill, Option.some_bind] at hfp
    by_cases hsame : basisPair gb e = lastOr slots
    · -- the pair of `e` is the pair of the current slot
      have hnonempty : slots ≠ [] := by
        intro h
        subst h
        simp only [lastOr, basisPair, List.getLast?_nil, Option.getD_none, Prod.mk.injEq] at hsame
        omega
      rcases List.eq_nil_or_concat slots with h | ⟨L, b, h⟩
      · exact absurd h hnonempty
      rw [List.concat_eq_append] at h
      subst h
      rw [lastOr_concat] at hsame hcp hfp
      have hLb : ∀ q ∈ L, q ≠ basisPair gb e := by
        intro q hq
        rw [List.pairwise_append] at hpw
        rw [hsame]
        exact pairLt_ne (hpw.2.2 q hq b (by simp))
      refine ⟨L ++ [b], rr, rc, rv, hpw, ?_, ?_, hlr, hlc, hlv, ?_⟩
      · intro p
        rw [hmem p]
        simp only [List.map_append, List.map_cons, List.map_nil, List.mem_append,
          List.mem_singleton]
        constructor
        · exact fun h => Or.inl h
        · rintro (h | h)
          · exact h
          · rw [h, hsame]
            exact (hmem b).mp (by simp)
      · rw [hcp, if_pos hsame, lastOr_concat, ← hsame]
        simp [basisPair]
      · rw [hfp, fillStep_same gb conj _ e hsame]
        simp only
        have hv : List.map (conjSum gb conj pre) (L ++ [b]) ++ rv =
            L.map (conjSum gb conj pre) ++ conjSum gb conj pre b :: rv := by simp
        have hi : ((L ++ [b]).length : Int) - 1 = ((L.map (conjSum gb conj pre)).length : Int) := by
          simp
        rw [hv, hi, addAt_length_append]
        have h1 : L.map (conjSum gb conj (pre ++ [e])) = L.map (conjSum gb conj pre) := by
          apply List.map_congr_left
          intro q hq
          exact conjSum_concat_of_ne gb conj pre e q (hLb q hq)
        have h2 : conjSum gb conj (pre ++ [e]) b = conjSum gb conj pre b + conj e.getAmplitude := by
          rw [← hsame, conjSum_concat_self]
        simp only [lastOr_concat, List.map_append, List.map_cons, List.map_nil, h1, h2,
          List.append_assoc, List.singleton_append, List.length_map]
    · -- the pair of `e` opens a new slot
      have hlt : pairLt (lastOr slots) (basisPair gb e) :=
        pairLt_of_le_of_ne hlast (fun h => hsame h.symm)
      have hall : ∀ q ∈ slots, pairLt q (basisPair gb e) := by
        intro q hq
        rcases pairLt_lastOr_of_mem slots hpw q hq with h | h
        · rw [h]; exact hlt
        · exact pairLt_of_lt_of_le h hlast
      have hnotmem : basisPair gb e ∉ pre.map (basisPair gb) := by
        intro h
        exact pairLt_ne (hall _ ((hmem _).mpr h)) rfl
      rw [hcp, if_neg hsame] at hc
      simp only at hc
      have hlen : slots.length + 1 ≤ n := by omega
      obtain ⟨xr, rr1, rfl⟩ : ∃ x r, rr = x :: r := by
        cases rr with
        | nil => simp at hlr; omega
        | cons x r => exact ⟨x, r, rfl⟩
      obtain ⟨xc, rc1, rfl⟩ : ∃ x r, rc = x :: r := by
        cases rc with
        | nil => simp at hlc; omega
        | cons x r => exact ⟨x, r, rfl⟩
      obtain ⟨xv, rv1, rfl⟩ : ∃ x r, rv = x :: r := by
        cases rv with
        | nil => simp at hlv; omega
        | cons x r => exact ⟨x, r, rfl⟩
      simp only [List.length_cons] at hlr hlc hlv
      refine ⟨slots ++ [basisPair gb e], rr1, rc1, rv1, ?_, ?_, ?_, ?_, ?_, ?_, ?_⟩
      · rw [List.pairwise_append]
        refine ⟨hpw, by simp, ?_⟩
        intro q hq r hr
        simp only [List.mem_singleton] at hr
        rw [hr]
        exact hall q hq
      · intro p
        simp only [List.map_append, List.map_cons, List.map_nil, List.mem_append,
          List.mem_singleton, hmem p]
      · rw [hcp, if_neg hsame, lastOr_concat]
        simp [basisPair]
      · simp; omega
      · simp; omega
      · simp; omega
      · rw [hfp, fillStep_new gb conj _ e hlast hne.2 hsame]
        simp only
        have hi1 : (slots.length : Int) - 1 + 1 =
            ((slots.map (fun p : Int × Int => some p.1)).length : Int) := by simp
        have hi2 : (slots.length : Int) - 1 + 1 =
            ((slots.map (fun p : Int × Int => some p.2)).length : Int) := by simp
        have hi3 : (slots.length : Int) - 1 + 1 =
            ((slots.map (conjSum gb conj pre)).length : Int) := by simp
        rw [hi1, writeAt_length_append, ← hi1, hi2, writeAt_length_append, ← hi2, hi3,
          writeAt_length_append]
        simp only [lastOr_concat, List.map_append, List.map_cons, List.map_nil,
          List.append_assoc, List.singleton_append, Option.some.injEq, FillState.mk.injEq,
          List.length_append, List.length_singleton, basisPair, and_true, true_and]
        refine ⟨by simp, ?_⟩
        have hz : conjSum gb conj (pre ++ [e]) (gb e.fromIndex, gb e.toIndex) =
            conj e.getAmplitude := by
          have := conjSum_concat_self gb conj pre e
          rw [conjSum_of_not_mem gb conj pre _ hnotmem, zero_add] at this
          exact this
        rw [hz]
        congr 1
        apply List.map_congr_left
        intro q hq
        exact (conjSum_concat_of_ne gb conj pre e q (pairLt_ne (hall q hq))).symm

/-- The entry count is never negative. -/
theorem countPass_nonneg {V : Type} (gb : Index → Int) (tree : List (HoppingAmplitude V)) :
    0 ≤ (countPass gb tree).numMatrixElements := by
  induction tree using List.reverseRecOn with
  | nil => simp [countPass]
  | append_singleton pre e ih =>
    rw [countPass_concat]
    exact le_trans ih (countStep_mono gb _ e)

/-- Closed form of both loops of `constructCOO` on a sorted traversal with
non-negative basis positions: the slots are the distinct pairs in increasing order. -/
theorem coo_sorted {V : Type} [AddMonoid V] (gb : Index → Int) (conj : V → V)
    (tree : List (HoppingAmplitude V))
    (hs : SortedTraversal gb tree) (hn : NonNegTraversal gb tree) :
    ∃ slots : List (Int × Int),
      slots.Pairwise pairLt ∧ (∀ p, p ∈ slots ↔ p ∈ tree.map (basisPair gb)) ∧
      (countPass gb tree).numMatrixElements = (slots.length : Int) ∧
      fillPass gb conj (countPass gb tree).numMatrixElements tree =
        some { currentMatrixElement := (slots.length : Int) - 1,
               currentCol := (lastOr slots).1, currentRow := (lastOr slots).2,
               cooRowIndices := slots.map (fun p => some p.1),
               cooColIndices := slots.map (fun p => some p.2),
               cooValues := slots.map (conjSum gb conj tree) } := by
  have h0 := countPass_nonneg gb tree
  have hcast : (((countPass gb tree).numMatrixElements.toNat : Nat) : Int) =
      (countPass gb tree).numMatrixElements := Int.toNat_of_nonneg h0
  obtain ⟨slots, rr, rc, rv, hpw, hmem, hcount, hlr, hlc, hlv, hfill⟩ :=
    coo_prefix gb conj (countPass gb tree).numMatrixElements.toNat tree hs hn (le_of_eq hcast.symm)
  have hlen : (countPass gb tree).numMatrixElements = (slots.length : Int) := by
    rw [hcount]
  have hn2 : (countPass gb tree).numMatrixElements.toNat = slots.length := by
    rw [hlen]; simp
  have hrr : rr = [] := List.eq_nil_of_length_eq_zero (by omega)
  have hrc : rc = [] := List.eq_nil_of_length_eq_zero (by omega)
  have hrv : rv = [] := List.eq_nil_of_length_eq_zero (by omega)
  subst hrr hrc hrv
  refine ⟨slots, hpw, hmem, hlen, ?_⟩
  rw [hcast] at hfill
  simpa using hfill

theorem pairwise_pairLt_nodup (slots : List (Int × Int)) (h : slots.Pairwise pairLt) :
    slots.Nodup :=
  List.Pairwise.imp (fun hab => pairLt_ne hab) h

theorem slots_length_eq_distinctPairs {V : Type} (gb : Index → Int)
    (tree : List (HoppingAmplitude V)) (slots : List (Int × Int))
    (hnd : slots.Nodup) (hmem : ∀ p, p ∈ slots ↔ p ∈ tree.map (basisPair gb)) :
    slots.length = distinctPairs gb tree := by
  unfold distinctPairs
  apply List.Perm.length_eq
  rw [List.perm_ext_iff_of_nodup hnd (List.nodup_dedup _)]
  intro a
  rw [hmem a, List.mem_dedup]

/-- When `constructCOO` returns normally, and with which state. -/
theorem constructCOO_ok_iff {V : Type} [Add V] [Zero V] (gb : Index → Int) (conj : V → V)
    (s s1 : AmplitudeSet V) :
    s.constructCOO gb conj = Outcome.ok s1 () ↔
      s.isSorted = true ∧ s.numMatrixElements = -1 ∧
      ∃ st, fillPass gb conj (countPass gb s.tree).numMatrixElements s.tree = some st ∧
        s1 = { s with numMatrixElements := (countPass gb s.tree).numMatrixElements,
                      cooRowIndices := some st.cooRowIndices,
                      cooColIndices := some st.cooColIndices,
                      cooValues := some st.cooValues } := by
  unfold AmplitudeSet.constructCOO TBTKAssert
  by_cases h1 : s.isSorted = true
  · by_cases h2 : s.numMatrixElements = -1
    · simp only [h1, h2, if_true, beq_self_eq_true, true_and]
      cases hf : fillPass gb conj (countPass gb s.tree).numMatrixElements s.tree with
      | none => simp
      | some st =>
        simp only [Outcome.ok.injEq, and_true, Option.some.injEq, exists_eq_left']
        exact eq_comm
    · have h3 : (s.numMatrixElements == -1) = false := by simpa using h2
      simp [h1, h2, h3]
  · simp [h1]

/-- When `constructCOO` ends in a fatal assertion, and with which message. -/
theorem constructCOO_fatal_iff {V : Type} [Add V] [Zero V] (gb : Index → Int) (conj : V → V)
    (s st : AmplitudeSet V) (f m h : String) :
    s.constructCOO gb conj = Outcome.fatal st f m h ↔
      st = s ∧ f = "AmplitudeSet::constructCOO()" ∧ h = "" ∧
      ((s.isSorted = false ∧ m = "Amplitudes not sorted.") ∨
       (s.isSorted = true ∧ s.numMatrixElements ≠ -1 ∧
        m = "Hamiltonain on COO format already constructed.")) := by
  unfold AmplitudeSet.constructCOO TBTKAssert
  by_cases h1 : s.isSorted = true
  · by_cases h2 : s.numMatrixElements = -1
    · simp only [h1, h2, if_true, beq_self_eq_true]
      cases hf : fillPass gb conj (countPass gb s.tree).numMatrixElements s.tree <;>
        simp [h1, h2]
    · have h3 : (s.numMatrixElements == -1) = false := by simpa using h2
      simp only [h1, h3, if_true, Bool.false_eq_true, if_false, Outcome.fatal.injEq]
      constructor
      · rintro ⟨rfl, rfl, rfl, rfl⟩
        exact ⟨rfl, rfl, rfl, Or.inr ⟨trivial, h2, rfl⟩⟩
      · rintro ⟨rfl, rfl, rfl, h4 | ⟨_, _, rfl⟩⟩
        · simp at h4
        · exact ⟨rfl, rfl, rfl, rfl⟩
  · have h3 : s.isSorted = false := by simpa using h1
    simp only [h3, Bool.false_eq_true, if_false, Outcome.fatal.injEq]
    constructor
    · rintro ⟨rfl, rfl, rfl, rfl⟩
      exact ⟨rfl, rfl, rfl, Or.inl ⟨trivial, rfl⟩⟩
    · rintro ⟨rfl, rfl, rfl, ⟨_, rfl⟩ | ⟨h4, _, _⟩⟩
      · exact ⟨rfl, rfl, rfl, rfl⟩
      · simp at h4

/-- C1. On a traversal that is non-decreasing in (from-basis-position,
to-basis-position) and has non-negative basis positions, `constructCOO`
succeeds and the entry count it sets is the number of distinct
(from-basis-position, to-basis-position) pairs of the traversal. -/
theorem constructCOO_entry_count {V : Type} [AddMonoid V] (gb : Index → Int) (conj : V → V)
    (s : AmplitudeSet V) (hflag : s.isSorted = true) (hnone : s.numMatrixElements = -1)
    (hs : SortedTraversal gb s.tree) (hn : NonNegTraversal gb s.tree) :
    ∃ s1, s.constructCOO gb conj = Outcome.ok s1 () ∧
      s1.numMatrixElements = (distinctPairs gb s.tree : Int) := by
  obtain ⟨slots, hpw, hmem, hlen, hfill⟩ := coo_sorted gb conj s.tree hs hn
  refine ⟨_, (constructCOO_ok_iff gb conj s _).mpr ⟨hflag, hnone, _, hfill, rfl⟩, ?_⟩
  simp only [hlen, Nat.cast_inj]
  exact slots_length_eq_distinctPairs gb s.tree slots (pairwise_pairLt_nodup slots hpw) hmem

/-- C1, scenario of the spec: `(2+0i, [0,0] → [1,0])` and its Hermitian conjugate
give entry count 2. -/
theorem constructCOO_entry_count_scenario :
    SortedTraversal scenarioBasis scenarioSet.tree ∧
    NonNegTraversal scenarioBasis scenarioSet.tree ∧
    ∃ s1, scenarioSet.constructCOO scenarioBasis conjZ = Outcome.ok s1 () ∧
      s1.numMatrixElements = 2 :=
  ⟨by decide, by decide,
    constructCOO_entry_count scenarioBasis conjZ scenarioSet rfl rfl (by decide) (by decide)⟩

/-- C2. On a traversal that is non-decreasing in (from-basis-position,
to-basis-position) and whose basis positions are non-negative, as the contract
of `getBasisIndex` makes the positions of all stored endpoints, `constructCOO` succeeds
and there is a duplicate-free list `slots` of exactly the pairs of the traversal
such that entry `k` of the snapshot has row `slots[k].1` (a from-basis-position),
column `slots[k].2` (a to-basis-position) and value the sum of the conjugates of
the amplitudes of all traversed hopping amplitudes with that pair. -/
theorem constructCOO_snapshot {V : Type} [AddMonoid V] (gb : Index → Int) (conj : V → V)
    (s : AmplitudeSet V) (hflag : s.isSorted = true) (hnone : s.numMatrixElements = -1)
    (hs : SortedTraversal gb s.tree) (hn : NonNegTraversal gb s.tree) :
    ∃ (s1 : AmplitudeSet V) (slots : List (Int × Int)),
      s.constructCOO gb conj = Outcome.ok s1 () ∧
      slots.Nodup ∧ (∀ p, p ∈ slots ↔ p ∈ s.tree.map (basisPair gb)) ∧
      s1.numMatrixElements = (slots.length : Int) ∧
      s1.cooRowIndices = some (slots.map (fun p => some p.1)) ∧
      s1.cooColIndices = some (slots.map (fun p => some p.2)) ∧
      s1.cooValues = some (slots.map (conjSum gb conj s.tree)) := by
  obtain ⟨slots, hpw, hmem, hlen, hfill⟩ := coo_sorted gb conj s.tree hs hn
  exact ⟨_, slots, (constructCOO_ok_iff gb conj s _).mpr ⟨hflag, hnone, _, hfill, rfl⟩,
    pairwise_pairLt_nodup slots hpw, hmem, hlen, rfl, rfl, rfl⟩

/-- C2 at the scenario of the spec. -/
theorem constructCOO_snapshot_scenario :
    scenarioSet.isSorted = true ∧ scenarioSet.numMatrixElements = -1 ∧
    SortedTraversal scenarioBasis scenarioSet.tree ∧
    NonNegTraversal scenarioBasis scenarioSet.tree ∧
    ∃ (s1 : AmplitudeSet (Int × Int)) (slots : List (Int × Int)),
      scenarioSet.constructCOO scenarioBasis conjZ = Outcome.ok s1 () ∧
      slots.Nodup ∧ (∀ p, p ∈ slots ↔ p ∈ scenarioSet.tree.map (basisPair scenarioBasis)) ∧
      s1.numMatrixElements = (slots.length : Int) ∧
      s1.cooRowIndices = some (slots.map (fun p => some p.1)) ∧
      s1.cooColIndices = some (slots.map (fun p => some p.2)) ∧
      s1.cooValues = some (slots.map (conjSum scenarioBasis conjZ scenarioSet.tree)) :=
  ⟨rfl, rfl, by decide, by decide,
    constructCOO_snapshot scenarioBasis conjZ scenarioSet rfl rfl (by decide) (by decide)⟩

/-- The role of `NonNegTraversal`. The trackers of `constructCOO` start at `-1`,
so a basis position `-1`, which the contract of `getBasisIndex` excludes for a
stored endpoint, would not be told apart from the start value: on the traversal
`[0,0] → [0,0]`, `[1,0] → [2,0]` with the positions `0 → 0`, `1 → -1` the one
entry (row 0, column 0) would receive both amplitudes. -/
theorem constructCOO_snapshot_negative_position :
    SortedTraversal scenarioBasis negativeSet.tree ∧
    negativeSet.constructCOO scenarioBasis conjZ =
      Outcome.ok { negativeSet with numMatrixElements := 1,
                                    cooRowIndices := some [some 0],
                                    cooColIndices := some [some 0],
                                    cooValues := some [(2, 0)] } () ∧
    conjSum scenarioBasis conjZ negativeSet.tree (0, 0) = (1, 0) ∧
    conjSum scenarioBasis conjZ negativeSet.tree (0, 0) ≠ (2, 0) ∧
    negativeSet.tree.map (basisPair scenarioBasis) = [(0, 0), (1, -1)] := by
  decide

/-- C3. `constructCOO` ends in a fatal assertion exactly when the set is not
sorted or a snapshot already exists (`numMatrixElements != -1`), and the state at
the abort is the state before the call; after a successful `constructCOO` a
second `constructCOO` is fatal; on an empty sorted set without snapshot the call
succeeds with entry count 0. -/
theorem constructCOO_fails_iff {V : Type} [Add V] [Zero V] (gb : Index → Int) (conj : V → V) :
    (∀ s : AmplitudeSet V,
      (∃ st f m h, s.constructCOO gb conj = Outcome.fatal st f m h) ↔
        (s.isSorted = false ∨ s.numMatrixElements ≠ -1)) ∧
    (∀ (s st : AmplitudeSet V) (f m h : String),
      s.constructCOO gb conj = Outcome.fatal st f m h → st = s) ∧
    (∀ s s1 : AmplitudeSet V, s.constructCOO gb conj = Outcome.ok s1 () →
      ∃ f m h, s1.constructCOO gb conj = Outcome.fatal s1 f m h) ∧
    (∀ s : AmplitudeSet V, s.tree = [] → s.isSorted = true → s.numMatrixElements = -1 →
      s.constructCOO gb conj =
        Outcome.ok { s with numMatrixElements := 0, cooRowIndices := some [],
                            cooColIndices := some [], cooValues := some [] } ()) := by
  refine ⟨?_, ?_, ?_, ?_⟩
  · intro s
    constructor
    · rintro ⟨st, f, m, h, hf⟩
      rcases (constructCOO_fatal_iff gb conj s st f m h).mp hf with ⟨_, _, _, h1 | h1⟩
      · exact Or.inl h1.1
      · exact Or.inr h1.2.1
    · intro h1
      by_cases h2 : s.isSorted = true
      · rcases h1 with h1 | h1
        · rw [h2] at h1; exact absurd h1 (by simp)
        · exact ⟨s, _, _, _,
            (constructCOO_fatal_iff gb conj s s _ _ _).mpr ⟨rfl, rfl, rfl, Or.inr ⟨h2, h1, rfl⟩⟩⟩
      · have h3 : s.isSorted = false := by simpa using h2
        exact ⟨s, _, _, _,
          (constructCOO_fatal_iff gb conj s s _ _ _).mpr ⟨rfl, rfl, rfl, Or.inl ⟨h3, rfl⟩⟩⟩
  · intro s st f m h hf
    exact ((constructCOO_fatal_iff gb conj s st f m h).mp hf).1
  · intro s s1 hok
    obtain ⟨h1, _, st, _, rfl⟩ := (constructCOO_ok_iff gb conj s s1).mp hok
    have h0 := countPass_nonneg gb s.tree
    refine ⟨_, _, _, (constructCOO_fatal_iff gb conj _ _ _ _ _).mpr
      ⟨rfl, rfl, rfl, Or.inr ⟨h1, ?_, rfl⟩⟩⟩
    simp only [ne_eq]
    omega
  · intro s ht h1 h2
    rw [constructCOO_ok_iff]
    refine ⟨h1, h2, ?_⟩
    rw [ht]
    exact ⟨_, rfl, rfl⟩

/-- C4. When `constructCOO` has built the snapshot `s1` of a set, `destructCOO`
followed by `constructCOO` succeeds and gives again exactly `s1` (same entry
count, same row, column and value arrays), and `reconstructCOO` on `s1` is that
same sequence. -/
theorem destruct_construct_reproduces {V : Type} [Add V] [Zero V] (gb : Index → Int)
    (conj : V → V) (s s1 : AmplitudeSet V)
    (hbuilt : s.constructCOO gb conj = Outcome.ok s1 ()) :
    s1.destructCOO.constructCOO gb conj = Outcome.ok s1 () ∧
    s1.reconstructCOO gb conj = s1.destructCOO.constructCOO gb conj := by
  obtain ⟨h1, h2, st, hfill, rfl⟩ := (constructCOO_ok_iff gb conj s s1).mp hbuilt
  have h0 := countPass_nonneg gb s.tree
  constructor
  · rw [constructCOO_ok_iff]
    exact ⟨h1, rfl, st, hfill, rfl⟩
  · have h3 : (countPass gb s.tree).numMatrixElements ≠ -1 := by omega
    simp [AmplitudeSet.reconstructCOO, h3]

/-- C4 at the scenario of the spec. -/
theorem destruct_construct_reproduces_scenario :
    scenarioSet.constructCOO scenarioBasis conjZ = Outcome.ok scenarioBuilt () ∧
    scenarioBuilt.destructCOO.constructCOO scenarioBasis conjZ = Outcome.ok scenarioBuilt () ∧
    scenarioBuilt.reconstructCOO scenarioBasis conjZ =
      scenarioBuilt.destructCOO.constructCOO scenarioBasis conjZ :=
  ⟨by decide,
    destruct_construct_reproduces scenarioBasis conjZ scenarioSet scenarioBuilt (by decide)⟩

/-- C5. When no snapshot exists (`numMatrixElements == -1`), `reconstructCOO`
returns normally and leaves every data member as it was, sorted or not. -/
theorem reconstructCOO_unbuilt {V : Type} [Add V] [Zero V] (gb : Index → Int) (conj : V → V)
    (s : AmplitudeSet V) (hnone : s.numMatrixElements = -1) :
    s.reconstructCOO gb conj = Outcome.ok s () := by
  simp [AmplitudeSet.reconstructCOO, hnone]

/-- C5 on a freshly constructed, unsorted set: nothing changes, the arrays stay absent. -/
theorem reconstructCOO_unbuilt_fresh :
    (AmplitudeSet.new (Int × Int)).numMatrixElements = -1 ∧
    (AmplitudeSet.new (Int × Int)).isSorted = false ∧
    (AmplitudeSet.new (Int × Int)).reconstructCOO scenarioBasis conjZ =
      Outcome.ok { tree := [], isConstructed := false, isSorted := false,
                   numMatrixElements := -1, cooRowIndices := none, cooColIndices := none,
                   cooValues := none } () :=
  ⟨rfl, rfl, reconstructCOO_unbuilt scenarioBasis conjZ (AmplitudeSet.new (Int × Int)) rfl⟩

/-- C6. `getNumMatrixElements` ends in a fatal assertion exactly when no snapshot
is built (`numMatrixElements == -1`): on a freshly constructed set and after
every `destructCOO`; after a successful `constructCOO` it returns the entry count
computed by the counting loop of that call. -/
theorem getNumMatrixElements_fails_iff {V : Type} [Add V] [Zero V] (gb : Index → Int)
    (conj : V → V) :
    (∀ s : AmplitudeSet V,
      (∃ st f m h, s.getNumMatrixElements = Outcome.fatal st f m h) ↔
        s.numMatrixElements = -1) ∧
    (∃ f m h, (AmplitudeSet.new V).getNumMatrixElements =
      Outcome.fatal (AmplitudeSet.new V) f m h) ∧
    (∀ s : AmplitudeSet V, ∃ f m h, s.destructCOO.getNumMatrixElements =
      Outcome.fatal s.destructCOO f m h) ∧
    (∀ s s1 : AmplitudeSet V, s.constructCOO gb conj = Outcome.ok s1 () →
      s1.getNumMatrixElements = Outcome.ok s1 (countPass gb s.tree).numMatrixElements) := by
  refine ⟨?_, ?_, ?_, ?_⟩
  · intro s
    unfold AmplitudeSet.getNumMatrixElements TBTKAssert
    by_cases h : s.numMatrixElements = -1
    · simp [h]
    · simp [h]
  · exact ⟨_, _, _, rfl⟩
  · intro s
    exact ⟨_, _, _, rfl⟩
  · intro s s1 hok
    obtain ⟨_, _, st, _, rfl⟩ := (constructCOO_ok_iff gb conj s s1).mp hok
    have h0 := countPass_nonneg gb s.tree
    have h3 : (countPass gb s.tree).numMatrixElements ≠ -1 := by omega
    simp [AmplitudeSet.getNumMatrixElements, TBTKAssert, h3]

/-- The first loop of `tabulate` counts the entries and takes the maximum of the
`fromIndex` lengths; no `toIndex` enters it. -/
theorem tabulateCount_eq {V : Type} (tree : List (HoppingAmplitude V)) :
    tabulateCount tree =
      ((tree.length : Int),
       (((tree.map (fun ha => ha.fromIndex.length)).foldl max 0 : Nat) : Int)) := by
  induction tree using List.reverseRecOn with
  | nil => rfl
  | append_singleton pre e ih =>
    have h : tabulateCount (pre ++ [e]) = tabulateCountStep (tabulateCount pre) e := by
      simp [tabulateCount, List.foldl_append]
    rw [h, ih]
    simp only [tabulateCountStep, List.length_append, List.length_singleton, List.map_append,
      List.map_cons, List.map_nil, List.foldl_append, List.foldl_cons, List.foldl_nil]
    split_ifs with hc
    · rw [max_eq_right (by omega)]
      push_cast
      rfl
    · rw [max_eq_left (by omega)]
      push_cast
      rfl

/-- Copying an index into the cells that follow a prefix `A`. -/
theorem writeIndex_append (A : List Int) (index : Index) (m : Nat) (c : Int)
    (h : index.length ≤ m) :
    writeIndex (A ++ List.replicate m c) (A.length : Int) index =
      some (A ++ index ++ List.replicate (m - index.length) c) := by
  have key : ∀ j, j ≤ index.length →
      (List.range j).foldlM
        (fun t n => (index.get? n).bind (fun v => writeAt t ((A.length : Int) + (n : Int)) v))
        (A ++ List.replicate m c) =
      some (A ++ index.take j ++ List.replicate (m - j) c) := by
    intro j
    induction j with
    | zero => intro _; simp
    | succ j ih =>
      intro hj
      have hjl : j < index.length := hj
      rw [List.range_succ, List.foldlM_append, ih (by omega)]
      simp only [Option.some_bind, Option.pure_def, Option.bind_eq_bind, List.foldlM_cons,
        List.foldlM_nil, get?_eq_some_getD index j hjl]
      obtain ⟨q, hq⟩ : ∃ q, m - j = q + 1 := ⟨m - j - 1, by omega⟩
      have hi : (A.length : Int) + (j : Int) = ((A ++ index.take j).length : Int) := by
        simp only [List.length_append, List.length_take]
        rw [min_eq_left (by omega)]
        push_cast
        rfl
      have ht : index.take (j + 1) = index.take j ++ [index.getD j 0] := by
        rw [List.take_succ, List.getD_eq_getElem _ _ hjl, List.getElem?_eq_getElem hjl]
        rfl
      have hq2 : m - (j + 1) = q := by omega
      rw [hq, List.replicate_succ, hi, writeAt_length_append, ht, hq2]
      simp
  unfold writeIndex
  rw [key index.length (le_refl _), List.take_length]

theorem padIndex_length (M : Nat) (index : Index) (h : index.length ≤ M) :
    (padIndex M index).length = M := by
  simp only [padIndex, List.length_append, List.length_replicate]
  omega

theorem tableRow_flatMap_length {V : Type} (M : Nat) (pre : List (HoppingAmplitude V))
    (h : ∀ ha ∈ pre, ha.fromIndex.length ≤ M ∧ ha.toIndex.length ≤ M) :
    (pre.flatMap (tableRow M)).length = 2 * M * pre.length := by
  induction pre with
  | nil => simp
  | cons a l ih =>
    have h1 := h a (by simp)
    rw [List.flatMap_cons, List.length_append, ih (fun x hx => h x (List.mem_cons_of_mem _ hx)),
      tableRow, List.length_append, padIndex_length M _ h1.1, padIndex_length M _ h1.2,
      List.length_cons]
    ring

/-- Invariant of the second loop of `tabulate` after a prefix `pre`, when no
index is longer than `M` and the arrays have room for `pre.length + q` entries. -/
theorem tabulate_prefix {V : Type} [Zero V] (M : Nat) (pre : List (HoppingAmplitude V)) :
    ∀ q : Nat, (∀ ha ∈ pre, ha.fromIndex.length ≤ M ∧ ha.toIndex.length ≤ M) →
      pre.foldlM (tabulateStep (M : Int))
        { table := List.replicate (2 * M * (pre.length + q)) (-1),
          amplitudes := List.replicate (pre.length + q) (0 : V), counter := 0 } =
      some { table := pre.flatMap (tableRow M) ++ List.replicate (2 * M * q) (-1),
             amplitudes := pre.map (fun ha => ha.getAmplitude) ++ List.replicate q (0 : V),
             counter := (pre.length : Int) } := by
  induction pre using List.reverseRecOn with
  | nil => intro q _; simp
  | append_singleton pre e ih =>
    intro q h
    have hpre : ∀ ha ∈ pre, ha.fromIndex.length ≤ M ∧ ha.toIndex.length ≤ M :=
      fun ha hha => h ha (List.mem_append_left _ hha)
    obtain ⟨hf, ht⟩ := h e (by simp)
    have hlen : (pre ++ [e]).length + q = pre.length + (q + 1) := by
      simp only [List.length_append, List.length_singleton]
      omega
    rw [hlen, List.foldlM_append, ih (q + 1) hpre]
    simp only [Option.some_bind, Option.bind_eq_bind, List.foldlM_cons, List.foldlM_nil,
      Option.pure_def, tabulateStep]
    have hA := tableRow_flatMap_length M pre hpre
    have hsplit : 2 * M * (q + 1) = 2 * M * q + 2 * M := by ring
    have hb1 : (2 : Int) * (M : Int) * (pre.length : Int) =
        ((pre.flatMap (tableRow M)).length : Int) := by
      rw [hA]; push_cast; ring
    rw [hb1, writeIndex_append _ _ _ _ (by omega)]
    have hr1 : List.replicate (2 * M * (q + 1) - e.fromIndex.length) (-1 : Int) =
        List.replicate (M - e.fromIndex.length) (-1) ++ List.replicate (M + 2 * M * q) (-1) := by
      rw [← List.replicate_add]
      congr 1
      omega
    have hb2 : ((pre.flatMap (tableRow M)).length : Int) + (M : Int) =
        ((pre.flatMap (tableRow M) ++ padIndex M e.fromIndex).length : Int) := by
      rw [List.length_append, padIndex_length M _ hf]
      push_cast
      rfl
    have hT : pre.flatMap (tableRow M) ++ e.fromIndex ++
          List.replicate (2 * M * (q + 1) - e.fromIndex.length) (-1) =
        (pre.flatMap (tableRow M) ++ padIndex M e.fromIndex) ++
          List.replicate (M + 2 * M * q) (-1) := by
      rw [hr1, padIndex]
      simp only [List.append_assoc]
    rw [hT]
    simp only [Option.some_bind]
    rw [hb2, writeIndex_append _ _ _ _ (by omega)]
    simp only [Option.some_bind]
    have hamp : (pre.length : Int) = ((pre.map (fun ha => ha.getAmplitude)).length : Int) := by
      simp
    rw [List.replicate_succ, hamp, writeAt_length_append]
    simp only [Option.some_bind, Option.some.injEq, TabulateState.mk.injEq]
    refine ⟨?_, ?_, ?_⟩
    · have hr2 : List.replicate (M + 2 * M * q - e.toIndex.length) (-1 : Int) =
          List.replicate (M - e.toIndex.length) (-1) ++ List.replicate (2 * M * q) (-1) := by
        rw [← List.replicate_add]
        congr 1
        omega
      rw [hr2, List.flatMap_append]
      simp only [List.flatMap_cons, List.flatMap_nil, List.append_nil, tableRow, padIndex,
        List.append_assoc]
    · simp
    · simp

/-- What `tabulate` does when no `toIndex` is longer than the longest
`fromIndex`: it returns normally, and row `k` of the table is the `fromIndex` of
the `k`-th traversed entry padded with `-1` to `maxIndexSize` cells, followed by
its `toIndex` padded in the same way. -/
theorem tabulate_rows_of_short_toIndex {V : Type} [Zero V] (tree : List (HoppingAmplitude V))
    (h : ∀ ha ∈ tree, ha.toIndex.length ≤ longestFromIndex tree) :
    tabulate tree =
      some { amplitudes := tree.map (fun ha => ha.getAmplitude),
             table := tree.flatMap (tableRow (longestFromIndex tree)),
             numHoppingAmplitudes := (tree.length : Int),
             maxIndexSize := (longestFromIndex tree : Int) } := by
  have hfrom : ∀ (l : List (HoppingAmplitude V)) (a : Nat), ∀ ha ∈ l,
      ha.fromIndex.length ≤ (l.map (fun ha => ha.fromIndex.length)).foldl max a := by
    intro l
    induction l using List.reverseRecOn with
    | nil => intro a ha hha; simp at hha
    | append_singleton pre e ih =>
      intro a ha hha
      simp only [List.map_append, List.map_cons, List.map_nil, List.foldl_append, List.foldl_cons,
        List.foldl_nil]
      rcases List.mem_append.mp hha with h1 | h1
      · exact le_trans (ih a ha h1) (le_max_left _ _)
      · simp only [List.mem_singleton] at h1
        subst h1
        exact le_max_right _ _
  have hcount := tabulateCount_eq tree
  have hp := tabulate_prefix (longestFromIndex tree) tree 0
    (fun ha hha => ⟨hfrom tree 0 ha hha, h ha hha⟩)
  unfold tabulate
  rw [hcount]
  simp only
  have hsize : ((tree.length : Int) * 2 * (longestFromIndex tree : Int)).toNat =
      2 * longestFromIndex tree * (tree.length + 0) := by
    have : (tree.length : Int) * 2 * (longestFromIndex tree : Int) =
        ((2 * longestFromIndex tree * (tree.length + 0) : Nat) : Int) := by
      push_cast; ring
    rw [this, Int.toNat_ofNat]
  have hn : (tree.length : Int).toNat = tree.length + 0 := by simp
  unfold longestFromIndex at hsize hp ⊢
  rw [hsize, hn, hp]
  simp

/-- C7 fails on the code. For the entries `[0] → [1,2]` and `[3] → [4]` the
longest physical index has length 2, and `tabulate` returns `maxIndexSize = 1`:
its first loop looks at `fromIndex.size()` only. -/
theorem tabulate_maxIndexSize_ignores_toIndex :
    longestIndex longToIndexTree = 2 ∧
    (tabulate longToIndexTree).map (fun r => r.maxIndexSize) = some 1 ∧
    (tabulate longToIndexTree).map (fun r => r.numHoppingAmplitudes) = some 2 ∧
    (tabulate longToIndexTree).map (fun r => r.table.length) = some 4 := by
  decide

/-- C8 fails on the code. For the entries `[0] → [1,2]` and `[3] → [4]`
(`maxIndexSize = 1`, rows of stride 2) the write of `toIndex[1] = 2` of entry 0
goes to cell 2, which belongs to row 1, and is overwritten by `fromIndex[0] = 3`
of entry 1: the table is `[0, 1, 3, 4]`. -/
theorem tabulate_toIndex_leaves_row :
    tabulate longToIndexTree =
      some { amplitudes := [(1, 0), (1, 0)], table := [0, 1, 3, 4],
             numHoppingAmplitudes := 2, maxIndexSize := 1 } ∧
    (tabulateStep 1
        ({ table := [-1, -1, -1, -1], amplitudes := [(0, 0), (0, 0)], counter := 0 } :
          TabulateState (Int × Int))
        { amplitude := (1, 0), fromIndex := [0], toIndex := [1, 2] }).map
      (fun st => st.table) = some [0, 1, 2, -1] := by
  decide

/-! ## Lemmas and theorems: DPropertyExtractor -/

/-- The scan skips concrete positions. -/
theorem scanFrom_eq_of_nonneg (pattern : Index) (k : Nat) (m : Nat)
    (h : ∀ i, k ≤ i → i < m → 0 ≤ pattern.getD i 0) (hk : k ≤ m) :
    scanFrom pattern m = scanFrom pattern k := by
  induction m with
  | zero =>
    have : k = 0 := by omega
    subst this; rfl
  | succ m ih =>
    by_cases hkm : k = m + 1
    · subst hkm; rfl
    · have h1 : 0 ≤ pattern.getD m 0 := h m (by omega) (by omega)
      have h2 : ¬ (pattern.getD m 0 < 0) := by omega
      rw [scanFrom, if_neg h2]
      exact ih (fun i hi him => h i hi (by omega)) (by omega)

/-- The inner loop of `calculate` as a fold over the concatenated calls. -/
theorem loop_eq_flatMap {M C : Type} (cb : M → C → Option M) (E : Nat → Int → List C)
    (step : Int) (R : Nat) (mem : M) (off : Int) :
    (List.range R).foldlM
      (fun (st : M × Int) (n : Nat) =>
        ((E n st.2).foldlM cb st.1).map (fun m => (m, st.2 + step))) (mem, off) =
    (((List.range R).flatMap (fun n => E n (off + (n : Int) * step))).foldlM cb mem).map
      (fun m => (m, off + (R : Int) * step)) := by
  induction R with
  | zero => simp
  | succ R ih =>
    rw [List.range_succ, List.foldlM_append, ih, List.flatMap_append, List.foldlM_append]
    cases h : List.foldlM cb mem ((List.range R).flatMap (fun n => E n (off + (n : Int) * step))) with
    | none => simp
    | some m =>
      simp only [Option.map_some', Option.some_bind, List.foldlM_cons, List.foldlM_nil,
        List.flatMap_cons, List.flatMap_nil, List.append_nil]
      have e : off + (R : Int) * step + step = off + ((R : Int) + 1) * step := by ring
      cases List.foldlM cb m (E R (off + (R : Int) * step)) <;> simp [e]

/-- The function `calculate` calls the callback on the elements of `expandFrom`,
in order. -/
theorem calculate_eq_foldlM {M : Type} (S : Int) (cb : M → Index → Int → Option M)
    (ranges : Index) (k : Nat) :
    ∀ (pattern : Index) (mem : M) (off mult : Int),
      pattern.length = ranges.length → k ≤ pattern.length →
      (∀ i, k ≤ i → i < pattern.length → 0 ≤ pattern.getD i 0) →
      calculate S cb mem pattern ranges off mult =
        (expandFrom S ranges k pattern off mult).foldlM (fun m c => cb m c.1 c.2) mem := by
  induction k with
  | zero =>
    intro pattern mem off mult _ _ hnn
    have hs : scanFrom pattern pattern.length = -1 := by
      rw [scanFrom_eq_of_nonneg pattern 0 pattern.length hnn (Nat.zero_le _)]
      rfl
    rw [calculate]
    simp [hs, expandFrom]
  | succ k ih =>
    intro pattern mem off mult hlen hk hnn
    by_cases hneg : pattern.getD k 0 < 0
    · have hs : scanFrom pattern pattern.length = (k : Int) := by
        rw [scanFrom_eq_of_nonneg pattern (k + 1) pattern.length hnn hk, scanFrom, if_pos hneg]
      have hs1 : ¬ (scanFrom pattern pattern.length = -1) := by rw [hs]; omega
      have hkp : k < pattern.length := hk
      have hkr : k < ranges.length := by omega
      have hgp : pattern.get? k = some (pattern.getD k 0) := by
        rw [List.get?_eq_getElem?, List.getD_eq_getElem?_getD, List.getElem?_eq_getElem hkp]
        rfl
      have hgr : ranges.get? k = some (ranges.getD k 0) := by
        rw [List.get?_eq_getElem?, List.getD_eq_getElem?_getD, List.getElem?_eq_getElem hkr]
        rfl
      rw [calculate]
      simp only [hs, hs1, dite_false, Int.toNat_ofNat, hgp, hgr]
      rw [expandFrom, if_pos hneg]
      obtain ⟨p, hp⟩ : ∃ p, pattern.getD k 0 = p := ⟨_, rfl⟩
      obtain ⟨r, hr⟩ : ∃ r, ranges.getD k 0 = r := ⟨_, rfl⟩
      simp only [hp, hr]
      have hfun : (fun (st : M × Int) (n : Nat) =>
            Option.map
              (fun m => (m, if (!(p == S)) = true then st.2 + mult else st.2))
              (calculate S cb st.1 (pattern.set k (n : Int)) ranges st.2
                (if p < S then mult * r else mult))) =
          (fun (st : M × Int) (n : Nat) =>
            ((expandFrom S ranges k (pattern.set k (n : Int)) st.2
                (if p < S then mult * r else mult)).foldlM
              (fun m c => cb m c.1 c.2) st.1).map
              (fun m => (m, st.2 + (if p = S then 0 else mult)))) := by
        funext st n
        rw [ih (pattern.set k (n : Int)) st.1 st.2 _ (by simpa using hlen) (by simp; omega)]
        · by_cases hS : p = S <;> simp [hS]
        · intro i hki hi
          by_cases hik : i = k
          · subst hik
            rw [List.getD_eq_getElem?_getD, List.getElem?_set_self (by simpa using hi)]
            simp
          · rw [List.getD_eq_getElem?_getD, List.getElem?_set_ne (by omega),
              ← List.getD_eq_getElem?_getD]
            exact hnn i (by omega) (by simpa using hi)
      have hk1 : ¬ ((k : Int) = -1) := by omega
      have hl := loop_eq_flatMap (fun (m : M) (c : Index × Int) => cb m c.1 c.2)
        (fun n o => expandFrom S ranges k (pattern.set k (n : Int)) o
          (if p < S then mult * r else mult))
        (if p = S then 0 else mult) r.toNat mem off
      simp only at hl
      rw [dif_neg hk1, hfun, hl]
      by_cases hS : p = S
      · simp [hS, Option.map_map, Function.comp_def]
      · simp [hS, Option.map_map, Function.comp_def]
    · have h0 : 0 ≤ pattern.getD k 0 := by omega
      rw [expandFrom, if_neg hneg]
      apply ih pattern mem off mult hlen (by omega)
      intro i hki hi
      by_cases hik : i = k
      · subst hik; exact h0
      · exact hnn i (by omega) hi

theorem getD_set_self (l : Index) (k : Nat) (v : Int) (hk : k < l.length) :
    (l.set k v).getD k 0 = v := by
  rw [List.getD_eq_getElem?_getD, List.getElem?_set_self hk]
  rfl

theorem getD_set_ne (l : Index) (k i : Nat) (v : Int) (h : k ≠ i) :
    (l.set k v).getD i 0 = l.getD i 0 := by
  rw [List.getD_eq_getElem?_getD, List.getElem?_set_ne h, ← List.getD_eq_getElem?_getD]

theorem lt_length_of_getD_neg (l : Index) (k : Nat) (h : l.getD k 0 < 0) : k < l.length := by
  by_contra hk
  rw [List.getD_eq_default _ _ (by omega)] at h
  exact absurd h (by decide)

theorem getD_mem (l : Index) (k : Nat) (hk : k < l.length) : l.getD k 0 ∈ l := by
  rw [List.getD_eq_getElem _ _ hk]
  exact List.getElem_mem hk

theorem Admissible.set {S : Int} {pattern : Index} (h : Admissible S pattern) (k n : Nat) :
    Admissible S (pattern.set k (n : Int)) := by
  intro p hp hneg
  rcases List.mem_or_eq_of_mem_set hp with h1 | h1
  · exact h p h1 hneg
  · omega

theorem linFrom_set (S : Int) (pattern ranges index : Index) (j : Nat) (v : Int) (k : Nat)
    (hk : k ≤ j) :
    linFrom S (pattern.set j v) ranges index k = linFrom S pattern ranges index k := by
  induction k with
  | zero => rfl
  | succ k ih =>
    rw [linFrom, linFrom, getD_set_ne pattern j k v (by omega), ih (by omega)]

/-- Shape of the concrete indices passed to the callback. -/
theorem expandFrom_mem_shape (S : Int) (ranges : Index) (k : Nat) :
    ∀ (pattern : Index) (off mult : Int) (c : Index × Int),
      c ∈ expandFrom S ranges k pattern off mult →
      c.1.length = pattern.length ∧
      (∀ i, k ≤ i → c.1.getD i 0 = pattern.getD i 0) ∧
      (∀ i, i < k → 0 ≤ pattern.getD i 0 → c.1.getD i 0 = pattern.getD i 0) ∧
      (∀ i, i < k → pattern.getD i 0 < 0 →
        0 ≤ c.1.getD i 0 ∧ c.1.getD i 0 < ranges.getD i 0) := by
  induction k with
  | zero =>
    intro pattern off mult c hc
    simp only [expandFrom, List.mem_singleton] at hc
    subst hc
    exact ⟨rfl, fun _ _ => rfl, fun _ _ _ => rfl, fun i hi => absurd hi (by omega)⟩
  | succ k ih =>
    intro pattern off mult c hc
    rw [expandFrom] at hc
    by_cases hneg : pattern.getD k 0 < 0
    · rw [if_pos hneg, List.mem_flatMap] at hc
      obtain ⟨n, hn, hc⟩ := hc
      have hkl := lt_length_of_getD_neg pattern k hneg
      have hnr : (n : Int) < ranges.getD k 0 := by
        have := List.mem_range.mp hn
        omega
      obtain ⟨h1, h2, h3, h4⟩ := ih _ _ _ c hc
      have hck : c.1.getD k 0 = (n : Int) := by
        rw [h2 k (le_refl _), getD_set_self pattern k _ hkl]
      refine ⟨by simpa using h1, ?_, ?_, ?_⟩
      · intro i hi
        rw [h2 i (by omega), getD_set_ne pattern k i _ (by omega)]
      · intro i hi h0
        have hik : i ≠ k := by
          rintro rfl
          omega
        rw [h3 i (by omega) (by rw [getD_set_ne pattern k i _ (by omega)]; exact h0),
          getD_set_ne pattern k i _ (by omega)]
      · intro i hi h0
        by_cases hik : i = k
        · subst hik
          rw [hck]
          exact ⟨by omega, hnr⟩
        · exact h4 i (by omega) (by rw [getD_set_ne pattern k i _ (by omega)]; exact h0)
    · rw [if_neg hneg] at hc
      obtain ⟨h1, h2, h3, h4⟩ := ih _ _ _ c hc
      refine ⟨h1, fun i hi => h2 i (by omega), ?_, ?_⟩
      · intro i hi h0
        by_cases hik : i = k
        · subst hik
          exact h2 i (le_refl _)
        · exact h3 i (by omega) h0
      · intro i hi h0
        have hik : i ≠ k := by
          rintro rfl
          exact hneg h0
        exact h4 i (by omega) h0

/-- The offset passed with a concrete index is `off + mult *` its row-major index. -/
theorem expandFrom_offset (S : Int) (hS : S < 0) (ranges : Index) (k : Nat) :
    ∀ (pattern : Index) (off mult : Int) (c : Index × Int),
      Admissible S pattern →
      c ∈ expandFrom S ranges k pattern off mult →
      c.2 = off + mult * linFrom S pattern ranges c.1 k := by
  induction k with
  | zero =>
    intro pattern off mult c _ hc
    simp only [expandFrom, List.mem_singleton] at hc
    subst hc
    simp [linFrom]
  | succ k ih =>
    intro pattern off mult c hadm hc
    have hshape := expandFrom_mem_shape S ranges (k + 1) pattern off mult c hc
    rw [expandFrom] at hc
    by_cases hneg : pattern.getD k 0 < 0
    · rw [if_pos hneg, List.mem_flatMap] at hc
      obtain ⟨n, hn, hc⟩ := hc
      have hkl := lt_length_of_getD_neg pattern k hneg
      have h2 := (expandFrom_mem_shape S ranges k _ _ _ c hc).2.1
      have hck : c.1.getD k 0 = (n : Int) := by
        rw [h2 k (le_refl _), getD_set_self pattern k _ hkl]
      have hih := ih _ _ _ c (hadm.set k n) hc
      rw [linFrom_set S pattern ranges c.1 k _ k (le_refl _)] at hih
      rw [hih, linFrom]
      rcases hadm _ (getD_mem pattern k hkl) hneg with hsum | hfree
      · have h3 : ¬ (pattern.getD k 0 < S) := by omega
        rw [if_pos hsum, if_neg h3, if_neg h3]
      · have h3 : ¬ (pattern.getD k 0 = S) := by omega
        rw [if_neg h3, if_pos hfree, if_pos hfree, hck]
        ring
    · rw [if_neg hneg] at hc
      have h3 : ¬ (pattern.getD k 0 < S) := by omega
      rw [ih _ _ _ c hadm hc, linFrom, if_neg h3]

/-- In-range values at the free positions give a linear index inside the output. -/
theorem linFrom_bound (S : Int) (pattern ranges index : Index) (k : Nat)
    (h : ∀ i, i < k → pattern.getD i 0 < S →
      0 ≤ index.getD i 0 ∧ index.getD i 0 < ranges.getD i 0) :
    0 ≤ linFrom S pattern ranges index k ∧
      linFrom S pattern ranges index k < sizeFrom S pattern ranges k := by
  induction k with
  | zero => simp [linFrom, sizeFrom]
  | succ k ih =>
    obtain ⟨h1, h2⟩ := ih (fun i hi => h i (by omega))
    rw [linFrom, sizeFrom]
    by_cases hf : pattern.getD k 0 < S
    · rw [if_pos hf, if_pos hf]
      obtain ⟨h3, h4⟩ := h k (by omega) hf
      constructor
      · have : 0 ≤ linFrom S pattern ranges index k * ranges.getD k 0 :=
          mul_nonneg h1 (by omega)
        omega
      · nlinarith
    · rw [if_neg hf, if_neg hf]
      exact ⟨h1, h2⟩

/-- The free entries of a prefix that is one position longer. -/
theorem freeEntries_take_succ (S : Int) (pattern values : Index) (k : Nat)
    (hp : k < pattern.length) (hv : k < values.length) :
    freeEntries S (pattern.take (k + 1)) (values.take (k + 1)) =
      freeEntries S (pattern.take k) (values.take k) ++
        (if pattern.getD k 0 < S then [values.getD k 0] else []) := by
  have h1 : pattern.take (k + 1) = pattern.take k ++ [pattern.getD k 0] := by
    rw [List.take_succ, List.getD_eq_getElem _ _ hp, List.getElem?_eq_getElem hp]
    rfl
  have h2 : values.take (k + 1) = values.take k ++ [values.getD k 0] := by
    rw [List.take_succ, List.getD_eq_getElem _ _ hv, List.getElem?_eq_getElem hv]
    rfl
  have h3 : (pattern.take k).length = (values.take k).length := by
    simp only [List.length_take]
    omega
  rw [h1, h2]
  unfold freeEntries
  rw [List.zip_append h3, List.filter_append, List.map_append]
  congr 1
  generalize pattern.getD k 0 = p
  generalize values.getD k 0 = v
  by_cases hf : p < S
  · simp [hf]
  · simp [hf]

theorem sizeFrom_eq_prod (S : Int) (pattern ranges : Index)
    (hr : pattern.length = ranges.length) (k : Nat) (hk : k ≤ pattern.length) :
    sizeFrom S pattern ranges k = (freeEntries S (pattern.take k) (ranges.take k)).prod := by
  induction k with
  | zero => simp [sizeFrom, freeEntries]
  | succ k ih =>
    rw [sizeFrom, ih (by omega), freeEntries_take_succ S pattern ranges k (by omega) (by omega)]
    by_cases hf : pattern.getD k 0 < S
    · rw [if_pos hf, if_pos hf, List.prod_append]
      simp
    · rw [if_neg hf, if_neg hf, List.append_nil]

theorem getLoopRanges_count (S : Int) (pattern ranges : Index)
    (hr : pattern.length = ranges.length) (k : Nat) (hk : k ≤ pattern.length) :
    (List.range k).foldlM
      (fun (lDimensions : Int) (n : Nat) =>
        (pattern.get? n).map fun p => if p < S then lDimensions + 1 else lDimensions) 0 =
    some ((freeEntries S (pattern.take k) (ranges.take k)).length : Int) := by
  induction k with
  | zero => simp [freeEntries]
  | succ k ih =>
    rw [List.range_succ, List.foldlM_append, ih (by omega),
      freeEntries_take_succ S pattern ranges k (by omega) (by omega)]
    simp only [Option.some_bind, Option.pure_def, Option.bind_eq_bind, List.foldlM_cons,
      List.foldlM_nil, get?_eq_some_getD pattern k (by omega), Option.map_some']
    generalize pattern.getD k 0 = p
    by_cases hf : p < S
    · simp [hf]
    · simp [hf]

theorem getLoopRanges_fill (S : Int) (pattern ranges : Index)
    (hr : pattern.length = ranges.length) (D : Nat) (k : Nat) (hk : k ≤ pattern.length)
    (hD : (freeEntries S (pattern.take k) (ranges.take k)).length ≤ D) :
    (List.range k).foldlM
      (fun (st : List (Option Int) × Int) (n : Nat) =>
        (pattern.get? n).bind fun p =>
          if p < S then
            (ranges.get? n).bind fun r =>
              (writeAt st.1 st.2 (some r)).map fun a => (a, st.2 + 1)
          else some st)
      (List.replicate D none, 0) =
    some ((freeEntries S (pattern.take k) (ranges.take k)).map some ++
            List.replicate (D - (freeEntries S (pattern.take k) (ranges.take k)).length) none,
          ((freeEntries S (pattern.take k) (ranges.take k)).length : Int)) := by
  induction k with
  | zero => simp [freeEntries]
  | succ k ih =>
    have hstep := freeEntries_take_succ S pattern ranges k (by omega) (by omega)
    rw [hstep] at hD ⊢
    have hD1 : (freeEntries S (pattern.take k) (ranges.take k)).length ≤ D := by
      rw [List.length_append] at hD
      omega
    rw [List.range_succ, List.foldlM_append, ih (by omega) hD1]
    simp only [Option.some_bind, Option.pure_def, Option.bind_eq_bind, List.foldlM_cons,
      List.foldlM_nil, get?_eq_some_getD pattern k (by omega),
      get?_eq_some_getD ranges k (by omega)]
    generalize hF : freeEntries S (pattern.take k) (ranges.take k) = F at *
    generalize pattern.getD k 0 = p at *
    generalize ranges.getD k 0 = r at *
    by_cases hf : p < S
    · rw [if_pos hf] at hD ⊢
      rw [if_pos hf]
      simp only [List.length_append, List.length_singleton] at hD
      obtain ⟨m, hm⟩ : ∃ m, D - F.length = m + 1 := ⟨D - F.length - 1, by omega⟩
      have hi : (F.length : Int) = ((F.map some).length : Int) := by simp
      rw [hm, List.replicate_succ, hi, writeAt_length_append]
      have hm2 : D - (F.length + 1) = m := by omega
      simp [hm2]
    · rw [if_neg hf] at hD ⊢
      rw [if_neg hf]
      simp

/-- Closed form of `getLoopRanges`: one dimension per free position, in index
order, with the extent given by `ranges`. -/
theorem getLoopRanges_eq (S : Int) (pattern ranges : Index)
    (hr : pattern.length = ranges.length) :
    getLoopRanges S pattern ranges =
      some (((freeEntries S pattern ranges).length : Int),
            (freeEntries S pattern ranges).map some) := by
  unfold getLoopRanges
  have h1 := getLoopRanges_count S pattern ranges hr pattern.length (le_refl _)
  have h2 := getLoopRanges_fill S pattern ranges hr (freeEntries S pattern ranges).length
    pattern.length (le_refl _) (by rw [List.take_length, hr, List.take_length])
  have h3 : ranges.take pattern.length = ranges := by rw [hr, List.take_length]
  rw [List.take_length, h3] at h1 h2
  rw [← hr, h1]
  simp only [Option.some_bind, Int.toNat_ofNat]
  rw [h2]
  simp

theorem getD_set_self_gen {α : Type} (l : List α) (k : Nat) (v d : α) (hk : k < l.length) :
    (l.set k v).getD k d = v := by
  rw [List.getD_eq_getElem?_getD, List.getElem?_set_self hk]
  rfl

theorem getD_set_ne_gen {α : Type} (l : List α) (k i : Nat) (v d : α) (h : k ≠ i) :
    (l.set k v).getD i d = l.getD i d := by
  rw [List.getD_eq_getElem?_getD, List.getElem?_set_ne h, ← List.getD_eq_getElem?_getD]

theorem addAt_eq {R : Type} [AddMonoid R] (d : List R) (o : Nat) (h : o < d.length) (t : R) :
    addAt d (o : Int) t = some (d.set o (d.getD o 0 + t)) := by
  unfold addAt
  have h1 : (0 : Int) ≤ (o : Int) ∧ (o : Int) < (d.length : Int) := ⟨by omega, by omega⟩
  rw [if_pos h1, Int.toNat_ofNat, List.get?_eq_getElem?, List.getElem?_eq_getElem h,
    List.getD_eq_getElem _ _ h]

theorem readArray_map_some (l : List Int) : readArray (l.map some) = some l := by
  induction l with
  | nil => rfl
  | cons a l ih => simp [readArray, ih]

theorem ensureCompliantRanges_prefix (pattern ranges : Index)
    (hr : pattern.length = ranges.length) (k : Nat) (hk : k ≤ pattern.length) :
    ∃ rk : Index,
      (List.range k).foldlM
        (fun (ranges : Index) (n : Nat) =>
          (pattern.get? n).bind fun p =>
            if p ≥ 0 then
              if n < ranges.length then some (ranges.set n 1) else none
            else some ranges)
        ranges = some rk ∧
      rk.length = ranges.length ∧
      ∀ i, rk.getD i 0 = if i < k ∧ 0 ≤ pattern.getD i 0 then 1 else ranges.getD i 0 := by
  induction k with
  | zero => exact ⟨ranges, rfl, rfl, fun i => by simp⟩
  | succ k ih =>
    obtain ⟨rk, h1, h2, h3⟩ := ih (by omega)
    rw [List.range_succ, List.foldlM_append, h1]
    simp only [Option.some_bind, Option.pure_def, Option.bind_eq_bind, List.foldlM_cons,
      List.foldlM_nil, get?_eq_some_getD pattern k (by omega)]
    by_cases hp : pattern.getD k 0 ≥ 0
    · have hkr : k < rk.length := by omega
      refine ⟨rk.set k 1, by rw [if_pos hp, if_pos hkr]; rfl, by simpa using h2, ?_⟩
      intro i
      by_cases hik : i = k
      · subst hik
        rw [getD_set_self rk i 1 hkr, if_pos ⟨by omega, hp⟩]
      · rw [getD_set_ne rk k i 1 (fun e => hik e.symm), h3 i]
        by_cases hc : i < k ∧ 0 ≤ pattern.getD i 0
        · rw [if_pos hc, if_pos ⟨by omega, hc.2⟩]
        · rw [if_neg hc, if_neg (by intro h; apply hc; exact ⟨by omega, h.2⟩)]
    · refine ⟨rk, by rw [if_neg hp]; rfl, h2, ?_⟩
      intro i
      rw [h3 i]
      by_cases hc : i < k ∧ 0 ≤ pattern.getD i 0
      · rw [if_pos hc, if_pos ⟨by omega, hc.2⟩]
      · rw [if_neg hc, if_neg]
        rintro ⟨h4, h5⟩
        by_cases hik : i = k
        · subst hik; exact hp h5
        · exact hc ⟨by omega, h5⟩

/-- Closed form of `ensureCompliantRanges`: the entries at concrete positions
become 1, the entries at negative positions are kept. -/
theorem ensureCompliantRanges_eq (pattern ranges : Index)
    (hr : pattern.length = ranges.length) :
    ∃ r1 : Index, ensureCompliantRanges pattern ranges = some r1 ∧
      r1.length = ranges.length ∧
      (∀ i, 0 ≤ pattern.getD i 0 → i < pattern.length → r1.getD i 0 = 1) ∧
      (∀ i, pattern.getD i 0 < 0 → r1.getD i 0 = ranges.getD i 0) := by
  obtain ⟨rk, h1, h2, h3⟩ := ensureCompliantRanges_prefix pattern ranges hr pattern.length
    (le_refl _)
  refine ⟨rk, h1, h2, ?_, ?_⟩
  · intro i h0 hi
    rw [h3 i, if_pos ⟨hi, h0⟩]
  · intro i hneg
    rw [h3 i, if_neg]
    rintro ⟨_, h5⟩
    omega

theorem take_length_of_eq {α : Type} (l : List α) (n : Nat) (h : l.length = n) : l.take n = l := by
  rw [← h, List.take_length]

theorem eq_of_getD_eq (a b : Index) (hl : a.length = b.length)
    (h : ∀ i, i < a.length → a.getD i 0 = b.getD i 0) : a = b := by
  apply List.ext_getElem hl
  intro i h1 h2
  have := h i h1
  rwa [List.getD_eq_getElem _ _ h1, List.getD_eq_getElem _ _ h2] at this

/-- The calls do not depend on `ranges` at the concrete positions. -/
theorem expandFrom_congr (S : Int) (a b : Index) (k : Nat) :
    ∀ (pattern : Index) (off mult : Int),
      (∀ i, i < k → pattern.getD i 0 < 0 → a.getD i 0 = b.getD i 0) →
      expandFrom S a k pattern off mult = expandFrom S b k pattern off mult := by
  induction k with
  | zero => intro pattern off mult _; rfl
  | succ k ih =>
    intro pattern off mult h
    have hset : ∀ v : Int, ∀ i, i < k → (pattern.set k v).getD i 0 < 0 →
        a.getD i 0 = b.getD i 0 := by
      intro v i hi hneg
      rw [getD_set_ne pattern k i v (by omega)] at hneg
      exact h i (by omega) hneg
    rw [expandFrom, expandFrom]
    by_cases hneg : pattern.getD k 0 < 0
    · rw [if_pos hneg, if_pos hneg, h k (by omega) hneg]
      congr 1
      funext n
      exact ih _ _ _ (hset _)
    · rw [if_neg hneg, if_neg hneg]
      exact ih pattern off mult (fun i hi => h i (by omega))

/-- The indices of the calls, without the offsets. -/
theorem expandFrom_map_fst (S : Int) (ranges : Index) (k : Nat) :
    ∀ (pattern : Index) (off mult : Int),
      (expandFrom S ranges k pattern off mult).map Prod.fst = indicesFrom ranges k pattern := by
  induction k with
  | zero => intro pattern off mult; rfl
  | succ k ih =>
    intro pattern off mult
    rw [expandFrom, indicesFrom]
    by_cases hneg : pattern.getD k 0 < 0
    · rw [if_pos hneg, if_pos hneg, List.map_flatMap]
      congr 1
      funext n
      exact ih _ _ _
    · rw [if_neg hneg, if_neg hneg]
      exact ih _ _ _

/-- Membership in `indicesFrom`, position by position. -/
theorem mem_indicesFrom (ranges : Index) (k : Nat) :
    ∀ (pattern idx : Index), k ≤ pattern.length →
      (idx ∈ indicesFrom ranges k pattern ↔
        idx.length = pattern.length ∧
        ∀ i, i < pattern.length →
          (k ≤ i ∨ 0 ≤ pattern.getD i 0 → idx.getD i 0 = pattern.getD i 0) ∧
          (i < k → pattern.getD i 0 < 0 →
            0 ≤ idx.getD i 0 ∧ idx.getD i 0 < ranges.getD i 0)) := by
  induction k with
  | zero =>
    intro pattern idx _
    rw [indicesFrom, List.mem_singleton]
    constructor
    · rintro rfl
      exact ⟨rfl, fun i _ => ⟨fun _ => rfl, fun h => absurd h (by omega)⟩⟩
    · rintro ⟨hl, h⟩
      exact eq_of_getD_eq idx pattern hl (fun i hi => (h i (by omega)).1 (Or.inl (Nat.zero_le _)))
  | succ k ih =>
    intro pattern idx hk
    have hkl : k < pattern.length := hk
    rw [indicesFrom]
    by_cases hneg : pattern.getD k 0 < 0
    · rw [if_pos hneg, List.mem_flatMap]
      constructor
      · rintro ⟨n, hn, hmem⟩
        have hnr := List.mem_range.mp hn
        obtain ⟨hl, h⟩ := (ih _ idx (by simpa using hkl.le)).mp hmem
        rw [List.length_set] at hl h
        refine ⟨hl, fun i hi => ?_⟩
        obtain ⟨h1, h2⟩ := h i hi
        by_cases hik : i = k
        · subst hik
          have hv : idx.getD i 0 = (n : Int) := by
            rw [h1 (Or.inl (le_refl _)), getD_set_self pattern i _ hkl]
          refine ⟨fun hc => ?_, fun _ _ => ?_⟩
          · rcases hc with hc | hc
            · omega
            · omega
          · rw [hv]
            omega
        · rw [getD_set_ne pattern k i _ (fun e => hik e.symm)] at h1 h2
          refine ⟨fun hc => h1 ?_, fun hlt => h2 (by omega)⟩
          rcases hc with hc | hc
          · exact Or.inl (by omega)
          · exact Or.inr hc
      · rintro ⟨hl, h⟩
        obtain ⟨_, h2k⟩ := h k hkl
        obtain ⟨hk0, hkr⟩ := h2k (by omega) hneg
        refine ⟨(idx.getD k 0).toNat, List.mem_range.mpr (by omega), ?_⟩
        rw [ih _ idx (by simpa using hkl.le), List.length_set]
        refine ⟨hl, fun i hi => ?_⟩
        obtain ⟨h1, h2⟩ := h i hi
        by_cases hik : i = k
        · subst hik
          rw [getD_set_self pattern i _ hkl, Int.toNat_of_nonneg hk0]
          exact ⟨fun _ => rfl, fun hlt => absurd hlt (by omega)⟩
        · rw [getD_set_ne pattern k i _ (fun e => hik e.symm)]
          refine ⟨fun hc => h1 ?_, fun hlt => h2 (by omega)⟩
          rcases hc with hc | hc
          · exact Or.inl (by omega)
          · exact Or.inr hc
    · rw [if_neg hneg, ih pattern idx hkl.le]
      constructor
      · rintro ⟨hl, h⟩
        refine ⟨hl, fun i hi => ?_⟩
        obtain ⟨h1, h2⟩ := h i hi
        by_cases hik : i = k
        · subst hik
          exact ⟨fun _ => h1 (Or.inl (le_refl _)), fun _ hc => absurd hc hneg⟩
        · refine ⟨fun hc => h1 ?_, fun hlt => h2 (by omega)⟩
          rcases hc with hc | hc
          · exact Or.inl (by omega)
          · exact Or.inr hc
      · rintro ⟨hl, h⟩
        refine ⟨hl, fun i hi => ?_⟩
        obtain ⟨h1, h2⟩ := h i hi
        by_cases hik : i = k
        · subst hik
          exact ⟨fun _ => h1 (Or.inr (by omega)), fun hlt => absurd hlt (by omega)⟩
        · refine ⟨fun hc => h1 ?_, fun hlt => h2 (by omega)⟩
          rcases hc with hc | hc
          · exact Or.inl (by omega)
          · exact Or.inr hc

/-- No index occurs twice in `indicesFrom`. -/
theorem nodup_indicesFrom (ranges : Index) (k : Nat) :
    ∀ pattern : Index, k ≤ pattern.length → (indicesFrom ranges k pattern).Nodup := by
  induction k with
  | zero => intro pattern _; simp [indicesFrom]
  | succ k ih =>
    intro pattern hk
    have hkl : k < pattern.length := hk
    rw [indicesFrom]
    by_cases hneg : pattern.getD k 0 < 0
    · rw [if_pos hneg, List.nodup_flatMap]
      refine ⟨fun n _ => ih _ (by simpa using hkl.le), ?_⟩
      apply List.Pairwise.imp _ (List.pairwise_lt_range _)
      intro a b hab
      simp only [Function.onFun]
      rw [List.disjoint_left]
      intro idx ha hb
      have h1 := ((mem_indicesFrom ranges k _ idx (by simpa using hkl.le)).mp ha).2 k
        (by simpa using hkl)
      have h2 := ((mem_indicesFrom ranges k _ idx (by simpa using hkl.le)).mp hb).2 k
        (by simpa using hkl)
      have e1 := h1.1 (Or.inl (le_refl _))
      have e2 := h2.1 (Or.inl (le_refl _))
      rw [getD_set_self pattern k _ hkl] at e1 e2
      omega
    · rw [if_neg hneg]
      exact ih pattern hkl.le

/-- The number of calls is the product of the loop lengths of the negative positions. -/
theorem length_indicesFrom (ranges : Index) (k : Nat) :
    ∀ pattern : Index, pattern.length = ranges.length → k ≤ pattern.length →
      (indicesFrom ranges k pattern).length =
        iterations (freeEntries 0 (pattern.take k) (ranges.take k)) := by
  induction k with
  | zero => intro pattern _ _; simp [indicesFrom, iterations, freeEntries]
  | succ k ih =>
    intro pattern hr hk
    have hkl : k < pattern.length := hk
    rw [indicesFrom, freeEntries_take_succ 0 pattern ranges k hkl (by omega)]
    by_cases hneg : pattern.getD k 0 < 0
    · rw [if_pos hneg, if_pos hneg, List.length_flatMap]
      have hconst : (List.range (ranges.getD k 0).toNat).map
            (fun (n : Nat) => (indicesFrom ranges k (pattern.set k (n : Int))).length) =
          List.replicate (ranges.getD k 0).toNat
            (iterations (freeEntries 0 (pattern.take k) (ranges.take k))) := by
        rw [List.eq_replicate_iff]
        refine ⟨by simp, fun x hx => ?_⟩
        obtain ⟨n, _, rfl⟩ := List.mem_map.mp hx
        rw [ih _ (by simpa using hr) (by simpa using hkl.le), List.set_take,
          List.set_eq_of_length_le (by simp)]
      have hcomp : (List.range (ranges.getD k 0).toNat).map
            (List.length ∘ fun (n : Nat) => indicesFrom ranges k (pattern.set k (n : Int))) =
          (List.range (ranges.getD k 0).toNat).map
            (fun (n : Nat) => (indicesFrom ranges k (pattern.set k (n : Int))).length) := rfl
      rw [hcomp, hconst, List.sum_const_nat]
      simp only [iterations, List.map_append, List.map_cons, List.map_nil, List.prod_append,
        List.prod_cons, List.prod_nil, mul_one]
      ring
    · rw [if_neg hneg, if_neg hneg, List.append_nil]
      exact ih pattern hr hkl.le


/-- The calls of `calculate` started with offset 0 and multiplier 1, for
`ranges` as long as the pattern: the list, its indices and its length. -/
theorem calls_of_calculate (S : Int) (pattern ranges : Index)
    (hlen : pattern.length = ranges.length) :
    (∀ (M : Type) (callback : M → Index → Int → Option M) (memory : M),
      calculate S callback memory pattern ranges 0 1 =
        (expandFrom S ranges pattern.length pattern 0 1).foldlM
          (fun m c => callback m c.1 c.2) memory) ∧
    ((expandFrom S ranges pattern.length pattern 0 1).map Prod.fst).Nodup ∧
    (∀ idx, idx ∈ (expandFrom S ranges pattern.length pattern 0 1).map Prod.fst ↔
      IsInstance pattern ranges idx) ∧
    (expandFrom S ranges pattern.length pattern 0 1).length =
      iterations (wildcardRanges pattern ranges) := by
  refine ⟨fun M callback memory => calculate_eq_foldlM S callback ranges pattern.length pattern
    memory 0 1 hlen (le_refl _) (fun i hi hlt => absurd hlt (by omega)), ?_, ?_, ?_⟩
  · rw [expandFrom_map_fst]
    exact nodup_indicesFrom ranges pattern.length pattern (le_refl _)
  · intro idx
    rw [expandFrom_map_fst, mem_indicesFrom ranges pattern.length pattern idx (le_refl _)]
    unfold IsInstance
    constructor
    · rintro ⟨hl, h⟩
      refine ⟨hl, fun i hi => ?_⟩
      obtain ⟨h1, h2⟩ := h i hi
      exact ⟨fun hc => h1 (Or.inr hc), h2 hi⟩
    · rintro ⟨hl, h⟩
      refine ⟨hl, fun i hi => ?_⟩
      obtain ⟨h1, h2⟩ := h i hi
      refine ⟨fun hc => ?_, fun _ => h2⟩
      rcases hc with hc | hc
      · omega
      · exact h1 hc
  · have h := length_indicesFrom ranges pattern.length pattern hlen (le_refl _)
    rw [← expandFrom_map_fst S ranges pattern.length pattern 0 1, List.length_map,
      List.take_length, take_length_of_eq ranges _ hlen.symm] at h
    exact h

/-- Every component of an instance of the pattern is non-negative. -/
theorem IsInstance.nonneg {pattern ranges idx : Index} (h : IsInstance pattern ranges idx) :
    ∀ v ∈ idx, 0 ≤ v := by
  intro v hv
  obtain ⟨i, hi, rfl⟩ := List.mem_iff_getElem.mp hv
  obtain ⟨h1, h2⟩ := h.2 i (by rw [← h.1]; exact hi)
  rw [← List.getD_eq_getElem _ 0 hi]
  by_cases hp : 0 ≤ pattern.getD i 0
  · rw [h1 hp]; exact hp
  · exact (h2 (by omega)).1

/-- The spec's notion of a free position agrees with the test `< IDX_SUM_ALL` of
the code for one pair of constants only: `IDX_SUM_ALL = -2`, `IDX_SPIN = -1`. -/
theorem claimed_free_differs (S SPIN : Int) (hS : S < 0) (hP : SPIN < 0) (hne : S ≠ SPIN)
    (h : ¬ (S = -2 ∧ SPIN = -1)) :
    ∃ p : Int, ¬ (p < S ↔ (p < 0 ∧ p ≠ S ∧ p ≠ SPIN)) := by
  by_cases h1 : SPIN < S
  · exact ⟨SPIN, by omega⟩
  · by_cases h2 : SPIN = -1
    · exact ⟨-2, by omega⟩
    · exact ⟨-1, by omega⟩

/-- With non-negative extents the number of iterations is their product. -/
theorem iterations_cast (rs : List Int) (h : ∀ r ∈ rs, 0 ≤ r) :
    ((iterations rs : Nat) : Int) = rs.prod := by
  induction rs with
  | nil => simp [iterations]
  | cons r rs ih =>
    have h1 := ih (fun x hx => h x (List.mem_cons_of_mem _ hx))
    have h0 : 0 ≤ r := h r (List.mem_cons_self _ _)
    unfold iterations at h1 ⊢
    rw [List.map_cons, List.prod_cons, List.prod_cons, Nat.cast_mul, h1,
      Int.toNat_of_nonneg h0]

/-- An extent `<= 0` leaves no iteration. -/
theorem iterations_eq_zero (rs : List Int) (h : ∃ r ∈ rs, r ≤ 0) : iterations rs = 0 := by
  obtain ⟨r, hr, h0⟩ := h
  unfold iterations
  rw [List.prod_eq_zero_iff]
  exact List.mem_map.mpr ⟨r, hr, Int.toNat_eq_zero.mpr h0⟩

/-! ## Theorems: loop ranges and the calls of `calculate` -/

/-- The test of `getLoopRanges` is `pattern.at(n) < IDX_SUM_ALL` alone. With
`IDX_SUM_ALL = -2` and `IDX_SPIN = -6` the pattern `[IDX_SPIN]` with ranges `[2]`
gives one dimension of extent 2, and the pattern `[-1]`, whose entry is negative
and neither `IDX_SUM_ALL` nor `IDX_SPIN`, gives no dimension. -/
theorem getLoopRanges_tests_order_only :
    getLoopRanges (-2) [-6] [2] = some (1, [some 2]) ∧
    claimedFreeEntries (-2) (-6) [-6] [2] = [] ∧
    getLoopRanges (-2) [-1] [2] = some (0, []) ∧
    claimedFreeEntries (-2) (-6) [-1] [2] = [2] := by
  decide

/-- For a pattern and `ranges` of equal length, the shape written by
`getLoopRanges` has exactly one dimension per position whose pattern value is
strictly less than `IDX_SUM_ALL`, in index order, with extent `ranges[n]`, and
no dimension for any other position. It is the shape of the spec (one dimension
per negative position that is neither `IDX_SUM_ALL` nor `IDX_SPIN`) whenever the
two tests agree on the entries of the pattern. -/
theorem getLoopRanges_shape (S SPIN : Int) (pattern ranges : Index)
    (hlen : pattern.length = ranges.length) :
    getLoopRanges S pattern ranges =
      some (((freeEntries S pattern ranges).length : Int),
            (freeEntries S pattern ranges).map some) ∧
    ((∀ p ∈ pattern, p < S ↔ (p < 0 ∧ p ≠ S ∧ p ≠ SPIN)) →
      freeEntries S pattern ranges = claimedFreeEntries S SPIN pattern ranges) := by
  refine ⟨getLoopRanges_eq S pattern ranges hlen, fun h => ?_⟩
  unfold freeEntries claimedFreeEntries
  congr 1
  apply List.filter_congr
  intro x hx
  have hx1 : x.1 ∈ pattern := (List.of_mem_zip hx).1
  have := h x.1 hx1
  by_cases hc : x.1 < S
  · rw [decide_eq_true hc, decide_eq_true (this.mp hc)]
  · rw [decide_eq_false hc, decide_eq_false (fun hh => hc (this.mpr hh))]

/-- The shape at `IDX_SUM_ALL = -2`, `IDX_SPIN = -6` and the pattern
`[-3, concrete, SUM_ALL, -4]` with ranges `[2, 7, 5, 3]`: it is `[2, 3]`. -/
theorem getLoopRanges_shape_example :
    ([-3, 4, -2, -4] : Index).length = ([2, 7, 5, 3] : Index).length ∧
    freeEntries (-2) [-3, 4, -2, -4] [2, 7, 5, 3] = [2, 3] ∧
    (getLoopRanges (-2) [-3, 4, -2, -4] [2, 7, 5, 3] =
      some (((freeEntries (-2) [-3, 4, -2, -4] [2, 7, 5, 3]).length : Int),
            (freeEntries (-2) [-3, 4, -2, -4] [2, 7, 5, 3]).map some) ∧
    ((∀ p ∈ ([-3, 4, -2, -4] : Index), p < -2 ↔ (p < 0 ∧ p ≠ -2 ∧ p ≠ -6)) →
      freeEntries (-2) [-3, 4, -2, -4] [2, 7, 5, 3] =
        claimedFreeEntries (-2) (-6) [-3, 4, -2, -4] [2, 7, 5, 3])) :=
  ⟨rfl, by decide, getLoopRanges_shape (-2) (-6) [-3, 4, -2, -4] [2, 7, 5, 3] rfl⟩

/-- C12. For a pattern and `ranges` of equal length, `ensureCompliantRanges`
returns normally with `ranges[n] = 1` at every position where `pattern[n] >= 0`
and `ranges[n]` unchanged where `pattern[n] < 0` (the pattern is a `const`
reference and is not written). The calls that `calculate` then makes are the
same as with the original `ranges`, their number is the product of the loop
lengths of the negative positions only, and every concrete index passed to the
callback has the value of the pattern at every concrete position. -/
theorem ensureCompliantRanges_effect (S : Int) (pattern ranges : Index)
    (hlen : pattern.length = ranges.length) :
    ∃ r1 : Index, ensureCompliantRanges pattern ranges = some r1 ∧
      r1.length = ranges.length ∧
      (∀ i, i < pattern.length → 0 ≤ pattern.getD i 0 → r1.getD i 0 = 1) ∧
      (∀ i, pattern.getD i 0 < 0 → r1.getD i 0 = ranges.getD i 0) ∧
      ∃ calls : List (Index × Int),
        (∀ (M : Type) (callback : M → Index → Int → Option M) (memory : M),
          calculate S callback memory pattern r1 0 1 =
            calls.foldlM (fun m c => callback m c.1 c.2) memory) ∧
        (∀ (M : Type) (callback : M → Index → Int → Option M) (memory : M),
          calculate S callback memory pattern ranges 0 1 =
            calls.foldlM (fun m c => callback m c.1 c.2) memory) ∧
        calls.length = iterations (wildcardRanges pattern ranges) ∧
        ∀ c ∈ calls, ∀ i, i < pattern.length → 0 ≤ pattern.getD i 0 →
          c.1.getD i 0 = pattern.getD i 0 := by
  obtain ⟨r1, he, hl1, hone, hkeep⟩ := ensureCompliantRanges_eq pattern ranges hlen
  have hcongr : expandFrom S r1 pattern.length pattern 0 1 =
      expandFrom S ranges pattern.length pattern 0 1 :=
    expandFrom_congr S r1 ranges pattern.length pattern 0 1 (fun i _ hneg => hkeep i hneg)
  obtain ⟨hc, _, hmem, hcount⟩ := calls_of_calculate S pattern ranges hlen
  obtain ⟨hc1, _, _, _⟩ := calls_of_calculate S pattern r1 (by omega)
  refine ⟨r1, he, hl1, fun i hi h0 => hone i h0 hi, hkeep,
    expandFrom S ranges pattern.length pattern 0 1, ?_, hc, hcount, ?_⟩
  · intro M callback memory
    rw [hc1 M callback memory, hcongr]
  · intro c hcm i hi h0
    have hin : c.1 ∈ (expandFrom S ranges pattern.length pattern 0 1).map Prod.fst :=
      List.mem_map.mpr ⟨c, hcm, rfl⟩
    exact (((hmem c.1).mp hin).2 i hi).1 h0

/-- C12 at the pattern `[free, concrete 4, SUM_ALL]` with ranges `[2, 7, 5]`:
the range 7 of the concrete position becomes 1 and `calculate` makes
`2 * 5 = 10` calls. -/
theorem ensureCompliantRanges_effect_witness :
    ([-3, 4, -2] : Index).length = ([2, 7, 5] : Index).length ∧
    ensureCompliantRanges [-3, 4, -2] [2, 7, 5] = some [2, 1, 5] ∧
    iterations (wildcardRanges [-3, 4, -2] [2, 7, 5]) = 10 ∧
    ∃ r1 : Index, ensureCompliantRanges [-3, 4, -2] [2, 7, 5] = some r1 ∧
      r1.length = ([2, 7, 5] : Index).length ∧
      (∀ i, i < ([-3, 4, -2] : Index).length → 0 ≤ ([-3, 4, -2] : Index).getD i 0 →
        r1.getD i 0 = 1) ∧
      (∀ i, ([-3, 4, -2] : Index).getD i 0 < 0 →
        r1.getD i 0 = ([2, 7, 5] : Index).getD i 0) ∧
      ∃ calls : List (Index × Int),
        (∀ (M : Type) (callback : M → Index → Int → Option M) (memory : M),
          calculate (-2) callback memory [-3, 4, -2] r1 0 1 =
            calls.foldlM (fun m c => callback m c.1 c.2) memory) ∧
        (∀ (M : Type) (callback : M → Index → Int → Option M) (memory : M),
          calculate (-2) callback memory [-3, 4, -2] [2, 7, 5] 0 1 =
            calls.foldlM (fun m c => callback m c.1 c.2) memory) ∧
        calls.length = iterations (wildcardRanges [-3, 4, -2] [2, 7, 5]) ∧
        ∀ c ∈ calls, ∀ i, i < ([-3, 4, -2] : Index).length →
          0 ≤ ([-3, 4, -2] : Index).getD i 0 →
          c.1.getD i 0 = ([-3, 4, -2] : Index).getD i 0 :=
  ⟨rfl, by decide, by decide, ensureCompliantRanges_effect (-2) [-3, 4, -2] [2, 7, 5] rfl⟩

/-- C18. For a pattern and `ranges` of equal length, `calculate` is a total
function whose recursion strictly decreases the number of negative pattern
entries, and it calls the callback on a list `calls` in which every instance of
the pattern (every negative position `p` replaced by a value in
`[0, ranges[p])`, every non-negative position kept) occurs exactly once and
nothing else occurs; the number of calls is the product of the loop lengths
`ranges[p]` over the negative positions (no loop runs for a range `<= 0`), and
every index passed has only non-negative components. -/
theorem calculate_invocations (S : Int) (pattern ranges : Index)
    (hlen : pattern.length = ranges.length) :
    (scanFrom pattern pattern.length ≠ -1 → ∀ n : Nat,
      countNegative (pattern.set (scanFrom pattern pattern.length).toNat (n : Int)) <
        countNegative pattern) ∧
    ∃ calls : List (Index × Int),
      (∀ (M : Type) (callback : M → Index → Int → Option M) (memory : M),
        calculate S callback memory pattern ranges 0 1 =
          calls.foldlM (fun m c => callback m c.1 c.2) memory) ∧
      (calls.map Prod.fst).Nodup ∧
      (∀ idx, idx ∈ calls.map Prod.fst ↔ IsInstance pattern ranges idx) ∧
      calls.length = iterations (wildcardRanges pattern ranges) ∧
      ((∀ r ∈ wildcardRanges pattern ranges, 0 ≤ r) →
        (calls.length : Int) = (wildcardRanges pattern ranges).prod) ∧
      ((∃ r ∈ wildcardRanges pattern ranges, r ≤ 0) → calls.length = 0) ∧
      ∀ c ∈ calls, ∀ v ∈ c.1, 0 ≤ v := by
  obtain ⟨hc, hnd, hmem, hcount⟩ := calls_of_calculate S pattern ranges hlen
  refine ⟨fun h n => calculate_decreasing pattern h n,
    expandFrom S ranges pattern.length pattern 0 1, hc, hnd, hmem, hcount,
    fun h => by rw [hcount]; exact iterations_cast _ h,
    fun h => by rw [hcount]; exact iterations_eq_zero _ h, ?_⟩
  intro c hcm
  exact ((hmem c.1).mp (List.mem_map.mpr ⟨c, hcm, rfl⟩)).nonneg

/-- C18 at the pattern `[free, concrete 4, SUM_ALL]` with ranges `[2, 7, 5]`:
ten calls; and with ranges `[2, 7, -5]`: none. -/
theorem calculate_invocations_witness :
    ([-3, 4, -2] : Index).length = ([2, 7, 5] : Index).length ∧
    iterations (wildcardRanges [-3, 4, -2] [2, 7, 5]) = 10 ∧
    iterations (wildcardRanges [-3, 4, -2] [2, 7, -5]) = 0 ∧
    ((scanFrom [-3, 4, -2] ([-3, 4, -2] : Index).length ≠ -1 → ∀ n : Nat,
      countNegative (([-3, 4, -2] : Index).set
          (scanFrom [-3, 4, -2] ([-3, 4, -2] : Index).length).toNat (n : Int)) <
        countNegative [-3, 4, -2]) ∧
    ∃ calls : List (Index × Int),
      (∀ (M : Type) (callback : M → Index → Int → Option M) (memory : M),
        calculate (-2) callback memory [-3, 4, -2] [2, 7, 5] 0 1 =
          calls.foldlM (fun m c => callback m c.1 c.2) memory) ∧
      (calls.map Prod.fst).Nodup ∧
      (∀ idx, idx ∈ calls.map Prod.fst ↔ IsInstance [-3, 4, -2] [2, 7, 5] idx) ∧
      calls.length = iterations (wildcardRanges [-3, 4, -2] [2, 7, 5]) ∧
      ((∀ r ∈ wildcardRanges [-3, 4, -2] [2, 7, 5], 0 ≤ r) →
        (calls.length : Int) = (wildcardRanges [-3, 4, -2] [2, 7, 5]).prod) ∧
      ((∃ r ∈ wildcardRanges [-3, 4, -2] [2, 7, 5], r ≤ 0) → calls.length = 0) ∧
      ∀ c ∈ calls, ∀ v ∈ c.1, 0 ≤ v) :=
  ⟨rfl, by decide, by decide, calculate_invocations (-2) [-3, 4, -2] [2, 7, 5] rfl⟩

/-! ## Lemmas: the order of the snapshot -/

/-- A counting iteration that meets a row above the tracked row. -/
theorem countStep_write {V : Type} (gb : Index → Int) (st : CountState) (ha : HoppingAmplitude V)
    (c1 r1 : Int)
    (hc : c1 = if gb ha.fromIndex > st.currentCol then gb ha.fromIndex else st.currentCol)
    (hr : r1 = if gb ha.fromIndex > st.currentCol then -1 else st.currentRow)
    (hw : gb ha.toIndex > r1) :
    countStep gb st ha =
      { numMatrixElements := st.numMatrixElements + 1, currentCol := c1,
        currentRow := gb ha.toIndex } := by
  obtain ⟨m, c, r⟩ := st
  subst hc hr
  by_cases h : gb ha.fromIndex > c
  · simp only [h, if_true] at hw
    simp only [countStep, h, hw, if_true]
  · simp only [h, if_false] at hw
    simp only [countStep, h, hw, if_true, if_false]

/-- A counting iteration that meets no row above the tracked row. -/
theorem countStep_keep {V : Type} (gb : Index → Int) (st : CountState) (ha : HoppingAmplitude V)
    (c1 r1 : Int)
    (hc : c1 = if gb ha.fromIndex > st.currentCol then gb ha.fromIndex else st.currentCol)
    (hr : r1 = if gb ha.fromIndex > st.currentCol then -1 else st.currentRow)
    (hw : ¬ gb ha.toIndex > r1) :
    countStep gb st ha =
      { numMatrixElements := st.numMatrixElements, currentCol := c1, currentRow := r1 } := by
  obtain ⟨m, c, r⟩ := st
  subst hc hr
  by_cases h : gb ha.fromIndex > c
  · simp only [h, if_true] at hw
    simp only [countStep, h, hw, if_true, if_false]
  · simp only [h, if_false] at hw
    simp only [countStep, h, hw, if_false]

/-- A filling iteration that meets a row above the tracked row writes the next slot. -/
theorem fillStep_write {V : Type} [Add V] (gb : Index → Int) (conj : V → V) (st : FillState V)
    (ha : HoppingAmplitude V) (c1 r1 : Int)
    (hc : c1 = if gb ha.fromIndex > st.currentCol then gb ha.fromIndex else st.currentCol)
    (hr : r1 = if gb ha.fromIndex > st.currentCol then -1 else st.currentRow)
    (hw : gb ha.toIndex > r1) :
    fillStep gb conj st ha =
      match writeAt st.cooRowIndices (st.currentMatrixElement + 1) (some (gb ha.fromIndex)),
            writeAt st.cooColIndices (st.currentMatrixElement + 1) (some (gb ha.toIndex)),
            writeAt st.cooValues (st.currentMatrixElement + 1) (conj ha.getAmplitude) with
      | some rows, some cols, some vals =>
        some { currentMatrixElement := st.currentMatrixElement + 1,
               currentCol := c1, currentRow := gb ha.toIndex,
               cooRowIndices := rows, cooColIndices := cols, cooValues := vals }
      | _, _, _ => none := by
  obtain ⟨m, c, r, rows, cols, vals⟩ := st
  subst hc hr
  by_cases h : gb ha.fromIndex > c
  · simp only [h, if_true] at hw
    simp only [fillStep, h, hw, if_true]
  · simp only [h, if_false] at hw
    simp only [fillStep, h, hw, if_true, if_false]

/-- A filling iteration that meets no row above the tracked row adds into the
current slot. -/
theorem fillStep_keep {V : Type} [Add V] (gb : Index → Int) (conj : V → V) (st : FillState V)
    (ha : HoppingAmplitude V) (c1 r1 : Int)
    (hc : c1 = if gb ha.fromIndex > st.currentCol then gb ha.fromIndex else st.currentCol)
    (hr : r1 = if gb ha.fromIndex > st.currentCol then -1 else st.currentRow)
    (hw : ¬ gb ha.toIndex > r1) :
    fillStep gb conj st ha =
      match addAt st.cooValues st.currentMatrixElement (conj ha.getAmplitude) with
      | some vals =>
        some { currentMatrixElement := st.currentMatrixElement,
               currentCol := c1, currentRow := r1,
               cooRowIndices := st.cooRowIndices, cooColIndices := st.cooColIndices,
               cooValues := vals }
      | none => none := by
  obtain ⟨m, c, r, rows, cols, vals⟩ := st
  subst hc hr
  by_cases h : gb ha.fromIndex > c
  · simp only [h, if_true] at hw
    simp only [fillStep, h, hw, if_true, if_false]
  · simp only [h, if_false] at hw
    simp only [fillStep, h, hw, if_false]

/-- A write inside an array succeeds and keeps its length. -/
theorem writeAt_some {α : Type} (a : List α) (i : Int) (v : α) (h0 : 0 ≤ i)
    (h1 : i < a.length) : ∃ b, writeAt a i v = some b ∧ b.length = a.length := by
  unfold writeAt
  rw [if_pos ⟨h0, h1⟩]
  exact ⟨_, rfl, by simp⟩

/-- An update inside an array succeeds and keeps its length. -/
theorem addAt_some {α : Type} [Add α] (a : List α) (i : Int) (v : α) (h0 : 0 ≤ i)
    (h1 : i < a.length) : ∃ b, addAt a i v = some b ∧ b.length = a.length := by
  unfold addAt
  rw [if_pos ⟨h0, h1⟩]
  have hlt : i.toNat < a.length := by omega
  rw [List.get?_eq_getElem?, List.getElem?_eq_getElem hlt]
  exact ⟨_, rfl, by simp⟩

/-- Invariant of both loops of `constructCOO` after a prefix `pre` of a sorted
traversal whose first hopping amplitude has a non-negative to-basis-position,
for arrays of `n` cells: both loops agree on the trackers and on the number of
slots, the slots written so far are strictly increasing pairs of `pre`, and the
trackers are not below the last slot unless a pair above it has been met. -/
theorem coo_increasing_prefix {V : Type} [Add V] [Zero V] (gb : Index → Int) (conj : V → V)
    (n : Nat) (pre : List (HoppingAmplitude V)) :
    SortedTraversal gb pre → (∀ ha ∈ pre.head?, 0 ≤ gb ha.toIndex) →
    (countPass gb pre).numMatrixElements ≤ (n : Int) →
    ∃ (slots : List (Int × Int)) (rr rc : List (Option Int)) (vals : List V) (c r : Int),
      slots.Pairwise pairLt ∧ (∀ p ∈ slots, p ∈ pre.map (basisPair gb)) ∧
      (pre ≠ [] → slots ≠ []) ∧
      (slots ≠ [] → (lastOr slots).1 ≤ c ∧
        ((lastOr slots).2 ≤ r ∨ ∃ p ∈ pre.map (basisPair gb), pairLt (lastOr slots) p)) ∧
      countPass gb pre =
        { numMatrixElements := (slots.length : Int), currentCol := c, currentRow := r } ∧
      slots.length + rr.length = n ∧ slots.length + rc.length = n ∧ vals.length = n ∧
      fillPass gb conj (n : Int) pre =
        some { currentMatrixElement := (slots.length : Int) - 1,
               currentCol := c, currentRow := r,
               cooRowIndices := slots.map (fun p => some p.1) ++ rr,
               cooColIndices := slots.map (fun p => some p.2) ++ rc,
               cooValues := vals } := by
  induction pre using List.reverseRecOn with
  | nil =>
    intro _ _ _
    refine ⟨[], List.replicate n none, List.replicate n none, List.replicate n 0, -1, -1,
      List.Pairwise.nil, by simp, by simp, by simp, ?_, by simp, by simp, by simp, ?_⟩
    · simp [countPass]
    · simp [fillPass]
  | append_singleton pre e ih =>
    intro hs hh hc
    have hs0 : (pre.map (basisPair gb) ++ [basisPair gb e]).Pairwise pairLe := by
      simpa [SortedTraversal] using hs
    rw [List.pairwise_append] at hs0
    have hle_all : ∀ q ∈ pre.map (basisPair gb), pairLe q (basisPair gb e) :=
      fun q hq => hs0.2.2 q hq _ (by simp)
    have hh1 : ∀ ha ∈ pre.head?, 0 ≤ gb ha.toIndex := by
      intro ha hha
      apply hh ha
      cases pre with
      | nil => simp at hha
      | cons x t => simpa using hha
    have hc1 : (countPass gb pre).numMatrixElements ≤ (n : Int) := by
      have h := countStep_mono gb (countPass gb pre) e
      rw [← countPass_concat] at h
      exact le_trans h hc
    obtain ⟨slots, rr, rc, vals, c, r, hpw, hsub, hne, htr, hcount, hlr, hlc, hlv, hfill⟩ :=
      ih hs0.1 hh1 hc1
    have hfp := fillPass_concat gb conj (n : Int) pre e
    rw [hfill, Option.some_bind] at hfp
    have hcp := countPass_concat gb pre e
    rw [hcount] at hcp
    obtain ⟨c1, hc1def⟩ : ∃ c1, c1 = if gb e.fromIndex > c then gb e.fromIndex else c := ⟨_, rfl⟩
    obtain ⟨r1, hr1def⟩ : ∃ r1, r1 = if gb e.fromIndex > c then -1 else r := ⟨_, rfl⟩
    have hc1ge : c ≤ c1 ∧ gb e.fromIndex ≤ c1 := by
      rw [hc1def]; split_ifs <;> omega
    have hpair : basisPair gb e = (gb e.fromIndex, gb e.toIndex) := rfl
    by_cases hw : gb e.toIndex > r1
    · -- a new slot is written
      rw [countStep_write gb _ e c1 r1 hc1def hr1def hw] at hcp
      rw [fillStep_write gb conj _ e c1 r1 hc1def hr1def hw] at hfp
      simp only at hcp hfp
      rw [hcp] at hc
      simp only at hc
      have hlen : slots.length + 1 ≤ n := by omega
      obtain ⟨xr, rr1, rfl⟩ : ∃ x t, rr = x :: t := by
        cases rr with
        | nil => simp at hlr; omega
        | cons x t => exact ⟨x, t, rfl⟩
      obtain ⟨xc, rc1, rfl⟩ : ∃ x t, rc = x :: t := by
        cases rc with
        | nil => simp at hlc; omega
        | cons x t => exact ⟨x, t, rfl⟩
      simp only [List.length_cons] at hlr hlc
      obtain ⟨vals1, hv1, hvl⟩ := writeAt_some vals ((slots.length : Int) - 1 + 1)
        (conj e.getAmplitude) (by omega) (by omega)
      have hi1 : (slots.length : Int) - 1 + 1 =
          ((slots.map (fun p : Int × Int => some p.1)).length : Int) := by simp
      have hi2 : (slots.length : Int) - 1 + 1 =
          ((slots.map (fun p : Int × Int => some p.2)).length : Int) := by simp
      rw [hv1, hi1, writeAt_length_append, ← hi1, hi2, writeAt_length_append, ← hi2] at hfp
      simp only at hfp
      have hall : ∀ q ∈ slots, pairLt q (basisPair gb e) := by
        intro q hq
        have hnonempty : slots ≠ [] := List.ne_nil_of_mem hq
        have hlmem : lastOr slots ∈ slots := (lastOr_mem_or slots).resolve_left hnonempty
        have hlast : pairLe (lastOr slots) (basisPair gb e) := hle_all _ (hsub _ hlmem)
        have hlt : pairLt (lastOr slots) (basisPair gb e) := by
          apply pairLt_of_le_of_ne hlast
          intro heq
          obtain ⟨h1, h2⟩ := htr hnonempty
          rw [heq, hpair] at h1 h2
          simp only at h1 h2
          have hr1 : r1 = r := by rw [hr1def, if_neg (by omega)]
          rcases h2 with h2 | ⟨p, hp, h2⟩
          · omega
          · have h3 := hle_all p hp
            rw [hpair] at h3
            unfold pairLt at h2
            unfold pairLe at h3
            simp only at h2 h3
            omega
        rcases pairLt_lastOr_of_mem slots hpw q hq with h | h
        · rw [h]; exact hlt
        · exact pairLt_of_lt_of_le h hlast
      refine ⟨slots ++ [basisPair gb e], rr1, rc1, vals1, c1, gb e.toIndex, ?_, ?_, by simp,
        ?_, ?_, ?_, ?_, ?_, ?_⟩
      · rw [List.pairwise_append]
        refine ⟨hpw, by simp, ?_⟩
        intro q hq q2 hq2
        simp only [List.mem_singleton] at hq2
        rw [hq2]
        exact hall q hq
      · intro q hq
        rw [List.map_append]
        rcases List.mem_append.mp hq with h | h
        · exact List.mem_append_left _ (hsub q h)
        · exact List.mem_append_right _ (by simpa using h)
      · intro _
        rw [lastOr_concat, hpair]
        exact ⟨hc1ge.2, Or.inl (le_refl _)⟩
      · rw [hcp]
        simp
      · simp; omega
      · simp; omega
      · rw [hvl, hlv]
      · rw [hfp]
        simp only [List.map_append, List.map_cons, List.map_nil, List.append_assoc,
          List.singleton_append, List.length_append, List.length_singleton, hpair,
          Option.some.injEq, FillState.mk.injEq, and_true, true_and]
        simp
    · -- no new slot: the amplitude is added into the current slot
      rw [countStep_keep gb _ e c1 r1 hc1def hr1def hw] at hcp
      rw [fillStep_keep gb conj _ e c1 r1 hc1def hr1def hw] at hfp
      simp only at hcp hfp
      have hnonempty : slots ≠ [] := by
        by_cases hp : pre = []
        · subst hp
          exfalso
          have h0 : 0 ≤ gb e.toIndex := hh e (by simp)
          simp only [countPass, List.foldl_nil, CountState.mk.injEq] at hcount
          obtain ⟨_, h2, h3⟩ := hcount
          apply hw
          rw [hr1def, ← h3]
          split_ifs <;> omega
        · exact hne hp
      have hpos : 0 < slots.length := List.length_pos.mpr hnonempty
      obtain ⟨vals1, hv1, hvl⟩ := addAt_some vals ((slots.length : Int) - 1)
        (conj e.getAmplitude) (by omega) (by omega)
      rw [hv1] at hfp
      simp only at hfp
      refine ⟨slots, rr, rc, vals1, c1, r1, hpw, ?_, fun _ => hnonempty, ?_, hcp, hlr, hlc,
        by rw [hvl, hlv], hfp⟩
      · intro q hq
        rw [List.map_append]
        exact List.mem_append_left _ (hsub q hq)
      · intro _
        obtain ⟨h1, h2⟩ := htr hnonempty
        refine ⟨le_trans h1 hc1ge.1, ?_⟩
        by_cases hreset : gb e.fromIndex > c
        · right
          refine ⟨basisPair gb e, by simp, ?_⟩
          unfold pairLt
          rw [hpair]
          simp only
          left
          omega
        · have hr1 : r1 = r := by rw [hr1def, if_neg hreset]
          rw [hr1]
          rcases h2 with h2 | ⟨p, hp, h2⟩
          · exact Or.inl h2
          · right
            exact ⟨p, by rw [List.map_append]; exact List.mem_append_left _ hp, h2⟩

/-- A traversal whose first hopping amplitude has a negative to-basis-position
makes the filling loop of `constructCOO` add into the cell before the array. -/
theorem fillPass_none_of_head {V : Type} [Add V] [Zero V] (gb : Index → Int) (conj : V → V)
    (n : Int) (e : HoppingAmplitude V) (t : List (HoppingAmplitude V))
    (h : gb e.toIndex < 0) : fillPass gb conj n (e :: t) = none := by
  unfold fillPass
  rw [List.foldlM_cons]
  have hw : ¬ gb e.toIndex > -1 := by omega
  rw [fillStep_keep gb conj _ e (if gb e.fromIndex > -1 then gb e.fromIndex else -1) (-1) rfl
    (by simp) hw]
  simp [addAt]

/-- Closed form of `constructCOO` on a sorted traversal whose first hopping
amplitude (if any) has a non-negative to-basis-position: it returns normally
with a snapshot whose (row, column) pairs are strictly increasing. -/
theorem coo_increasing {V : Type} [Add V] [Zero V] (gb : Index → Int) (conj : V → V)
    (tree : List (HoppingAmplitude V)) (hs : SortedTraversal gb tree)
    (hh : ∀ ha ∈ tree.head?, 0 ≤ gb ha.toIndex) :
    ∃ (slots : List (Int × Int)) (st : FillState V),
      fillPass gb conj (countPass gb tree).numMatrixElements tree = some st ∧
      st.cooRowIndices = slots.map (fun p => some p.1) ∧
      st.cooColIndices = slots.map (fun p => some p.2) ∧
      (countPass gb tree).numMatrixElements = (slots.length : Int) ∧
      slots.Pairwise pairLt := by
  have h0 := countPass_nonneg gb tree
  have hcast : (((countPass gb tree).numMatrixElements.toNat : Nat) : Int) =
      (countPass gb tree).numMatrixElements := Int.toNat_of_nonneg h0
  obtain ⟨slots, rr, rc, vals, c, r, hpw, _, _, _, hcount, hlr, hlc, _, hfill⟩ :=
    coo_increasing_prefix gb conj (countPass gb tree).numMatrixElements.toNat tree hs hh
      (le_of_eq hcast.symm)
  have hlen : (countPass gb tree).numMatrixElements = (slots.length : Int) := by
    rw [hcount]
  have hn2 : (countPass gb tree).numMatrixElements.toNat = slots.length := by
    rw [hlen]; simp
  have hrr : rr = [] := List.eq_nil_of_length_eq_zero (by omega)
  have hrc : rc = [] := List.eq_nil_of_length_eq_zero (by omega)
  subst hrr hrc
  rw [hcast] at hfill
  exact ⟨slots, _, hfill, by simp, by simp, hlen, hpw⟩

/-- C20. On a traversal that is non-decreasing in (from-basis-position,
to-basis-position), whenever `constructCOO` returns normally the snapshot it
built is in strictly increasing row-major order: for consecutive entries `k`
and `k+1` the pair `(cooRowIndices[k], cooColIndices[k])` is lexicographically
strictly less than `(cooRowIndices[k+1], cooColIndices[k+1])`, and no pair
occurs twice. It does return normally when the set is flagged sorted, no
snapshot is built yet, and the first hopping amplitude, if there is one, has a
non-negative to-basis-position. -/
theorem constructCOO_strictly_increasing {V : Type} [Add V] [Zero V] (gb : Index → Int)
    (conj : V → V) (s : AmplitudeSet V) (hs : SortedTraversal gb s.tree) :
    (s.isSorted = true → s.numMatrixElements = -1 →
      (∀ ha ∈ s.tree.head?, 0 ≤ gb ha.toIndex) →
      ∃ s1, s.constructCOO gb conj = Outcome.ok s1 ()) ∧
    ∀ s1, s.constructCOO gb conj = Outcome.ok s1 () →
      ∃ slots : List (Int × Int),
        s1.cooRowIndices = some (slots.map (fun p => some p.1)) ∧
        s1.cooColIndices = some (slots.map (fun p => some p.2)) ∧
        s1.numMatrixElements = (slots.length : Int) ∧
        (∀ k, k + 1 < slots.length →
          pairLt (slots.getD k (0, 0)) (slots.getD (k + 1) (0, 0))) ∧
        slots.Pairwise pairLt ∧ slots.Nodup := by
  constructor
  · intro h1 h2 hh
    obtain ⟨slots, st, hfill, _, _, _, _⟩ := coo_increasing gb conj s.tree hs hh
    exact ⟨_, (constructCOO_ok_iff gb conj s _).mpr ⟨h1, h2, st, hfill, rfl⟩⟩
  · intro s1 hok
    obtain ⟨_, _, st, hfill, hs1⟩ := (constructCOO_ok_iff gb conj s s1).mp hok
    have hh : ∀ ha ∈ s.tree.head?, 0 ≤ gb ha.toIndex := by
      intro ha hha
      cases htree : s.tree with
      | nil => rw [htree] at hha; simp at hha
      | cons e t =>
        rw [htree] at hha hfill
        simp only [List.head?_cons, Option.mem_def, Option.some.injEq] at hha
        subst hha
        by_contra hneg
        rw [fillPass_none_of_head gb conj _ e t (by omega)] at hfill
        exact Option.noConfusion hfill
    obtain ⟨slots, st2, hfill2, hr, hc, hlen, hpw⟩ := coo_increasing gb conj s.tree hs hh
    rw [hfill] at hfill2
    cases hfill2
    refine ⟨slots, ?_, ?_, ?_, ?_, hpw, pairwise_pairLt_nodup slots hpw⟩
    · rw [hs1, hr]
    · rw [hs1, hc]
    · rw [hs1, hlen]
    · intro k hk
      rw [List.getD_eq_getElem _ _ (by omega), List.getD_eq_getElem _ _ hk]
      exact List.pairwise_iff_getElem.mp hpw k (k + 1) (by omega) hk (by omega)

/-- C20 on the scenario of the spec: the snapshot is built and its two
(row, column) pairs are `(0, 1)` and `(1, 0)`, in that order. -/
theorem constructCOO_strictly_increasing_scenario :
    SortedTraversal scenarioBasis scenarioSet.tree ∧
    scenarioSet.constructCOO scenarioBasis conjZ = Outcome.ok scenarioBuilt () ∧
    ((scenarioSet.isSorted = true → scenarioSet.numMatrixElements = -1 →
      (∀ ha ∈ scenarioSet.tree.head?, 0 ≤ scenarioBasis ha.toIndex) →
      ∃ s1, scenarioSet.constructCOO scenarioBasis conjZ = Outcome.ok s1 ()) ∧
    ∀ s1, scenarioSet.constructCOO scenarioBasis conjZ = Outcome.ok s1 () →
      ∃ slots : List (Int × Int),
        s1.cooRowIndices = some (slots.map (fun p => some p.1)) ∧
        s1.cooColIndices = some (slots.map (fun p => some p.2)) ∧
        s1.numMatrixElements = (slots.length : Int) ∧
        (∀ k, k + 1 < slots.length →
          pairLt (slots.getD k (0, 0)) (slots.getD (k + 1) (0, 0))) ∧
        slots.Pairwise pairLt ∧ slots.Nodup) :=
  ⟨by decide, by decide,
    constructCOO_strictly_increasing scenarioBasis conjZ scenarioSet (by decide)⟩

/-! ## Lemmas: binning -/

theorem truncToInt_of_nonneg {R : Type} [LinearOrderedField R] [FloorRing R] (x : R)
    (h : 0 ≤ x) : truncToInt x = ⌊x⌋ := by
  unfold truncToInt
  rw [if_pos h]

theorem truncToInt_of_neg {R : Type} [LinearOrderedField R] [FloorRing R] (x : R)
    (h : x < 0) : truncToInt x = ⌈x⌉ := by
  unfold truncToInt
  rw [if_neg (not_le.mpr h)]

/-- In exact arithmetic the quotient scaled by `resolution` is the quotient by the
bin width. -/
theorem scaled_eq_div_width {R : Type} [LinearOrderedField R] (l u e : R) (res : Int) :
    ((e - l) / (u - l)) * (res : R) = (e - l) / ((u - l) / (res : R)) := by
  rw [div_div_eq_mul_div, div_mul_eq_mul_div]

theorem width_pos {R : Type} [LinearOrderedField R] (l u : R) (res : Int) (hlu : l < u)
    (hres : 0 < res) : 0 < (u - l) / (res : R) :=
  div_pos (sub_pos.mpr hlu) (Int.cast_pos.mpr hres)

/-- The bin index of the spec lies in `[0, resolution)` for an eigenvalue in
`[lowerBound, upperBound)`. -/
theorem floorBin_range {R : Type} [LinearOrderedField R] [FloorRing R] (l u : R) (res : Int)
    (hlu : l < u) (hres : 0 < res) (e : R) (hle : l ≤ e) (hlt : e < u) :
    0 ≤ (e - l) / ((u - l) / (res : R)) ∧ 0 ≤ floorBin l u res e ∧ floorBin l u res e < res := by
  have hw := width_pos l u res hlu hres
  have hr : (0 : R) < (res : R) := Int.cast_pos.mpr hres
  have hx0 : 0 ≤ (e - l) / ((u - l) / (res : R)) := div_nonneg (sub_nonneg.mpr hle) (le_of_lt hw)
  refine ⟨hx0, Int.floor_nonneg.mpr hx0, ?_⟩
  unfold floorBin
  rw [Int.floor_lt, div_lt_iff₀ hw, mul_div_cancel₀ _ (ne_of_gt hr)]
  linarith

/-- An eigenvalue in `[lowerBound, upperBound)` adds 1 to the bin of the spec. -/
theorem calculateDOSStep_inside {R : Type} [LinearOrderedField R] [FloorRing R] (l u : R)
    (res : Int) (hlu : l < u) (hres : 0 < res) (data : List R) (e : R)
    (hlen : data.length = res.toNat) (hle : l ≤ e) (hlt : e < u) :
    calculateDOSStep l u res data e =
      some (data.set (floorBin l u res e).toNat
        (data.getD (floorBin l u res e).toNat 0 + 1)) := by
  obtain ⟨hx0, hb0, hb1⟩ := floorBin_range l u res hlu hres e hle hlt
  unfold calculateDOSStep
  simp only
  rw [scaled_eq_div_width, truncToInt_of_nonneg _ hx0]
  have hb : ⌊(e - l) / ((u - l) / (res : R))⌋ = floorBin l u res e := rfl
  rw [hb, if_pos ⟨hb0, hb1⟩]
  have hcast : (((floorBin l u res e).toNat : Nat) : Int) = floorBin l u res e :=
    Int.toNat_of_nonneg hb0
  have h := addAt_eq data (floorBin l u res e).toNat (by omega) (1 : R)
  rw [hcast] at h
  exact h

/-- An eigenvalue less than one bin width below `lowerBound` adds 1 to bin 0:
its scaled quotient lies in `(-1, 0)` and is rounded toward zero. -/
theorem calculateDOSStep_just_below {R : Type} [LinearOrderedField R] [FloorRing R] (l u : R)
    (res : Int) (hlu : l < u) (hres : 0 < res) (data : List R) (e : R)
    (hlen : data.length = res.toNat) (hlo : l - (u - l) / (res : R) < e) (hlt : e < l) :
    calculateDOSStep l u res data e = some (data.set 0 (data.getD 0 0 + 1)) := by
  have hw := width_pos l u res hlu hres
  have hxneg : (e - l) / ((u - l) / (res : R)) < 0 :=
    div_neg_of_neg_of_pos (by linarith) hw
  have hceil : ⌈(e - l) / ((u - l) / (res : R))⌉ = 0 := by
    rw [Int.ceil_eq_iff]
    refine ⟨?_, by simpa using le_of_lt hxneg⟩
    rw [lt_div_iff₀ hw]
    simp only [Int.cast_zero, zero_sub, neg_mul, one_mul]
    linarith
  unfold calculateDOSStep
  simp only
  rw [scaled_eq_div_width, truncToInt_of_neg _ hxneg, hceil, if_pos ⟨le_refl _, hres⟩]
  have h := addAt_eq data 0 (by omega) (1 : R)
  simpa using h

/-- An eigenvalue at or above `upperBound`, or at least one bin width below
`lowerBound`, changes no bin. -/
theorem calculateDOSStep_outside {R : Type} [LinearOrderedField R] [FloorRing R] (l u : R)
    (res : Int) (hlu : l < u) (hres : 0 < res) (data : List R) (e : R)
    (h : u ≤ e ∨ e ≤ l - (u - l) / (res : R)) :
    calculateDOSStep l u res data e = some data := by
  have hw := width_pos l u res hlu hres
  have hr : (0 : R) < (res : R) := Int.cast_pos.mpr hres
  unfold calculateDOSStep
  simp only
  rw [scaled_eq_div_width]
  rcases h with h | h
  · have hx : (res : R) ≤ (e - l) / ((u - l) / (res : R)) := by
      rw [le_div_iff₀ hw, mul_div_cancel₀ _ (ne_of_gt hr)]
      linarith
    have hx0 : 0 ≤ (e - l) / ((u - l) / (res : R)) := le_trans (le_of_lt hr) hx
    rw [truncToInt_of_nonneg _ hx0, if_neg]
    rintro ⟨_, h2⟩
    have := Int.le_floor.mpr hx
    omega
  · have hx : (e - l) / ((u - l) / (res : R)) ≤ ((-1 : Int) : R) := by
      rw [div_le_iff₀ hw]
      simp only [Int.reduceNeg, Int.cast_neg, Int.cast_one, neg_mul, one_mul]
      linarith
    have hxneg : (e - l) / ((u - l) / (res : R)) < 0 := by
      refine lt_of_le_of_lt hx ?_
      simp
    rw [truncToInt_of_neg _ hxneg, if_neg]
    rintro ⟨h1, _⟩
    have := Int.ceil_le.mpr hx
    omega

theorem binCount_succ (bin : Nat → Int) (m : Nat) (k : Int) :
    binCount bin (m + 1) k = binCount bin m k + (if bin m = k then 1 else 0) := by
  unfold binCount
  rw [List.range_succ, List.filter_append, List.length_append]
  by_cases h : bin m = k
  · simp [h]
  · simp [h]

/-- A loop that adds 1 to the bin `bin n` of eigenstate `n`, started on a
zero-filled histogram, ends with the number of eigenstates of each bin. -/
theorem histogram_counts {R : Type} [LinearOrderedField R] (step : List R → Nat → Option (List R))
    (bin : Nat → Int) (size : Nat) (m : Nat)
    (hstep : ∀ n, n < m → 0 ≤ bin n ∧ bin n < (size : Int) ∧
      ∀ d : List R, d.length = size →
        step d n = some (d.set (bin n).toNat (d.getD (bin n).toNat 0 + 1))) :
    ∃ d : List R, (List.range m).foldlM step (List.replicate size 0) = some d ∧
      d.length = size ∧
      ∀ k : Nat, k < size → d.getD k 0 = ((binCount bin m (k : Int) : Nat) : R) := by
  induction m with
  | zero =>
    refine ⟨List.replicate size 0, rfl, by simp, ?_⟩
    intro k hk
    rw [List.getD_eq_getElem _ _ (by simpa using hk)]
    simp [binCount]
  | succ m ih =>
    obtain ⟨d, hd, hlen, hval⟩ := ih (fun n hn => hstep n (by omega))
    obtain ⟨hb0, hb1, hs⟩ := hstep m (by omega)
    refine ⟨d.set (bin m).toNat (d.getD (bin m).toNat 0 + 1), ?_, by simpa using hlen, ?_⟩
    · rw [List.range_succ, List.foldlM_append, hd]
      simp only [Option.some_bind, Option.bind_eq_bind, List.foldlM_cons, List.foldlM_nil]
      rw [hs d hlen]
      rfl
    · intro k hk
      rw [binCount_succ]
      by_cases hbk : bin m = (k : Int)
      · have hn : (bin m).toNat = k := by omega
        rw [if_pos hbk, hn, getD_set_self_gen d k _ 0 (by omega), hval k hk]
        push_cast
        rfl
      · have hn : (bin m).toNat ≠ k := by omega
        rw [if_neg hbk, getD_set_ne_gen d _ k _ 0 hn, hval k hk]
        simp

/-- One iteration of the LDOS callback: an eigenvalue strictly between the bounds
adds `real(conj(u)*u)` into the bin of the spec inside the cell of `offset`, any
other eigenvalue leaves the buffer unchanged. -/
theorem calculateLDOSStep_eq {R V : Type} [LinearOrderedField R] [FloorRing R] [Mul V]
    (solver : Solver R V) (re : V → R) (conj : V → V) (l u : R) (res : Int) (hlu : l < u)
    (hres : 0 < res) (index : Index) (o : Nat) (ldos : List R)
    (hbuf : res.toNat * o + res.toNat ≤ ldos.length) (n : Nat) :
    (l < solver.eigenValues n ∧ solver.eigenValues n < u →
      0 ≤ floorBin l u res (solver.eigenValues n) ∧
      floorBin l u res (solver.eigenValues n) < res ∧
      calculateLDOSStep solver re conj u l res ((u - l) / (res : R)) index (o : Int) ldos n =
        some (ldos.set (res.toNat * o + (floorBin l u res (solver.eigenValues n)).toNat)
          (ldos.getD (res.toNat * o + (floorBin l u res (solver.eigenValues n)).toNat) 0 +
            re (conj (solver.getAmplitude n index) * solver.getAmplitude n index)))) ∧
    (¬ (l < solver.eigenValues n ∧ solver.eigenValues n < u) →
      calculateLDOSStep solver re conj u l res ((u - l) / (res : R)) index (o : Int) ldos n =
        some ldos) := by
  constructor
  · rintro ⟨h1, h2⟩
    obtain ⟨hx0, hb0, hb1⟩ := floorBin_range l u res hlu hres _ (le_of_lt h1) h2
    refine ⟨hb0, hb1, ?_⟩
    unfold calculateLDOSStep
    have hg : solver.eigenValues n > l ∧ solver.eigenValues n < u := ⟨h1, h2⟩
    rw [if_pos hg]
    simp only
    rw [truncToInt_of_nonneg _ hx0]
    have hb : ⌊(solver.eigenValues n - l) / ((u - l) / (res : R))⌋ =
        floorBin l u res (solver.eigenValues n) := rfl
    rw [hb, if_neg (by omega)]
    have hcast : res * (o : Int) + floorBin l u res (solver.eigenValues n) =
        ((res.toNat * o + (floorBin l u res (solver.eigenValues n)).toNat : Nat) : Int) := by
      push_cast
      rw [Int.toNat_of_nonneg hb0, Int.toNat_of_nonneg (le_of_lt hres)]
    have hlt : res.toNat * o + (floorBin l u res (solver.eigenValues n)).toNat < ldos.length := by
      have : (floorBin l u res (solver.eigenValues n)).toNat < res.toNat := by omega
      omega
    rw [hcast]
    exact addAt_eq ldos _ hlt _
  · intro h
    unfold calculateLDOSStep
    have hg : ¬ (solver.eigenValues n > l ∧ solver.eigenValues n < u) := h
    rw [if_neg hg]

/-! ## Theorems: binning -/

/-- C14. For `lowerBound < upperBound` and `resolution > 0`, with exact
arithmetic: an eigenvalue `ev` with `lowerBound <= ev < upperBound` makes the
loop of `calculateDOS` add exactly 1 to the bin
`floor((ev - lowerBound) / ((upperBound - lowerBound) / resolution))`, which
lies in `[0, resolution)`, and leave every other bin as it is; and when all
eigenvalues are in that interval `calculateDOS`, which starts from a zero-filled
histogram, returns the histogram whose bin `k` holds the number of eigenvalues
with bin index `k`. -/
theorem calculateDOS_histogram {R V : Type} [LinearOrderedField R] [FloorRing R]
    (solver : Solver R V) (l u : R) (res : Int) (hlu : l < u) (hres : 0 < res) :
    (∀ (data : List R) (ev : R), data.length = res.toNat → l ≤ ev → ev < u →
      0 ≤ floorBin l u res ev ∧ floorBin l u res ev < res ∧
      calculateDOSStep l u res data ev =
        some (data.set (floorBin l u res ev).toNat
          (data.getD (floorBin l u res ev).toNat 0 + 1))) ∧
    ((∀ n, n < solver.basisSize.toNat →
        l ≤ solver.eigenValues n ∧ solver.eigenValues n < u) →
      ∃ dos : DOS R, calculateDOS solver l u res = some dos ∧
        dos.data.length = res.toNat ∧
        ∀ k : Nat, k < res.toNat →
          dos.data.getD k 0 =
            ((binCount (fun n => floorBin l u res (solver.eigenValues n))
              solver.basisSize.toNat (k : Int) : Nat) : R)) := by
  constructor
  · intro data ev hlen hle hlt
    obtain ⟨_, hb0, hb1⟩ := floorBin_range l u res hlu hres ev hle hlt
    exact ⟨hb0, hb1, calculateDOSStep_inside l u res hlu hres data ev hlen hle hlt⟩
  · intro hin
    obtain ⟨d, hd, hlen, hval⟩ := histogram_counts
      (fun (data : List R) (n : Nat) => calculateDOSStep l u res data (solver.eigenValues n))
      (fun n => floorBin l u res (solver.eigenValues n)) res.toNat solver.basisSize.toNat
      (fun n hn => by
        obtain ⟨hle, hlt⟩ := hin n hn
        obtain ⟨_, hb0, hb1⟩ := floorBin_range l u res hlu hres _ hle hlt
        have hcast : ((res.toNat : Nat) : Int) = res := Int.toNat_of_nonneg (le_of_lt hres)
        refine ⟨hb0, ?_, fun d hdl => ?_⟩
        · rw [hcast]; exact hb1
        · exact calculateDOSStep_inside l u res hlu hres d _ hdl hle hlt)
    refine ⟨{ lowerBound := l, upperBound := u, resolution := res, data := d }, ?_, hlen, hval⟩
    unfold calculateDOS DOS.new
    simp only
    rw [hd]
    rfl

/-- C14, scenario of the spec: the eigenvalues `-2, -1, 0, 1` with
`lowerBound = -2`, `upperBound = 2`, `resolution = 4` give the histogram
`[1, 1, 1, 1]`. -/
theorem calculateDOS_histogram_scenario :
    (-2 : ℚ) < 2 ∧ (0 : Int) < 4 ∧
    (calculateDOS dosScenarioSolver (-2) 2 4).map DOS.data = some [1, 1, 1, 1] ∧
    ((∀ (data : List ℚ) (ev : ℚ), data.length = (4 : Int).toNat → -2 ≤ ev → ev < 2 →
      0 ≤ floorBin (-2) 2 4 ev ∧ floorBin (-2) 2 4 ev < 4 ∧
      calculateDOSStep (-2) 2 4 data ev =
        some (data.set (floorBin (-2) 2 4 ev).toNat
          (data.getD (floorBin (-2) 2 4 ev).toNat 0 + 1))) ∧
    ((∀ n, n < dosScenarioSolver.basisSize.toNat →
        -2 ≤ dosScenarioSolver.eigenValues n ∧ dosScenarioSolver.eigenValues n < 2) →
      ∃ dos : DOS ℚ, calculateDOS dosScenarioSolver (-2) 2 4 = some dos ∧
        dos.data.length = (4 : Int).toNat ∧
        ∀ k : Nat, k < (4 : Int).toNat →
          dos.data.getD k 0 =
            ((binCount (fun n => floorBin (-2) 2 4 (dosScenarioSolver.eigenValues n))
              dosScenarioSolver.basisSize.toNat (k : Int) : Nat) : ℚ))) :=
  ⟨by norm_num, by decide,
    by
      norm_num [calculateDOS, DOS.new, dosScenarioSolver, List.range_succ, calculateDOSStep,
        truncToInt, addAt, Int.toNat]
      rfl,
    calculateDOS_histogram dosScenarioSolver (-2) 2 4 (by norm_num) (by decide)⟩

/-- C15 fails in `calculateDOS`: with `lowerBound = 0`, `upperBound = 4` and
`resolution = 4` the single eigenvalue `-1/2`, which is below `lowerBound` and
so outside `[lowerBound, upperBound)`, is counted in bin 0: the histogram is
`[1, 0, 0, 0]` and its bins sum to 1, while no eigenvalue is inside the interval. -/
theorem calculateDOS_counts_below_lowerBound :
    (calculateDOS (singleSolver (-1 / 2)) 0 4 4).map DOS.data = some [1, 0, 0, 0] ∧
    ¬ ((0 : ℚ) ≤ (singleSolver (-1 / 2)).eigenValues 0 ∧
       (singleSolver (-1 / 2)).eigenValues 0 < 4) := by
  constructor
  · have h := calculateDOSStep_just_below (0 : ℚ) 4 4 (by norm_num) (by decide)
      (List.replicate 4 0) (-1 / 2) rfl (by norm_num) (by norm_num)
    unfold calculateDOS DOS.new singleSolver
    simp only [List.range_succ, List.range_zero, List.nil_append, List.foldlM_cons,
      List.foldlM_nil, Int.toNat_ofNat]
    have h1 : (1 : Int).toNat = 1 := rfl
    have h4 : (4 : Int).toNat = 4 := rfl
    rw [h1, h4]
    simp only [List.range_succ, List.range_zero, List.nil_append, List.foldlM_cons,
      List.foldlM_nil]
    rw [h]
    norm_num
    rfl
  · unfold singleSolver
    norm_num

/-- C16 as stated fails. In `calculateLDOSCallback` with `lowerBound = 0`,
`upperBound = 1`, `resolution = 1` an eigenvalue exactly equal to `lowerBound`
lies in `[lowerBound, upperBound)` and has `|amplitude|^2 = 1`, yet the callback
leaves the one-bin buffer `[0]` unchanged instead of adding 1 to bin 0. -/
theorem calculateLDOSCallback_lowerBound_counterexample :
    calculateLDOSCallback (singleSolver 0) id id 1 0 1 [0] [] 0 = some [0] ∧
    ((0 : ℚ) ≤ (singleSolver 0).eigenValues 0 ∧ (singleSolver 0).eigenValues 0 < 1) ∧
    id (id ((singleSolver 0).getAmplitude 0 []) * (singleSolver 0).getAmplitude 0 []) = (1 : ℚ) := by
  refine ⟨?_, ?_, ?_⟩
  · have h := (calculateLDOSStep_eq (singleSolver 0) id id (0 : ℚ) 1 1 (by norm_num) (by decide)
      [] 0 [0] (by decide) 0).2 (by simp [singleSolver])
    unfold calculateLDOSCallback
    have h1 : (singleSolver 0).basisSize.toNat = 1 := rfl
    rw [h1]
    simp only [List.range_succ, List.range_zero, List.nil_append, List.foldlM_cons,
      List.foldlM_nil]
    simp only [Nat.cast_zero, Int.cast_one] at h ⊢
    rw [h]
    rfl
  · simp [singleSolver]
  · simp [singleSolver]

/-- C16 as amended. For `lowerBound < upperBound`, `resolution > 0` and a buffer
that holds the cell of the concrete index (offset `o`), the iteration of
`calculateLDOSCallback` for eigenstate `n` adds `real(conj(u)*u)`, the squared
modulus of the amplitude, into a histogram bin of that cell (a cell
`resolution*o + bin` with `0 <= bin < resolution`) if and only if the
eigenvalue lies in the open interval `(lowerBound, upperBound)`. An eigenvalue
equal to `lowerBound` or to `upperBound` leaves the buffer unchanged. The
callback is the sequence of these iterations over all eigenstates. -/
theorem calculateLDOSCallback_open_interval {R V : Type} [LinearOrderedField R] [FloorRing R]
    [Mul V] (solver : Solver R V) (re : V → R) (conj : V → V) (l u : R) (res : Int)
    (hlu : l < u) (hres : 0 < res) (index : Index) (o : Nat) (ldos : List R)
    (hbuf : res.toNat * o + res.toNat ≤ ldos.length) :
    calculateLDOSCallback solver re conj u l res ldos index (o : Int) =
      (List.range solver.basisSize.toNat).foldlM
        (calculateLDOSStep solver re conj u l res ((u - l) / (res : R)) index (o : Int)) ldos ∧
    ∀ n : Nat,
      (l < solver.eigenValues n ∧ solver.eigenValues n < u →
        ∃ bin : Nat, bin < res.toNat ∧
          calculateLDOSStep solver re conj u l res ((u - l) / (res : R)) index (o : Int) ldos n =
            some (ldos.set (res.toNat * o + bin)
              (ldos.getD (res.toNat * o + bin) 0 +
                re (conj (solver.getAmplitude n index) * solver.getAmplitude n index)))) ∧
      (¬ (l < solver.eigenValues n ∧ solver.eigenValues n < u) →
        calculateLDOSStep solver re conj u l res ((u - l) / (res : R)) index (o : Int) ldos n =
          some ldos) ∧
      (solver.eigenValues n = l ∨ solver.eigenValues n = u →
        calculateLDOSStep solver re conj u l res ((u - l) / (res : R)) index (o : Int) ldos n =
          some ldos) := by
  refine ⟨rfl, fun n => ?_⟩
  obtain ⟨h1, h2⟩ := calculateLDOSStep_eq solver re conj l u res hlu hres index o ldos hbuf n
  refine ⟨fun h => ?_, h2, fun h => h2 ?_⟩
  · obtain ⟨hb0, hb1, hstep⟩ := h1 h
    exact ⟨(floorBin l u res (solver.eigenValues n)).toNat, by omega, hstep⟩
  · rintro ⟨h3, h4⟩
    rcases h with h | h
    · rw [h] at h3; exact lt_irrefl _ h3
    · rw [h] at h4; exact lt_irrefl _ h4

/-- C16 as amended, at `lowerBound = 0`, `upperBound = 1`, `resolution = 2`: the
eigenvalue `1/2` adds the squared modulus 1 into a bin of the cell. -/
theorem calculateLDOSCallback_open_interval_witness :
    (0 : ℚ) < 1 ∧ (0 : Int) < 2 ∧
    (2 : Int).toNat * 0 + (2 : Int).toNat ≤ ([0, 0] : List ℚ).length ∧
    calculateLDOSCallback (singleSolver (1 / 2)) id id 1 0 2 [0, 0] [] 0 = some [0, 1] ∧
    (calculateLDOSCallback (singleSolver (1 / 2)) id id 1 0 2 [0, 0] [] ((0 : Nat) : Int) =
      (List.range (singleSolver (1 / 2)).basisSize.toNat).foldlM
        (calculateLDOSStep (singleSolver (1 / 2)) id id 1 0 2 ((1 - 0) / ((2 : Int) : ℚ)) [] ((0 : Nat) : Int)) [0, 0] ∧
    ∀ n : Nat,
      (0 < (singleSolver (1 / 2)).eigenValues n ∧ (singleSolver (1 / 2)).eigenValues n < 1 →
        ∃ bin : Nat, bin < (2 : Int).toNat ∧
          calculateLDOSStep (singleSolver (1 / 2)) id id 1 0 2 ((1 - 0) / ((2 : Int) : ℚ)) [] ((0 : Nat) : Int) [0, 0] n =
            some (([0, 0] : List ℚ).set ((2 : Int).toNat * 0 + bin)
              (([0, 0] : List ℚ).getD ((2 : Int).toNat * 0 + bin) 0 +
                id (id ((singleSolver (1 / 2)).getAmplitude n []) * (singleSolver (1 / 2)).getAmplitude n [])))) ∧
      (¬ (0 < (singleSolver (1 / 2)).eigenValues n ∧ (singleSolver (1 / 2)).eigenValues n < 1) →
        calculateLDOSStep (singleSolver (1 / 2)) id id 1 0 2 ((1 - 0) / ((2 : Int) : ℚ)) [] ((0 : Nat) : Int) [0, 0] n =
          some [0, 0]) ∧
      ((singleSolver (1 / 2)).eigenValues n = 0 ∨ (singleSolver (1 / 2)).eigenValues n = 1 →
        calculateLDOSStep (singleSolver (1 / 2)) id id 1 0 2 ((1 - 0) / ((2 : Int) : ℚ)) [] ((0 : Nat) : Int) [0, 0] n =
          some [0, 0])) :=
  ⟨by norm_num, by decide, by decide,
    by
      norm_num [calculateLDOSCallback, calculateLDOSStep, singleSolver, List.range_succ,
        truncToInt, addAt, Int.toNat],
    calculateLDOSCallback_open_interval (singleSolver (1 / 2)) id id 0 1 2 (by norm_num)
      (by decide) [] 0 [0, 0] (by decide)⟩

/-! ## Lemmas and theorems: the Magnetization callback -/

/-- An update inside the buffer adds the term to its cell and changes no other cell. -/
theorem addAt_cell {V : Type} [AddMonoid V] (d : List V) (i : Nat) (t : V) (h : i < d.length) :
    ∃ e : List V, addAt d (i : Int) t = some e ∧ e.length = d.length ∧
      e.getD i 0 = d.getD i 0 + t ∧ ∀ k, k ≠ i → e.getD k 0 = d.getD k 0 := by
  refine ⟨_, addAt_eq d i h t, by simp, getD_set_self_gen d i _ 0 h, fun k hk => ?_⟩
  exact getD_set_ne_gen d i k _ 0 (fun e => hk e.symm)

/-- One iteration of the Magnetization callback adds the four contributions of
eigenstate `n` to the four components of the cell of `offset`. -/
theorem calculateMAGStep_cells {R V : Type} [CommSemiring V] (solver : Solver R V)
    (conj : V → V) (ofReal : R → V) (spin : Nat) (index : Index) (o : Nat) (mag : List V)
    (h : 4 * o + 3 < mag.length) (n : Nat) :
    ∃ e : List V,
      calculateMAGStep solver conj ofReal (index.set spin 0) (index.set spin 1) (o : Int) mag n =
        some e ∧
      e.length = mag.length ∧
      (∀ j, j < 4 →
        e.getD (4 * o + j) 0 = mag.getD (4 * o + j) 0 + magTerm solver conj ofReal spin index j n) ∧
      ∀ k, (k < 4 * o ∨ 4 * o + 4 ≤ k) → e.getD k 0 = mag.getD k 0 := by
  obtain ⟨e0, h0, l0, v0, o0⟩ := addAt_cell mag (4 * o)
    (conj (solver.getAmplitude n (index.set spin 0)) * solver.getAmplitude n (index.set spin 0) *
      ofReal (solver.weight n)) (by omega)
  obtain ⟨e1, h1, l1, v1, o1⟩ := addAt_cell e0 (4 * o + 1)
    (conj (solver.getAmplitude n (index.set spin 0)) * solver.getAmplitude n (index.set spin 1) *
      ofReal (solver.weight n)) (by omega)
  obtain ⟨e2, h2, l2, v2, o2⟩ := addAt_cell e1 (4 * o + 2)
    (conj (solver.getAmplitude n (index.set spin 1)) * solver.getAmplitude n (index.set spin 0) *
      ofReal (solver.weight n)) (by omega)
  obtain ⟨e3, h3, l3, v3, o3⟩ := addAt_cell e2 (4 * o + 3)
    (conj (solver.getAmplitude n (index.set spin 1)) * solver.getAmplitude n (index.set spin 1) *
      ofReal (solver.weight n)) (by omega)
  have c0 : (4 * (o : Int) + 0) = ((4 * o : Nat) : Int) := by push_cast; ring
  have c1 : (4 * (o : Int) + 1) = ((4 * o + 1 : Nat) : Int) := by push_cast; ring
  have c2 : (4 * (o : Int) + 2) = ((4 * o + 2 : Nat) : Int) := by push_cast; ring
  have c3 : (4 * (o : Int) + 3) = ((4 * o + 3 : Nat) : Int) := by push_cast; ring
  refine ⟨e3, ?_, by omega, ?_, ?_⟩
  · unfold calculateMAGStep
    simp only
    rw [c0, c1, c2, c3, h0, Option.some_bind, h1, Option.some_bind, h2, Option.some_bind, h3]
  · intro j hj
    interval_cases j
    · rw [o3 _ (by omega), o2 _ (by omega), o1 _ (by omega), Nat.add_zero, v0]
      simp only [magTerm]
      ring
    · rw [o3 _ (by omega), o2 _ (by omega), v1, o0 _ (by omega)]
      simp only [magTerm]
      ring
    · rw [o3 _ (by omega), v2, o1 _ (by omega), o0 _ (by omega)]
      simp only [magTerm]
      ring
    · rw [v3, o2 _ (by omega), o1 _ (by omega), o0 _ (by omega)]
      simp only [magTerm]
      ring
  · intro k hk
    rw [o3 _ (by omega), o2 _ (by omega), o1 _ (by omega), o0 _ (by omega)]

/-- The Magnetization callback adds, for each component of the cell of `offset`,
the sum over all eigenstates of the contribution to that component, and changes
no other cell. -/
theorem calculateMAGCallback_cells {R V : Type} [CommSemiring V] (solver : Solver R V)
    (conj : V → V) (ofReal : R → V) (spin : Nat) (index : Index) (o : Nat) (mag : List V)
    (hs : spin < index.length) (h : 4 * o + 3 < mag.length) :
    ∃ e : List V,
      calculateMAGCallback solver conj ofReal (spin : Int) mag index (o : Int) = some e ∧
      e.length = mag.length ∧
      (∀ j, j < 4 →
        e.getD (4 * o + j) 0 = mag.getD (4 * o + j) 0 +
          ((List.range solver.basisSize.toNat).map
            (magTerm solver conj ofReal spin index j)).sum) ∧
      ∀ k, (k < 4 * o ∨ 4 * o + 4 ≤ k) → e.getD k 0 = mag.getD k 0 := by
  unfold calculateMAGCallback
  have hg : (0 : Int) ≤ (spin : Int) ∧ (spin : Int) < (index.length : Int) := by
    constructor <;> omega
  rw [if_pos hg]
  simp only [Int.toNat_ofNat]
  generalize solver.basisSize.toNat = m
  induction m with
  | zero =>
    exact ⟨mag, rfl, rfl, fun j _ => by simp, fun k _ => rfl⟩
  | succ m ih =>
    obtain ⟨e, he, hl, hv, ho⟩ := ih
    obtain ⟨e1, he1, hl1, hv1, ho1⟩ := calculateMAGStep_cells solver conj ofReal spin index o e
      (by omega) m
    refine ⟨e1, ?_, by omega, ?_, ?_⟩
    · rw [List.range_succ, List.foldlM_append, he]
      simp only [Option.some_bind, Option.bind_eq_bind, List.foldlM_cons, List.foldlM_nil]
      rw [he1]
      rfl
    · intro j hj
      rw [hv1 j hj, hv j hj, List.range_succ, List.map_append, List.sum_append, List.map_cons,
        List.map_nil, List.sum_singleton, add_assoc]
    · intro k hk
      rw [ho1 k hk, ho k hk]

/-- C17. For a concrete index passed with offset `o` (the spin position inside
the index, the four cells `4*o+0 .. 4*o+3` inside the buffer), the
Magnetization callback returns normally and adds to the cells
`4*o+0, 4*o+1, 4*o+2, 4*o+3` the sums over all eigenstates `n` of
`w_n*conj(u_up)*u_up`, `w_n*conj(u_up)*u_down`, `w_n*conj(u_down)*u_up` and
`w_n*conj(u_down)*u_down` in that order, where `u_up` and `u_down` are the
amplitudes of eigenstate `n` at the index with the SPIN position set to 0 and
to 1 and `w_n` is the occupation weight; no other cell is changed. -/
theorem calculateMAGCallback_contributions {R V : Type} [CommSemiring V] (solver : Solver R V)
    (conj : V → V) (ofReal : R → V) (spin : Nat) (index : Index) (o : Nat) (mag : List V)
    (hs : spin < index.length) (h : 4 * o + 3 < mag.length) :
    ∃ e : List V,
      calculateMAGCallback solver conj ofReal (spin : Int) mag index (o : Int) = some e ∧
      e.length = mag.length ∧
      (∀ j, j < 4 →
        e.getD (4 * o + j) 0 = mag.getD (4 * o + j) 0 +
          ((List.range solver.basisSize.toNat).map
            (magTerm solver conj ofReal spin index j)).sum) ∧
      ∀ k, (k < 4 * o ∨ 4 * o + 4 ≤ k) → e.getD k 0 = mag.getD k 0 :=
  calculateMAGCallback_cells solver conj ofReal spin index o mag hs h

/-- C17 on a solver with two eigenstates of weights 2 and 3 and amplitudes
`u_up = 1`, `u_down = 2`: the cell of offset 1 receives `5, 10, 10, 20`. -/
theorem calculateMAGCallback_contributions_witness :
    (0 : Nat) < ([7, 5] : Index).length ∧ 4 * 1 + 3 < (List.replicate 8 (0 : Int)).length ∧
    calculateMAGCallback spinSolver id id 0 (List.replicate 8 0) [7, 5] 1 =
      some [0, 0, 0, 0, 5, 10, 10, 20] ∧
    ∃ e : List Int,
      calculateMAGCallback spinSolver id id ((0 : Nat) : Int) (List.replicate 8 0) [7, 5]
        ((1 : Nat) : Int) = some e ∧
      e.length = (List.replicate 8 (0 : Int)).length ∧
      (∀ j, j < 4 →
        e.getD (4 * 1 + j) 0 = (List.replicate 8 (0 : Int)).getD (4 * 1 + j) 0 +
          ((List.range spinSolver.basisSize.toNat).map
            (magTerm spinSolver id id 0 [7, 5] j)).sum) ∧
      ∀ k, (k < 4 * 1 ∨ 4 * 1 + 4 ≤ k) →
        e.getD k 0 = (List.replicate 8 (0 : Int)).getD k 0 :=
  ⟨by decide, by decide, by decide,
    calculateMAGCallback_contributions spinSolver id id 0 [7, 5] 1 (List.replicate 8 0)
      (by decide) (by decide)⟩

/-! ## Lemmas and theorems: the quantities that need a SPIN position -/

/-- The search finds no spin position exactly when no entry is `IDX_SPIN`. -/
theorem findSpin_eq_neg_one_iff (SPIN : Int) (pattern : Index) :
    ∀ n : Nat, findSpin SPIN pattern n = -1 ↔ SPIN ∉ pattern := by
  induction pattern with
  | nil => intro n; simp [findSpin]
  | cons p rest ih =>
    intro n
    unfold findSpin
    by_cases h : p = SPIN
    · have hb : (p == SPIN) = true := by simpa using h
      rw [if_pos hb]
      constructor
      · intro h1; omega
      · intro h1; exact absurd (by rw [h]; exact List.mem_cons_self _ _) h1
    · have hb : ¬ ((p == SPIN) = true) := by simpa using h
      rw [if_neg hb, ih (n + 1)]
      constructor
      · intro h1 h2
        rcases List.mem_cons.mp h2 with h3 | h3
        · exact h h3.symm
        · exact h1 h3
      · intro h1 h2
        exact h1 (List.mem_cons_of_mem _ h2)

/-- The search returns the first position whose entry is `IDX_SPIN`. -/
theorem findSpin_first (SPIN : Int) (pattern : Index) :
    ∀ (k n : Nat), n < pattern.length → pattern.getD n 0 = SPIN →
      (∀ i, i < n → pattern.getD i 0 ≠ SPIN) →
      findSpin SPIN pattern k = ((k + n : Nat) : Int) := by
  induction pattern with
  | nil => intro k n hn; simp at hn
  | cons p rest ih =>
    intro k n hn hp hfirst
    unfold findSpin
    cases n with
    | zero =>
      have hb : (p == SPIN) = true := by simpa using hp
      rw [if_pos hb]
      rfl
    | succ n =>
      have h0 : p ≠ SPIN := by simpa using hfirst 0 (by omega)
      have hb : ¬ ((p == SPIN) = true) := by simpa using h0
      rw [if_neg hb, ih (k + 1) n (by simpa using hn) (by simpa using hp)
        (fun i hi => by simpa using hfirst (i + 1) (by omega))]
      congr 1
      omega

/-- Folding a recording callback is folding the callback and appending the calls
to the record. -/
theorem foldlM_recording {M : Type} (callback : M → Index → Int → Option M)
    (calls : List (Index × Int)) :
    ∀ (m : M) (log : List (Index × Int)),
      calls.foldlM (fun st c => recording callback st c.1 c.2) (m, log) =
        (calls.foldlM (fun m c => callback m c.1 c.2) m).map fun e => (e, log ++ calls) := by
  induction calls with
  | nil => intro m log; simp
  | cons c rest ih =>
    intro m log
    rw [List.foldlM_cons, List.foldlM_cons]
    unfold recording
    cases hcb : callback m c.1 c.2 with
    | none => rfl
    | some m1 =>
      simp only [Option.map_some', Option.some_bind, Option.bind_eq_bind]
      have h := ih m1 (log ++ [(c.1, c.2)])
      unfold recording at h
      rw [h]
      simp

/-- C13. `calculateMagnetization` and `calculateSpinPolarizedLDOS` return the
null result if and only if no position of the pattern equals `IDX_SPIN`; in
that case they return normally, no output tensor is allocated and the quantity
callback is never invoked. -/
theorem spin_marker_required {R V : Type} [LinearOrderedField R] [FloorRing R] [Add V] [Mul V]
    [Zero V] (S SPIN : Int) (solver : Solver R V) (conj : V → V) (ofReal : R → V)
    (pattern ranges : Index) (lowerBound upperBound : R) (resolution : Int) :
    ((∃ run, calculateMagnetization S SPIN solver conj ofReal pattern ranges = some run ∧
        run.result = none) ↔ SPIN ∉ pattern) ∧
    (SPIN ∉ pattern →
      calculateMagnetization S SPIN solver conj ofReal pattern ranges =
        some { result := none, allocated := false, calls := [] }) ∧
    ((∃ run, calculateSpinPolarizedLDOS S SPIN solver conj pattern ranges lowerBound upperBound
          resolution = some run ∧ run.result = none) ↔ SPIN ∉ pattern) ∧
    (SPIN ∉ pattern →
      calculateSpinPolarizedLDOS S SPIN solver conj pattern ranges lowerBound upperBound
        resolution = some { result := none, allocated := false, calls := [] }) := by
  have hM : SPIN ∉ pattern →
      calculateMagnetization S SPIN solver conj ofReal pattern ranges =
        some { result := none, allocated := false, calls := [] } := by
    intro h
    unfold calculateMagnetization
    simp only
    rw [if_pos ((findSpin_eq_neg_one_iff SPIN pattern 0).mpr h)]
  have hL : SPIN ∉ pattern →
      calculateSpinPolarizedLDOS S SPIN solver conj pattern ranges lowerBound upperBound
        resolution = some { result := none, allocated := false, calls := [] } := by
    intro h
    unfold calculateSpinPolarizedLDOS
    simp only
    rw [if_pos ((findSpin_eq_neg_one_iff SPIN pattern 0).mpr h)]
  refine ⟨⟨?_, fun h => ⟨_, hM h, rfl⟩⟩, hM, ⟨?_, fun h => ⟨_, hL h, rfl⟩⟩, hL⟩
  · rintro ⟨run, hrun, hnull⟩ hmem
    have hs : ¬ findSpin SPIN pattern 0 = -1 :=
      fun h => (findSpin_eq_neg_one_iff SPIN pattern 0).mp h hmem
    unfold calculateMagnetization at hrun
    simp only at hrun
    rw [if_neg hs] at hrun
    split at hrun
    · simp only [Option.bind_eq_some, Option.map_eq_some'] at hrun
      obtain ⟨_, _, _, _, _, _, _, _, rfl⟩ := hrun
      exact Option.noConfusion hnull
    · exact Option.noConfusion hrun
  · rintro ⟨run, hrun, hnull⟩ hmem
    have hs : ¬ findSpin SPIN pattern 0 = -1 :=
      fun h => (findSpin_eq_neg_one_iff SPIN pattern 0).mp h hmem
    unfold calculateSpinPolarizedLDOS at hrun
    simp only at hrun
    rw [if_neg hs] at hrun
    split at hrun
    · simp only [Option.bind_eq_some, Option.map_eq_some'] at hrun
      obtain ⟨_, _, _, _, _, _, _, _, rfl⟩ := hrun
      exact Option.noConfusion hnull
    · exact Option.noConfusion hrun

theorem wrapInt_of_fits (x : Int) (h1 : -2147483648 ≤ x) (h2 : x < 2147483648) :
    wrapInt x = x := by
  unfold wrapInt
  omega

/-- Wrapping is compatible with multiplication. -/
theorem wrapInt_mul_wrapInt (a r : Int) : wrapInt (wrapInt a * r) = wrapInt (a * r) := by
  unfold wrapInt
  have h : ((a + 2147483648) % 4294967296 - 2147483648) * r + 2147483648 =
      (a * r + 2147483648) + 4294967296 * (-((a + 2147483648) / 4294967296) * r) := by
    rw [Int.emod_def]; ring
  rw [h, Int.add_mul_emod_self_left]

/-- The loop `size *= ranges[n]` leaves the wrapped product in `size`. -/
theorem foldl_wrapInt (rs : List Int) :
    ∀ a : Int, rs.foldl (fun size r => wrapInt (size * r)) (wrapInt a) =
      wrapInt (a * rs.prod) := by
  induction rs with
  | nil => intro a; simp
  | cons r rs ih =>
    intro a
    rw [List.foldl_cons, wrapInt_mul_wrapInt, ih, List.prod_cons, mul_assoc]

/-- The constructor of `Magnetization` on a fully written shape array. -/
theorem magnetization_new_eq {V : Type} [Zero V] (shape : List Int) :
    (Magnetization.new (shape.length : Int) (shape.map some) : Option (Magnetization V)) =
      if 0 ≤ wrapInt (4 * shape.prod) then
        some { dimensions := (shape.length : Int), ranges := shape,
               size := wrapInt (4 * shape.prod),
               data := List.replicate (wrapInt (4 * shape.prod)).toNat 0 }
      else none := by
  unfold Magnetization.new
  have h1 : (0 : Int) ≤ (shape.length : Int) ∧
      (shape.length : Int).toNat ≤ (shape.map some).length := by simp
  have h2 : (shape.map some).take (shape.length : Int).toNat = shape.map some := by
    apply List.take_of_length_le
    simp
  have h4 : (4 : Int) = wrapInt 4 := by decide
  rw [if_pos h1, h2, readArray_map_some, Option.some_bind]
  simp only
  rw [h4, foldl_wrapInt, ← h4]

/-- Two selections from zipped lists agree when the tests agree position by
position and the selected values agree. -/
theorem zip_filter_congr (f g : Int × Int → Bool) :
    ∀ (p q a b : Index), p.length = q.length → p.length = a.length → p.length = b.length →
      (∀ i, i < p.length → f (p.getD i 0, a.getD i 0) = g (q.getD i 0, b.getD i 0) ∧
        (f (p.getD i 0, a.getD i 0) = true → a.getD i 0 = b.getD i 0)) →
      ((p.zip a).filter f).map Prod.snd = ((q.zip b).filter g).map Prod.snd := by
  intro p
  induction p with
  | nil =>
    intro q a b hq _ _ _
    cases q with
    | nil => simp
    | cons y ys => simp at hq
  | cons x xs ih =>
    intro q a b hq ha hb h
    cases q with
    | nil => simp at hq
    | cons y ys =>
      cases a with
      | nil => simp at ha
      | cons u us =>
        cases b with
        | nil => simp at hb
        | cons v vs =>
          have h0 := h 0 (by simp)
          simp only [List.getD_cons_zero] at h0
          have ht := ih ys us vs (by simpa using hq) (by simpa using ha) (by simpa using hb)
            (fun i hi => by
              have := h (i + 1) (by simpa using hi)
              simpa using this)
          simp only [List.zip_cons_cons, List.filter_cons]
          by_cases hf : f (x, u) = true
          · have hg : g (y, v) = true := by rw [← h0.1]; exact hf
            rw [if_pos hf, if_pos hg, List.map_cons, List.map_cons, ht, h0.2 hf]
          · have hg : ¬ g (y, v) = true := by rw [← h0.1]; exact hf
            rw [if_neg hf, if_neg hg, ht]

/-- Folding the Magnetization callback over calls whose cells are inside the
buffer returns normally. -/
theorem mag_fold_some {R V : Type} [CommSemiring V] (solver : Solver R V) (conj : V → V)
    (ofReal : R → V) (spin : Nat) (calls : List (Index × Int)) :
    ∀ d : List V,
      (∀ c ∈ calls, spin < c.1.length ∧ 0 ≤ c.2 ∧ 4 * c.2 + 3 < (d.length : Int)) →
      ∃ e : List V,
        calls.foldlM (fun m c => calculateMAGCallback solver conj ofReal (spin : Int) m c.1 c.2)
          d = some e ∧ e.length = d.length := by
  induction calls with
  | nil => intro d _; exact ⟨d, rfl, rfl⟩
  | cons c rest ih =>
    intro d hb
    obtain ⟨h1, h2, h3⟩ := hb c (by simp)
    have ho : ((c.2.toNat : Nat) : Int) = c.2 := Int.toNat_of_nonneg h2
    obtain ⟨e1, he1, hl1, _, _⟩ := calculateMAGCallback_cells solver conj ofReal spin c.1
      c.2.toNat d h1 (by omega)
    rw [ho] at he1
    obtain ⟨e, he, hl⟩ := ih e1 (fun x hx => by
      have := hb x (List.mem_cons_of_mem _ hx)
      rw [hl1]
      exact this)
    refine ⟨e, ?_, by omega⟩
    rw [List.foldlM_cons, he1]
    exact he

/-- Closed form of `calculateMagnetization` on a pattern whose only `IDX_SPIN`
entry is at position `n` and whose other negative entries are `IDX_SUM_ALL` or
free, when 4 times the product of the extents is representable as an `int`. -/
theorem calculateMagnetization_eq {R V : Type} [CommSemiring V] (S SPIN : Int) (hS : S < 0)
    (solver : Solver R V) (conj : V → V) (ofReal : R → V) (pattern ranges : Index) (n : Nat)
    (hlen : ranges.length = pattern.length) (hn : n < pattern.length)
    (hspin : pattern.getD n 0 = SPIN)
    (honly : ∀ i, i < pattern.length → i ≠ n → pattern.getD i 0 ≠ SPIN)
    (hadm : ∀ i, i < pattern.length → i ≠ n → pattern.getD i 0 < 0 →
      pattern.getD i 0 = S ∨ pattern.getD i 0 < S)
    (hfit : -2147483648 ≤ 4 * (freeNonSpinEntries S SPIN pattern ranges).prod ∧
      4 * (freeNonSpinEntries S SPIN pattern ranges).prod < 2147483648) :
    (0 ≤ (freeNonSpinEntries S SPIN pattern ranges).prod →
      ∃ (calls : List (Index × Int)) (data : List V),
        calculateMagnetization S SPIN solver conj ofReal pattern ranges =
          some { result := some
                   { dimensions := ((freeNonSpinEntries S SPIN pattern ranges).length : Int),
                     ranges := freeNonSpinEntries S SPIN pattern ranges,
                     size := 4 * (freeNonSpinEntries S SPIN pattern ranges).prod,
                     data := data },
                 allocated := true, calls := calls } ∧
        data.length = (4 * (freeNonSpinEntries S SPIN pattern ranges).prod).toNat ∧
        calls.foldlM (fun m c => calculateMAGCallback solver conj ofReal (n : Int) m c.1 c.2)
          (List.replicate (4 * (freeNonSpinEntries S SPIN pattern ranges).prod).toNat 0) =
            some data) ∧
    ((freeNonSpinEntries S SPIN pattern ranges).prod < 0 →
      calculateMagnetization S SPIN solver conj ofReal pattern ranges = none) := by
  have hfs : findSpin SPIN pattern 0 = (n : Int) := by
    rw [findSpin_first SPIN pattern 0 n hn hspin (fun i hi => honly i (by omega) (by omega))]
    simp
  have hne : ¬ ((n : Int) = -1) := by omega
  have hnr : n < ranges.length := by omega
  have hPl : (pattern.set n 0).length = pattern.length := by simp
  have hRl : (ranges.set n 1).length = ranges.length := by simp
  obtain ⟨r1, he, hl1, _, hkeep⟩ := ensureCompliantRanges_eq (pattern.set n 0) (ranges.set n 1)
    (by omega)
  have hr1 : (pattern.set n 0).length = r1.length := by omega
  have hadmP : Admissible S (pattern.set n 0) := by
    intro p hp hneg
    obtain ⟨i, hi, rfl⟩ := List.mem_iff_getElem.mp hp
    rw [← List.getD_eq_getElem _ 0 hi] at hneg ⊢
    by_cases hin : i = n
    · subst hin
      rw [getD_set_self pattern i 0 hn] at hneg
      omega
    · rw [getD_set_ne pattern n i 0 (fun e => hin e.symm)] at hneg ⊢
      exact hadm i (by omega) hin hneg
  have hshape : freeEntries S (pattern.set n 0) r1 = freeNonSpinEntries S SPIN pattern ranges := by
    unfold freeEntries freeNonSpinEntries
    apply zip_filter_congr _ _ _ _ _ _ (by omega) (by omega) (by omega)
    intro i hi
    by_cases hin : i = n
    · subst hin
      rw [getD_set_self pattern i 0 hn, hspin]
      simp only [ne_eq, not_true_eq_false, and_false, decide_False, decide_eq_true_eq]
      have : ¬ ((0 : Int) < S) := by omega
      exact ⟨by simp [this], fun h => absurd h this⟩
    · have hp : (pattern.set n 0).getD i 0 = pattern.getD i 0 :=
        getD_set_ne pattern n i 0 (fun e => hin e.symm)
      have hns : pattern.getD i 0 ≠ SPIN := honly i (by omega) hin
      rw [hp]
      simp only [ne_eq, hns, not_false_eq_true, and_true, decide_eq_true_eq, true_and]
      intro hf
      have hk := hkeep i (by rw [hp]; omega)
      rw [hk, getD_set_ne ranges n i 1 (fun e => hin e.symm)]
  have hg := getLoopRanges_eq S (pattern.set n 0) r1 hr1
  rw [hshape] at hg
  have hsz : sizeFrom S (pattern.set n 0) r1 (pattern.set n 0).length =
      (freeNonSpinEntries S SPIN pattern ranges).prod := by
    rw [sizeFrom_eq_prod S (pattern.set n 0) r1 hr1 _ (le_refl _), List.take_length,
      take_length_of_eq r1 _ hr1.symm, hshape]
  have hoff : ∀ c ∈ expandFrom S r1 (pattern.set n 0).length (pattern.set n 0) 0 1,
      c.2 = linFrom S (pattern.set n 0) r1 c.1 (pattern.set n 0).length := by
    intro c hc
    have h1 := expandFrom_offset S hS r1 (pattern.set n 0).length (pattern.set n 0) 0 1 c hadmP hc
    rw [h1]
    ring
  have hbound : ∀ c ∈ expandFrom S r1 (pattern.set n 0).length (pattern.set n 0) 0 1,
      c.1.length = (pattern.set n 0).length ∧ 0 ≤ c.2 ∧
        c.2 < (freeNonSpinEntries S SPIN pattern ranges).prod := by
    intro c hc
    have hsh := expandFrom_mem_shape S r1 (pattern.set n 0).length (pattern.set n 0) 0 1 c hc
    have hb := linFrom_bound S (pattern.set n 0) r1 c.1 (pattern.set n 0).length
      (fun i hi hf => hsh.2.2.2 i hi (by omega))
    rw [← hoff c hc, hsz] at hb
    exact ⟨hsh.1, hb.1, hb.2⟩
  constructor
  · intro h0
    have h4 : (0 : Int) ≤ 4 * (freeNonSpinEntries S SPIN pattern ranges).prod := by omega
    obtain ⟨data, hfold, hdl⟩ := mag_fold_some solver conj ofReal n
      (expandFrom S r1 (pattern.set n 0).length (pattern.set n 0) 0 1)
      (List.replicate (4 * (freeNonSpinEntries S SPIN pattern ranges).prod).toNat 0)
      (fun c hc => by
        obtain ⟨h1, h2, h3⟩ := hbound c hc
        rw [List.length_replicate, Int.toNat_of_nonneg h4]
        exact ⟨by omega, h2, by omega⟩)
    rw [List.length_replicate] at hdl
    refine ⟨expandFrom S r1 (pattern.set n 0).length (pattern.set n 0) 0 1, data, ?_, hdl, hfold⟩
    unfold calculateMagnetization
    simp only
    rw [hfs, if_neg hne, Int.toNat_ofNat, if_pos hnr, he, Option.some_bind, hg, Option.some_bind,
      magnetization_new_eq, wrapInt_of_fits _ hfit.1 hfit.2, if_pos h4, Option.some_bind]
    simp only
    rw [calculate_eq_foldlM S _ r1 (pattern.set n 0).length (pattern.set n 0) _ 0 1 hr1
      (le_refl _) (fun i hi hlt => absurd hlt (by omega)), foldlM_recording, hfold]
    rfl
  · intro hneg
    have h4 : ¬ ((0 : Int) ≤ 4 * (freeNonSpinEntries S SPIN pattern ranges).prod) := by omega
    unfold calculateMagnetization
    simp only
    rw [hfs, if_neg hne, Int.toNat_ofNat, if_pos hnr, he, Option.some_bind, hg, Option.some_bind,
      magnetization_new_eq, wrapInt_of_fits _ hfit.1 hfit.2, if_neg h4]
    rfl

/-- The Magnetization callback on a solver with an empty basis leaves the
buffer as it is. -/
theorem calculateMAGCallback_empty {R V : Type} [Add V] [Mul V] (solver : Solver R V)
    (conj : V → V) (ofReal : R → V) (spin : Nat) (mag : List V) (index : Index) (offset : Int)
    (hb : solver.basisSize.toNat = 0) (hs : spin < index.length) :
    calculateMAGCallback solver conj ofReal (spin : Int) mag index offset = some mag := by
  unfold calculateMAGCallback
  have hg : (0 : Int) ≤ (spin : Int) ∧ (spin : Int) < (index.length : Int) := by
    constructor <;> omega
  rw [if_pos hg, hb]
  rfl

theorem mag_fold_empty {R V : Type} [Add V] [Mul V] (solver : Solver R V) (conj : V → V)
    (ofReal : R → V) (spin : Nat) (hb : solver.basisSize.toNat = 0)
    (calls : List (Index × Int)) (d : List V) (h : ∀ c ∈ calls, spin < c.1.length) :
    calls.foldlM (fun m c => calculateMAGCallback solver conj ofReal (spin : Int) m c.1 c.2) d =
      some d := by
  induction calls with
  | nil => rfl
  | cons c rest ih =>
    rw [List.foldlM_cons, calculateMAGCallback_empty solver conj ofReal spin d c.1 c.2 hb
      (h c (by simp))]
    exact ih (fun x hx => h x (List.mem_cons_of_mem _ hx))

/-- C19 as stated fails where the size leaves the range of `int`. With
`IDX_SUM_ALL = -2`, `IDX_SPIN = -6`, the pattern `[SPIN, free]` and the ranges
`[2, 1073741825]` the only extent is `1073741825`, so the claim gives
`size = 4 * 1073741825 = 4294967300`; the constructor computes `size` in an
`int`, which wraps around to `4`, and allocates 4 cells; on a solver with an
empty basis (no callback invocation writes) `calculateMagnetization` returns
that tensor of size 4. -/
theorem calculateMagnetization_size_wraps :
    freeNonSpinEntries (-2) (-6) [-6, -3] [2, 1073741825] = [1073741825] ∧
    (4 : Int) * (freeNonSpinEntries (-2) (-6) [-6, -3] [2, 1073741825]).prod = 4294967300 ∧
    (Magnetization.new 1 [some 1073741825] : Option (Magnetization Int)).map
      (fun m => (m.dimensions, m.ranges, m.size, m.data)) =
        some (1, [1073741825], 4, [0, 0, 0, 0]) ∧
    (calculateMagnetization (-2) (-6) emptySolver id id [-6, -3] [2, 1073741825]).map
      (fun run => run.result.map (fun m => (m.dimensions, m.ranges, m.size, m.data))) =
        some (some (1, [1073741825], 4, [0, 0, 0, 0])) := by
  refine ⟨by decide, by decide, by decide, ?_⟩
  have hfs : findSpin (-6) [-6, -3] 0 = 0 := by decide
  have hp : ([-6, -3] : Index).set (Int.toNat 0) 0 = [0, -3] := rfl
  have hr : ([2, 1073741825] : Index).set (Int.toNat 0) 1 = [1, 1073741825] := rfl
  have he : ensureCompliantRanges [0, -3] [1, 1073741825] = some [1, 1073741825] := by decide
  have hg : getLoopRanges (-2) [0, -3] [1, 1073741825] = some (1, [some 1073741825]) := by
    decide
  have hnew : (Magnetization.new 1 [some 1073741825] : Option (Magnetization Int)) =
      some { dimensions := 1, ranges := [1073741825], size := 4, data := [0, 0, 0, 0] } := by
    rfl
  have hfold := mag_fold_empty emptySolver id id 0 rfl
    (expandFrom (-2) [1, 1073741825] ([0, -3] : Index).length [0, -3] 0 1) [0, 0, 0, 0]
    (fun c hc => by
      have := (expandFrom_mem_shape (-2) [1, 1073741825] ([0, -3] : Index).length [0, -3] 0 1 c
        hc).1
      rw [this]
      decide)
  unfold calculateMagnetization
  simp only
  rw [hfs, if_neg (by decide), if_pos (by decide), hp, hr, he, Option.some_bind, hg,
    Option.some_bind, hnew, Option.some_bind]
  simp only
  rw [calculate_eq_foldlM (-2) _ [1, 1073741825] ([0, -3] : Index).length [0, -3] _ 0 1 rfl
    (le_refl _) (fun i hi hlt => absurd hlt (by omega)), foldlM_recording]
  simp only [Nat.cast_zero] at hfold
  rw [hfold]
  rfl

/-- C19 as amended. For a pattern whose only `IDX_SPIN` entry is at position `n`
and whose other negative entries are `IDX_SUM_ALL` or free, with `ranges` of
the same length, and when 4 times the product of the extents is representable
as an `int`: the shape of the tensor returned by `calculateMagnetization` has
one dimension per free position other than the SPIN position, in index order
with extent `ranges[p]`; the tensor holds 4 values per cell
(`size = 4 * product of the extents`, which is the length of its buffer); and
the buffer is the result of running the callback invocations on the buffer of
the freshly constructed tensor, which is entirely zero. The function returns
this tensor whenever the product of the extents is not negative; with a negative
product the constructor requests an array of negative size and the function
does not return. -/
theorem calculateMagnetization_tensor {R V : Type} [CommSemiring V] (S SPIN : Int) (hS : S < 0)
    (solver : Solver R V) (conj : V → V) (ofReal : R → V) (pattern ranges : Index) (n : Nat)
    (hlen : ranges.length = pattern.length) (hn : n < pattern.length)
    (hspin : pattern.getD n 0 = SPIN)
    (honly : ∀ i, i < pattern.length → i ≠ n → pattern.getD i 0 ≠ SPIN)
    (hadm : ∀ i, i < pattern.length → i ≠ n → pattern.getD i 0 < 0 →
      pattern.getD i 0 = S ∨ pattern.getD i 0 < S)
    (hfit : -2147483648 ≤ 4 * (freeNonSpinEntries S SPIN pattern ranges).prod ∧
      4 * (freeNonSpinEntries S SPIN pattern ranges).prod < 2147483648) :
    (freeNonSpinEntries S SPIN pattern ranges = claimedFreeEntries S SPIN pattern ranges) ∧
    (0 ≤ (freeNonSpinEntries S SPIN pattern ranges).prod →
      ∃ (run : Run (Magnetization V)) (mag zero : Magnetization V),
        calculateMagnetization S SPIN solver conj ofReal pattern ranges = some run ∧
        run.result = some mag ∧ run.allocated = true ∧
        mag.dimensions = ((freeNonSpinEntries S SPIN pattern ranges).length : Int) ∧
        mag.ranges = freeNonSpinEntries S SPIN pattern ranges ∧
        mag.size = 4 * (freeNonSpinEntries S SPIN pattern ranges).prod ∧
        mag.data.length = mag.size.toNat ∧
        Magnetization.new ((freeNonSpinEntries S SPIN pattern ranges).length : Int)
          ((freeNonSpinEntries S SPIN pattern ranges).map some) = some zero ∧
        zero.dimensions = mag.dimensions ∧ zero.ranges = mag.ranges ∧ zero.size = mag.size ∧
        zero.data.length = zero.size.toNat ∧ (∀ v ∈ zero.data, v = 0) ∧
        run.calls.foldlM
          (fun m c => calculateMAGCallback solver conj ofReal (n : Int) m c.1 c.2) zero.data =
            some mag.data) ∧
    ((freeNonSpinEntries S SPIN pattern ranges).prod < 0 →
      calculateMagnetization S SPIN solver conj ofReal pattern ranges = none) := by
  obtain ⟨hok, hfail⟩ := calculateMagnetization_eq S SPIN hS solver conj ofReal pattern ranges n
    hlen hn hspin honly hadm hfit
  refine ⟨?_, ?_, hfail⟩
  · unfold freeNonSpinEntries claimedFreeEntries
    apply zip_filter_congr _ _ _ _ _ _ rfl (by omega) (by omega)
    intro i hi
    refine ⟨?_, fun _ => rfl⟩
    by_cases hin : i = n
    · subst hin
      rw [hspin]
      simp
    · have hns : pattern.getD i 0 ≠ SPIN := honly i hi hin
      have hd : pattern.getD i 0 < S ↔
          (pattern.getD i 0 < 0 ∧ pattern.getD i 0 ≠ S) := by
        constructor
        · intro h; constructor <;> omega
        · rintro ⟨h1, h2⟩
          rcases hadm i hi hin h1 with h3 | h3
          · exact absurd h3 h2
          · exact h3
      generalize pattern.getD i 0 = p at hns hd
      by_cases hp : p < S
      · have := hd.mp hp
        simp [hp, hns, this.1, this.2]
      · have : ¬ (p < 0 ∧ p ≠ S) := fun h => hp (hd.mpr h)
        have h2 : ¬ (p < 0 ∧ p ≠ S ∧ p ≠ SPIN) := fun h => this ⟨h.1, h.2.1⟩
        simp only [hp, false_and, decide_False, h2]
  · intro h0
    have h4 : (0 : Int) ≤ 4 * (freeNonSpinEntries S SPIN pattern ranges).prod := by omega
    obtain ⟨calls, data, hrun, hdl, hfold⟩ := hok h0
    refine ⟨_, _, { dimensions := ((freeNonSpinEntries S SPIN pattern ranges).length : Int),
                    ranges := freeNonSpinEntries S SPIN pattern ranges,
                    size := 4 * (freeNonSpinEntries S SPIN pattern ranges).prod,
                    data := List.replicate
                      (4 * (freeNonSpinEntries S SPIN pattern ranges).prod).toNat 0 },
      hrun, rfl, rfl, rfl, rfl, rfl, hdl, ?_, rfl, rfl, rfl, by simp, ?_, hfold⟩
    · rw [magnetization_new_eq, wrapInt_of_fits _ hfit.1 hfit.2, if_pos h4]
    · intro v hv
      exact (List.mem_replicate.mp hv).2

/-- C19 as amended, at `IDX_SUM_ALL = -2`, `IDX_SPIN = -6` and the pattern
`[SPIN, free, SUM_ALL]` with ranges `[2, 3, 5]`: the shape is `[3]`. -/
theorem calculateMagnetization_tensor_witness :
    (-2 : Int) < 0 ∧ ([2, 3, 5] : Index).length = ([-6, -3, -2] : Index).length ∧
    0 < ([-6, -3, -2] : Index).length ∧ ([-6, -3, -2] : Index).getD 0 0 = -6 ∧
    freeNonSpinEntries (-2) (-6) [-6, -3, -2] [2, 3, 5] = [3] ∧
    (-2147483648 ≤ 4 * (freeNonSpinEntries (-2) (-6) [-6, -3, -2] [2, 3, 5]).prod ∧
      4 * (freeNonSpinEntries (-2) (-6) [-6, -3, -2] [2, 3, 5]).prod < 2147483648) ∧
    ((freeNonSpinEntries (-2) (-6) [-6, -3, -2] [2, 3, 5] = claimedFreeEntries (-2) (-6) [-6, -3, -2] [2, 3, 5]) ∧
    (0 ≤ (freeNonSpinEntries (-2) (-6) [-6, -3, -2] [2, 3, 5]).prod →
      ∃ (run : Run (Magnetization Int)) (mag zero : Magnetization Int),
        calculateMagnetization (-2) (-6) spinSolver id id [-6, -3, -2] [2, 3, 5] = some run ∧
        run.result = some mag ∧ run.allocated = true ∧
        mag.dimensions = ((freeNonSpinEntries (-2) (-6) [-6, -3, -2] [2, 3, 5]).length : Int) ∧
        mag.ranges = freeNonSpinEntries (-2) (-6) [-6, -3, -2] [2, 3, 5] ∧
        mag.size = 4 * (freeNonSpinEntries (-2) (-6) [-6, -3, -2] [2, 3, 5]).prod ∧
        mag.data.length = mag.size.toNat ∧
        Magnetization.new ((freeNonSpinEntries (-2) (-6) [-6, -3, -2] [2, 3, 5]).length : Int)
          ((freeNonSpinEntries (-2) (-6) [-6, -3, -2] [2, 3, 5]).map some) = some zero ∧
        zero.dimensions = mag.dimensions ∧ zero.ranges = mag.ranges ∧ zero.size = mag.size ∧
        zero.data.length = zero.size.toNat ∧ (∀ v ∈ zero.data, v = 0) ∧
        run.calls.foldlM
          (fun m c => calculateMAGCallback spinSolver id id ((0 : Nat) : Int) m c.1 c.2) zero.data =
            some mag.data) ∧
    ((freeNonSpinEntries (-2) (-6) [-6, -3, -2] [2, 3, 5]).prod < 0 →
      calculateMagnetization (-2) (-6) spinSolver id id [-6, -3, -2] [2, 3, 5] = none)) :=
  ⟨by decide, rfl, by decide, rfl, by decide, by decide,
    calculateMagnetization_tensor (-2) (-6) (by decide) spinSolver id id [-6, -3, -2] [2, 3, 5] 0
      rfl (by decide) rfl (by decide) (by decide) (by decide)⟩

/-! ## Lemmas and theorems: the two passes of `constructCOO` -/

/-- The count never decreases along the counting loop. -/
theorem foldl_countStep_mono {V : Type} (gb : Index → Int) (l : List (HoppingAmplitude V)) :
    ∀ st : CountState, st.numMatrixElements ≤ (l.foldl (countStep gb) st).numMatrixElements := by
  induction l with
  | nil => intro st; exact le_refl _
  | cons e l ih =>
    intro st
    rw [List.foldl_cons]
    exact le_trans (countStep_mono gb st e) (ih _)

/-- The count of a part of the traversal is at most the count of the whole. -/
theorem countPass_take_le {V : Type} (gb : Index → Int) (tree : List (HoppingAmplitude V))
    (k : Nat) :
    (countPass gb (tree.take k)).numMatrixElements ≤ (countPass gb tree).numMatrixElements := by
  have h : countPass gb tree = (tree.drop k).foldl (countStep gb) (countPass gb (tree.take k)) := by
    unfold countPass
    rw [← List.foldl_append, List.take_append_drop]
  rw [h]
  exact foldl_countStep_mono gb _ _

/-- Invariant of both loops of `constructCOO` after a part `pre` of a traversal
whose first hopping amplitude has a non-negative to-basis-position, for arrays
of `n` cells: `pre` is cut into consecutive non-empty groups, one per slot; both
loops agree on the trackers and on the number of slots; slot `k` holds the basis
positions of the first hopping amplitude of group `k` and the sum of the
conjugated amplitudes of group `k`. -/
theorem coo_lockstep_prefix {V : Type} [AddMonoid V] (gb : Index → Int) (conj : V → V)
    (n : Nat) (pre : List (HoppingAmplitude V)) :
    (∀ ha ∈ pre.head?, 0 ≤ gb ha.toIndex) →
    (countPass gb pre).numMatrixElements ≤ (n : Int) →
    ∃ (groups : List (List (HoppingAmplitude V))) (rr rc : List (Option Int)) (rv : List V)
      (c r : Int),
      groups.flatten = pre ∧ (∀ g ∈ groups, g ≠ []) ∧
      countPass gb pre =
        { numMatrixElements := (groups.length : Int), currentCol := c, currentRow := r } ∧
      groups.length + rr.length = n ∧ groups.length + rc.length = n ∧
      groups.length + rv.length = n ∧
      fillPass gb conj (n : Int) pre =
        some { currentMatrixElement := (groups.length : Int) - 1,
               currentCol := c, currentRow := r,
               cooRowIndices := groups.map (fun g => g.head?.map fun ha => gb ha.fromIndex) ++ rr,
               cooColIndices := groups.map (fun g => g.head?.map fun ha => gb ha.toIndex) ++ rc,
               cooValues :=
                 groups.map (fun g => (g.map fun ha => conj ha.getAmplitude).sum) ++ rv } := by
  induction pre using List.reverseRecOn with
  | nil =>
    intro _ _
    refine ⟨[], List.replicate n none, List.replicate n none, List.replicate n 0, -1, -1,
      rfl, by simp, ?_, by simp, by simp, by simp, ?_⟩
    · simp [countPass]
    · simp [fillPass]
  | append_singleton pre e ih =>
    intro hh hc
    have hh1 : ∀ ha ∈ pre.head?, 0 ≤ gb ha.toIndex := by
      intro ha hha
      apply hh ha
      cases pre with
      | nil => simp at hha
      | cons x t => simpa using hha
    have hc1 : (countPass gb pre).numMatrixElements ≤ (n : Int) := by
      have h := countStep_mono gb (countPass gb pre) e
      rw [← countPass_concat] at h
      exact le_trans h hc
    obtain ⟨groups, rr, rc, rv, c, r, hflat, hne, hcount, hlr, hlc, hlv, hfill⟩ := ih hh1 hc1
    have hfp := fillPass_concat gb conj (n : Int) pre e
    rw [hfill, Option.some_bind] at hfp
    have hcp := countPass_concat gb pre e
    rw [hcount] at hcp
    obtain ⟨c1, hc1def⟩ : ∃ c1, c1 = if gb e.fromIndex > c then gb e.fromIndex else c := ⟨_, rfl⟩
    obtain ⟨r1, hr1def⟩ : ∃ r1, r1 = if gb e.fromIndex > c then -1 else r := ⟨_, rfl⟩
    by_cases hw : gb e.toIndex > r1
    · -- a new slot is written
      rw [countStep_write gb _ e c1 r1 hc1def hr1def hw] at hcp
      rw [fillStep_write gb conj _ e c1 r1 hc1def hr1def hw] at hfp
      simp only at hcp hfp
      rw [hcp] at hc
      simp only at hc
      obtain ⟨xr, rr1, rfl⟩ : ∃ x t, rr = x :: t := by
        cases rr with
        | nil => simp at hlr; omega
        | cons x t => exact ⟨x, t, rfl⟩
      obtain ⟨xc, rc1, rfl⟩ : ∃ x t, rc = x :: t := by
        cases rc with
        | nil => simp at hlc; omega
        | cons x t => exact ⟨x, t, rfl⟩
      obtain ⟨xv, rv1, rfl⟩ : ∃ x t, rv = x :: t := by
        cases rv with
        | nil => simp at hlv; omega
        | cons x t => exact ⟨x, t, rfl⟩
      simp only [List.length_cons] at hlr hlc hlv
      have hi1 : (groups.length : Int) - 1 + 1 =
          ((groups.map (fun g : List (HoppingAmplitude V) =>
            g.head?.map fun ha => gb ha.fromIndex)).length : Int) := by simp
      have hi2 : (groups.length : Int) - 1 + 1 =
          ((groups.map (fun g : List (HoppingAmplitude V) =>
            g.head?.map fun ha => gb ha.toIndex)).length : Int) := by simp
      have hi3 : (groups.length : Int) - 1 + 1 =
          ((groups.map (fun g : List (HoppingAmplitude V) =>
            (g.map fun ha => conj ha.getAmplitude).sum)).length : Int) := by simp
      rw [hi1, writeAt_length_append, ← hi1, hi2, writeAt_length_append, ← hi2, hi3,
        writeAt_length_append, ← hi3] at hfp
      simp only at hfp
      refine ⟨groups ++ [[e]], rr1, rc1, rv1, c1, gb e.toIndex, ?_, ?_, ?_, ?_, ?_, ?_, ?_⟩
      · rw [List.flatten_append, hflat]
        simp
      · intro g hg
        rcases List.mem_append.mp hg with h | h
        · exact hne g h
        · simp only [List.mem_singleton] at h
          rw [h]
          exact List.cons_ne_nil _ _
      · rw [hcp]
        simp
      · simp; omega
      · simp; omega
      · simp; omega
      · rw [hfp]
        simp [HoppingAmplitude.getAmplitude]
    · -- no new slot: the amplitude is added into the current slot
      rw [countStep_keep gb _ e c1 r1 hc1def hr1def hw] at hcp
      rw [fillStep_keep gb conj _ e c1 r1 hc1def hr1def hw] at hfp
      simp only at hcp hfp
      have hnonempty : groups ≠ [] := by
        intro hg
        subst hg
        simp only [List.flatten_nil] at hflat
        subst hflat
        have h0 : 0 ≤ gb e.toIndex := hh e (by simp)
        simp only [countPass, List.foldl_nil, CountState.mk.injEq] at hcount
        obtain ⟨_, h2, h3⟩ := hcount
        apply hw
        rw [hr1def, ← h3]
        split_ifs <;> omega
      rcases List.eq_nil_or_concat groups with h | ⟨G, g, h⟩
      · exact absurd h hnonempty
      rw [List.concat_eq_append] at h
      subst h
      have hgne : g ≠ [] := hne g (by simp)
      have hv : List.map (fun g : List (HoppingAmplitude V) =>
            (g.map fun ha => conj ha.getAmplitude).sum) (G ++ [g]) ++ rv =
          G.map (fun g : List (HoppingAmplitude V) =>
            (g.map fun ha => conj ha.getAmplitude).sum) ++
            (g.map fun ha => conj ha.getAmplitude).sum :: rv := by simp
      have hi : ((G ++ [g]).length : Int) - 1 =
          ((G.map (fun g : List (HoppingAmplitude V) =>
            (g.map fun ha => conj ha.getAmplitude).sum)).length : Int) := by simp
      rw [hv, hi, addAt_length_append, ← hi] at hfp
      simp only at hfp
      refine ⟨G ++ [g ++ [e]], rr, rc, rv, c1, r1, ?_, ?_, ?_, ?_, ?_, ?_, ?_⟩
      · rw [← hflat]
        simp
      · intro x hx
        rcases List.mem_append.mp hx with h | h
        · exact hne x (List.mem_append_left _ h)
        · simp only [List.mem_singleton] at h
          rw [h]
          simp
      · rw [hcp]
        simp
      · simpa using hlr
      · simpa using hlc
      · simpa using hlv
      · rw [hfp]
        simp [List.head?_append_of_ne_nil _ hgne]

/-- C21. For every traversal whose basis positions are all non-negative, sorted
or not: after each part of the traversal the fill pass of `constructCOO`, run
on arrays of `numMatrixElements` cells (the result of the count pass), is
defined, so no write was outside the arrays; the slot index
`currentMatrixElement` that the last iteration wrote to is the count of the
part minus one, is at least 0 once a hopping amplitude has been processed (the
summation branch is never taken before a first slot exists) and is less than
`numMatrixElements`. At the end the fill pass has created exactly as many slots
as the count pass counted, and every slot of the three arrays is populated: the
traversal is cut into consecutive non-empty groups, one per slot, and slot `k`
holds the basis positions of the first hopping amplitude of group `k` and the
sum of the conjugated amplitudes of group `k`. -/
theorem constructCOO_fill_matches_count {V : Type} [AddMonoid V] (gb : Index → Int)
    (conj : V → V) (s : AmplitudeSet V) (hn : NonNegTraversal gb s.tree) :
    (∀ k, k ≤ s.tree.length →
      ∃ st : FillState V,
        fillPass gb conj (countPass gb s.tree).numMatrixElements (s.tree.take k) = some st ∧
        st.currentMatrixElement + 1 = (countPass gb (s.tree.take k)).numMatrixElements ∧
        (0 < k → 0 ≤ st.currentMatrixElement) ∧
        st.currentMatrixElement < (countPass gb s.tree).numMatrixElements) ∧
    ∃ (groups : List (List (HoppingAmplitude V))) (st : FillState V),
      fillPass gb conj (countPass gb s.tree).numMatrixElements s.tree = some st ∧
      groups.flatten = s.tree ∧ (∀ g ∈ groups, g ≠ []) ∧
      (countPass gb s.tree).numMatrixElements = (groups.length : Int) ∧
      st.currentMatrixElement + 1 = (groups.length : Int) ∧
      st.cooRowIndices = groups.map (fun g => g.head?.map fun ha => gb ha.fromIndex) ∧
      st.cooColIndices = groups.map (fun g => g.head?.map fun ha => gb ha.toIndex) ∧
      st.cooValues = groups.map (fun g => (g.map fun ha => conj ha.getAmplitude).sum) ∧
      (∀ x ∈ st.cooRowIndices, x ≠ none) ∧ (∀ x ∈ st.cooColIndices, x ≠ none) ∧
      (s.isSorted = true → s.numMatrixElements = -1 →
        ∃ s1 : AmplitudeSet V, s.constructCOO gb conj = Outcome.ok s1 () ∧
          s1.numMatrixElements = (groups.length : Int) ∧
          s1.cooRowIndices = some st.cooRowIndices ∧
          s1.cooColIndices = some st.cooColIndices ∧
          s1.cooValues = some st.cooValues) := by
  have h0 := countPass_nonneg gb s.tree
  have hcast : (((countPass gb s.tree).numMatrixElements.toNat : Nat) : Int) =
      (countPass gb s.tree).numMatrixElements := Int.toNat_of_nonneg h0
  have hhead : ∀ (l : List (HoppingAmplitude V)), (∀ x ∈ l, x ∈ s.tree) →
      ∀ ha ∈ l.head?, 0 ≤ gb ha.toIndex := by
    intro l hl ha hha
    cases l with
    | nil => simp at hha
    | cons x t =>
      simp only [List.head?_cons, Option.mem_def, Option.some.injEq] at hha
      subst hha
      exact (hn x (hl x (List.mem_cons_self _ _))).2
  constructor
  · intro k hk
    obtain ⟨groups, rr, rc, rv, c, r, hflat, hne, hcount, hlr, _, _, hfill⟩ :=
      coo_lockstep_prefix gb conj (countPass gb s.tree).numMatrixElements.toNat (s.tree.take k)
        (hhead _ (fun x hx => List.mem_of_mem_take hx))
        (by rw [hcast]; exact countPass_take_le gb s.tree k)
    rw [hcast] at hfill
    refine ⟨_, hfill, ?_, ?_, ?_⟩
    · rw [hcount]
      simp
    · intro hpos
      simp only
      have hg : groups ≠ [] := by
        intro hg
        subst hg
        simp only [List.flatten_nil] at hflat
        have hl : (s.tree.take k).length = k := by simp; omega
        rw [← hflat] at hl
        simp at hl
        omega
      have := List.length_pos.mpr hg
      omega
    · simp only
      omega
  · obtain ⟨groups, rr, rc, rv, c, r, hflat, hne, hcount, hlr, hlc, hlv, hfill⟩ :=
      coo_lockstep_prefix gb conj (countPass gb s.tree).numMatrixElements.toNat s.tree
        (hhead _ (fun x hx => hx)) (le_of_eq hcast.symm)
    have hlen : (countPass gb s.tree).numMatrixElements = (groups.length : Int) := by
      rw [hcount]
    have hn2 : (countPass gb s.tree).numMatrixElements.toNat = groups.length := by
      rw [hlen]; simp
    have hrr : rr = [] := List.eq_nil_of_length_eq_zero (by omega)
    have hrc : rc = [] := List.eq_nil_of_length_eq_zero (by omega)
    have hrv : rv = [] := List.eq_nil_of_length_eq_zero (by omega)
    subst hrr hrc hrv
    rw [hcast] at hfill
    simp only [List.append_nil] at hfill
    have hsome : ∀ (f : HoppingAmplitude V → Int),
        ∀ x ∈ groups.map (fun g : List (HoppingAmplitude V) => g.head?.map f), x ≠ none := by
      intro f x hx
      obtain ⟨g, hg, rfl⟩ := List.mem_map.mp hx
      cases g with
      | nil => exact absurd rfl (hne [] hg)
      | cons y t => simp
    refine ⟨groups, _, hfill, hflat, hne, hlen, by simp, rfl, rfl, rfl,
      hsome _, hsome _, ?_⟩
    intro h1 h2
    refine ⟨_, (constructCOO_ok_iff gb conj s _).mpr ⟨h1, h2, _, hfill, rfl⟩, hlen, rfl, rfl, rfl⟩

/-- C21 on the scenario of the spec. -/
theorem constructCOO_fill_matches_count_scenario :
    NonNegTraversal scenarioBasis scenarioSet.tree ∧
    ((∀ k, k ≤ scenarioSet.tree.length →
      ∃ st : FillState (Int × Int),
        fillPass scenarioBasis conjZ (countPass scenarioBasis scenarioSet.tree).numMatrixElements (scenarioSet.tree.take k) = some st ∧
        st.currentMatrixElement + 1 = (countPass scenarioBasis (scenarioSet.tree.take k)).numMatrixElements ∧
        (0 < k → 0 ≤ st.currentMatrixElement) ∧
        st.currentMatrixElement < (countPass scenarioBasis scenarioSet.tree).numMatrixElements) ∧
    ∃ (groups : List (List (HoppingAmplitude (Int × Int)))) (st : FillState (Int × Int)),
      fillPass scenarioBasis conjZ (countPass scenarioBasis scenarioSet.tree).numMatrixElements scenarioSet.tree = some st ∧
      groups.flatten = scenarioSet.tree ∧ (∀ g ∈ groups, g ≠ []) ∧
      (countPass scenarioBasis scenarioSet.tree).numMatrixElements = (groups.length : Int) ∧
      st.currentMatrixElement + 1 = (groups.length : Int) ∧
      st.cooRowIndices = groups.map (fun g => g.head?.map fun ha => scenarioBasis ha.fromIndex) ∧
      st.cooColIndices = groups.map (fun g => g.head?.map fun ha => scenarioBasis ha.toIndex) ∧
      st.cooValues = groups.map (fun g => (g.map fun ha => conjZ ha.getAmplitude).sum) ∧
      (∀ x ∈ st.cooRowIndices, x ≠ none) ∧ (∀ x ∈ st.cooColIndices, x ≠ none) ∧
      (scenarioSet.isSorted = true → scenarioSet.numMatrixElements = -1 →
        ∃ s1 : AmplitudeSet (Int × Int), scenarioSet.constructCOO scenarioBasis conjZ = Outcome.ok s1 () ∧
          s1.numMatrixElements = (groups.length : Int) ∧
          s1.cooRowIndices = some st.cooRowIndices ∧
          s1.cooColIndices = some st.cooColIndices ∧
          s1.cooValues = some st.cooValues)) :=
  ⟨by decide, constructCOO_fill_matches_count scenarioBasis conjZ scenarioSet (by decide)⟩

/-! ## Lemmas and theorems: the offsets and the output buffer -/

/-- For a pattern whose negative entries are each `IDX_SUM_ALL` or strictly less
than `IDX_SUM_ALL`, every offset passed to the callback lies in `[0, N)`, `N`
being the product of the extents returned by `getLoopRanges`. -/
theorem offsets_in_buffer (S : Int) (hS : S < 0) (pattern ranges : Index)
    (hlen : ranges.length = pattern.length) (hadm : Admissible S pattern) :
    getLoopRanges S pattern ranges =
      some (((freeEntries S pattern ranges).length : Int),
            (freeEntries S pattern ranges).map some) ∧
    ∀ c ∈ expandFrom S ranges pattern.length pattern 0 1,
      0 ≤ c.2 ∧ c.2 < (freeEntries S pattern ranges).prod := by
  refine ⟨getLoopRanges_eq S pattern ranges hlen.symm, ?_⟩
  intro c hc
  have hsz : sizeFrom S pattern ranges pattern.length = (freeEntries S pattern ranges).prod := by
    rw [sizeFrom_eq_prod S pattern ranges hlen.symm _ (le_refl _), List.take_length,
      take_length_of_eq ranges _ hlen]
  have hoff : c.2 = linFrom S pattern ranges c.1 pattern.length := by
    rw [expandFrom_offset S hS ranges pattern.length pattern 0 1 c hadm hc]
    ring
  have hsh := expandFrom_mem_shape S ranges pattern.length pattern 0 1 c hc
  have hb := linFrom_bound S pattern ranges c.1 pattern.length
    (fun i hi hf => hsh.2.2.2 i hi (by omega))
  rw [← hoff, hsz] at hb
  exact hb

/-- Whenever a negative value greater than `IDX_SUM_ALL` exists, the pattern
`[-1]` with ranges `[3]` is iterated with the offsets 0, 1, 2 although
`getLoopRanges` gives it no dimension. -/
theorem offsets_escape (S : Int) (hS : S < -1) :
    getLoopRanges S [-1] [3] = some (0, []) ∧
    expandFrom S [3] 1 [-1] 0 1 = [([0], 0), ([1], 1), ([2], 2)] := by
  have h1 : ¬ ((-1 : Int) < S) := by omega
  have h2 : ¬ ((-1 : Int) = S) := by omega
  constructor
  · simp [getLoopRanges, List.range_succ, h1]
  · simp [expandFrom, List.range_succ, h1, h2]

/-- C22 fails in `calculate`. With `IDX_SUM_ALL = -2` the pattern `[-1]`, a
negative value greater than `IDX_SUM_ALL`, with ranges `[3]` gets no dimension
from `getLoopRanges`, so the output tensor has `N = 1` cell (the empty product),
while `calculate` calls the callback with the offsets 0, 1 and 2; on the
one-cell buffer of `calculateDensity` the second call updates a cell outside
the buffer, so the run has no defined result. -/
theorem calculate_offset_outside_buffer :
    getLoopRanges (-2) [-1] [3] = some (0, []) ∧
    (Density.new (0 : Int) [] : Option (Density Int)).map (fun d => d.data.length) = some 1 ∧
    (∀ (M : Type) (callback : M → Index → Int → Option M) (memory : M),
      calculate (-2) callback memory [-1] [3] 0 1 =
        [(([0] : Index), (0 : Int)), ([1], 1), ([2], 2)].foldlM
          (fun m c => callback m c.1 c.2) memory) ∧
    (calculateDensity (-2) unitSolver id [-1] [3]).isNone = true := by
  have hcalc : ∀ (M : Type) (callback : M → Index → Int → Option M) (memory : M),
      calculate (-2) callback memory [-1] [3] 0 1 =
        [(([0] : Index), (0 : Int)), ([1], 1), ([2], 2)].foldlM
          (fun m c => callback m c.1 c.2) memory := by
    intro M callback memory
    rw [← (offsets_escape (-2) (by decide)).2]
    exact calculate_eq_foldlM (-2) callback [3] 1 [-1] memory 0 1 rfl (le_refl _)
      (fun i hi hlt => absurd hlt (by simp at hi ⊢; omega))
  refine ⟨by decide, rfl, hcalc, ?_⟩
  have he : ensureCompliantRanges [-1] [3] = some [3] := by decide
  have hg : getLoopRanges (-2) [-1] [3] = some (0, []) := by decide
  unfold calculateDensity
  rw [he, Option.some_bind, hg, Option.some_bind]
  have hd : (Density.new (0 : Int) [] : Option (Density Int)) =
      some { dimensions := 0, ranges := [], size := 1, data := [0] } := rfl
  simp only
  rw [hd, Option.some_bind]
  simp only
  rw [hcalc]
  rfl

/-! ## Lemmas and theorems: Hermitian snapshots -/

/-- An additive conjugation commutes with sums. -/
theorem conj_sum {V : Type} [AddMonoid V] (conj : V → V)
    (hadd : ∀ a b, conj (a + b) = conj a + conj b) (hzero : conj 0 = 0) (l : List V) :
    conj l.sum = (l.map conj).sum := by
  induction l with
  | nil => simpa using hzero
  | cons a l ih => rw [List.sum_cons, hadd, ih, List.map_cons, List.sum_cons]

/-- The sum of the conjugated amplitudes of a pair is the conjugate of the sum
of its amplitudes. -/
theorem conjSum_eq_conj_ampSum {V : Type} [AddMonoid V] (gb : Index → Int) (conj : V → V)
    (hadd : ∀ a b, conj (a + b) = conj a + conj b) (hzero : conj 0 = 0)
    (tree : List (HoppingAmplitude V)) (p : Int × Int) :
    conjSum gb conj tree p = conj (ampSum gb tree p) := by
  unfold conjSum ampSum
  rw [conj_sum conj hadd hzero, List.map_map]
  rfl

/-- The entries of a snapshot whose arrays list the slots. -/
theorem zip_slots {V : Type} (val : Int × Int → V) (slots : List (Int × Int)) :
    List.zip (slots.map (fun p => some p.1))
        (List.zip (slots.map (fun p => some p.2)) (slots.map val)) =
      slots.map (fun p => (some p.1, some p.2, val p)) := by
  induction slots with
  | nil => rfl
  | cons p slots ih => simp [ih]

theorem conjZ_add (a b : Int × Int) : conjZ (a + b) = conjZ a + conjZ b := by
  unfold conjZ
  exact Prod.ext rfl (neg_add _ _)

theorem conjZ_zero : conjZ 0 = 0 := by decide

/-- The role of `NonNegTraversal` for the Hermitian snapshot. With a basis
position `-1`, which the contract of `getBasisIndex` excludes for a stored
endpoint, the traversal of `hermitianNegativeSet` (pairs `(-1, 1)`, `(0, 0)`,
`(1, -1)`) would give the entry (row `-1`, column `1`, value `1 - i`) and no
entry with row `1` and column `-1`: the to-position `-1` is not told apart from
the start value of the tracker. -/
theorem constructCOO_hermitian_negative_position :
    SortedTraversal scenarioBasis hermitianNegativeSet.tree ∧
    HermitianClosed scenarioBasis conjZ hermitianNegativeSet.tree ∧
    hermitianNegativeSet.constructCOO scenarioBasis conjZ =
      Outcome.ok hermitianNegativeBuilt () ∧
    hermitianNegativeBuilt.entries =
      [(some (-1), some 1, (1, -1)), (some 0, some 0, (4, 1))] ∧
    (some (-1), some 1, ((1 : Int), (-1 : Int))) ∈ hermitianNegativeBuilt.entries ∧
    (some 1, some (-1), conjZ (1, -1)) ∉ hermitianNegativeBuilt.entries := by
  decide

/-- C23. If the traversal is non-decreasing in (from-basis-position,
to-basis-position) with non-negative basis positions, as the sort and the
contract of `getBasisIndex` make it, and it is closed under Hermitian
conjugation, and `conj` is additive, then
`constructCOO` (on a set flagged sorted without a snapshot) builds a Hermitian
matrix: for every emitted (row `r`, column `c`, value `v`) there is an emitted
(row `c`, column `r`, value `conj v`), and `v` is the sum of the amplitudes of
the entries from `c` to `r`. -/
theorem constructCOO_hermitian {V : Type} [AddMonoid V] (gb : Index → Int) (conj : V → V)
    (s : AmplitudeSet V) (hadd : ∀ a b, conj (a + b) = conj a + conj b) (hzero : conj 0 = 0)
    (hs : SortedTraversal gb s.tree)
    (hn : NonNegTraversal gb s.tree) (hh : HermitianClosed gb conj s.tree)
    (h1 : s.isSorted = true) (h2 : s.numMatrixElements = -1) :
    ∃ s1 : AmplitudeSet V, s.constructCOO gb conj = Outcome.ok s1 () ∧
      ∀ (r c : Int) (v : V), (some r, some c, v) ∈ s1.entries →
        (some c, some r, conj v) ∈ s1.entries ∧ v = ampSum gb s.tree (c, r) := by
  obtain ⟨slots, _, hmem, hlen, hfill⟩ := coo_sorted gb conj s.tree hs hn
  refine ⟨_, (constructCOO_ok_iff gb conj s _).mpr ⟨h1, h2, _, hfill, rfl⟩, ?_⟩
  intro r c v hv
  simp only [AmplitudeSet.entries] at hv ⊢
  rw [zip_slots] at hv ⊢
  obtain ⟨p, hp, hpe⟩ := List.mem_map.mp hv
  simp only [Prod.mk.injEq, Option.some.injEq] at hpe
  obtain ⟨hr, hc, hval⟩ := hpe
  obtain ⟨hswap, hsum⟩ := hh p ((hmem p).mp hp)
  have hv1 : v = conj (ampSum gb s.tree p) := by
    rw [← hval, conjSum_eq_conj_ampSum gb conj hadd hzero]
  constructor
  · refine List.mem_map.mpr ⟨(p.2, p.1), (hmem _).mpr hswap, ?_⟩
    simp only [Prod.mk.injEq, Option.some.injEq]
    refine ⟨hc, hr, ?_⟩
    rw [conjSum_eq_conj_ampSum gb conj hadd hzero, hsum, hv1]
  · rw [hv1, ← hsum, hr, hc]

/-- C23 on the scenario of the spec. -/
theorem constructCOO_hermitian_scenario :
    SortedTraversal scenarioBasis scenarioSet.tree ∧
    NonNegTraversal scenarioBasis scenarioSet.tree ∧
    HermitianClosed scenarioBasis conjZ scenarioSet.tree ∧
    (∃ s1 : AmplitudeSet (Int × Int), scenarioSet.constructCOO scenarioBasis conjZ = Outcome.ok s1 () ∧
      ∀ (r c : Int) (v : Int × Int), (some r, some c, v) ∈ s1.entries →
        (some c, some r, conjZ v) ∈ s1.entries ∧ v = ampSum scenarioBasis scenarioSet.tree (c, r)) :=
  ⟨by decide, by decide, by decide,
    constructCOO_hermitian scenarioBasis conjZ scenarioSet conjZ_add conjZ_zero
      (by decide) (by decide) (by decide) rfl rfl⟩

/-! ## Lemmas and theorems: the bins of the LDOS callbacks -/

/-- For an eigenvalue strictly between the bounds the conversion to `int` is the
floor, and the bin index lies in `[0, resolution)`. -/
theorem ldos_bin {R : Type} [LinearOrderedField R] [FloorRing R] (l u : R) (res : Int)
    (hlu : l < u) (hres : 0 < res) (ev : R) (h1 : l < ev) (h2 : ev < u) :
    truncToInt ((ev - l) / ((u - l) / (res : R))) = floorBin l u res ev ∧
    0 ≤ floorBin l u res ev ∧ floorBin l u res ev < res := by
  obtain ⟨hx0, hb0, hb1⟩ := floorBin_range l u res hlu hres ev (le_of_lt h1) h2
  exact ⟨truncToInt_of_nonneg _ hx0, hb0, hb1⟩

/-- One iteration of the SpinPolarizedLDOS callback for an eigenvalue strictly
between the bounds: the four cells of the bin of the spec inside the block of
`offset` receive the four products, every other cell keeps its value. -/
theorem calculateSP_LDOSStep_cells {R V : Type} [LinearOrderedField R] [FloorRing R]
    [AddMonoid V] [Mul V] (solver : Solver R V) (conj : V → V) (l u : R) (res : Int)
    (hlu : l < u) (hres : 0 < res) (index_u index_d : Index) (o : Nat) (sp_ldos : List V)
    (hbuf : 4 * res.toNat * o + 4 * res.toNat ≤ sp_ldos.length) (n : Nat)
    (h1 : l < solver.eigenValues n) (h2 : solver.eigenValues n < u) :
    ∃ e : List V,
      (floorBin l u res (solver.eigenValues n)).toNat < res.toNat ∧
      calculateSP_LDOSStep solver conj u l res ((u - l) / (res : R)) index_u index_d (o : Int)
        sp_ldos n = some e ∧
      e.length = sp_ldos.length ∧
      e.getD (4 * res.toNat * o + 4 * (floorBin l u res (solver.eigenValues n)).toNat + 0) 0 =
        sp_ldos.getD
            (4 * res.toNat * o + 4 * (floorBin l u res (solver.eigenValues n)).toNat + 0) 0 +
          conj (solver.getAmplitude n index_u) * solver.getAmplitude n index_u ∧
      e.getD (4 * res.toNat * o + 4 * (floorBin l u res (solver.eigenValues n)).toNat + 1) 0 =
        sp_ldos.getD
            (4 * res.toNat * o + 4 * (floorBin l u res (solver.eigenValues n)).toNat + 1) 0 +
          conj (solver.getAmplitude n index_u) * solver.getAmplitude n index_d ∧
      e.getD (4 * res.toNat * o + 4 * (floorBin l u res (solver.eigenValues n)).toNat + 2) 0 =
        sp_ldos.getD
            (4 * res.toNat * o + 4 * (floorBin l u res (solver.eigenValues n)).toNat + 2) 0 +
          conj (solver.getAmplitude n index_d) * solver.getAmplitude n index_u ∧
      e.getD (4 * res.toNat * o + 4 * (floorBin l u res (solver.eigenValues n)).toNat + 3) 0 =
        sp_ldos.getD
            (4 * res.toNat * o + 4 * (floorBin l u res (solver.eigenValues n)).toNat + 3) 0 +
          conj (solver.getAmplitude n index_d) * solver.getAmplitude n index_d ∧
      ∀ k, (k < 4 * res.toNat * o + 4 * (floorBin l u res (solver.eigenValues n)).toNat ∨
          4 * res.toNat * o + 4 * (floorBin l u res (solver.eigenValues n)).toNat + 4 ≤ k) →
        e.getD k 0 = sp_ldos.getD k 0 := by
  obtain ⟨htr, hb0, hb1⟩ := ldos_bin l u res hlu hres _ h1 h2
  generalize hbdef : floorBin l u res (solver.eigenValues n) = b at htr hb0 hb1 ⊢
  have hbn : b.toNat < res.toNat := by omega
  have hbc : ((b.toNat : Nat) : Int) = b := Int.toNat_of_nonneg hb0
  have hrc : ((res.toNat : Nat) : Int) = res := Int.toNat_of_nonneg (le_of_lt hres)
  have hin : 4 * res.toNat * o + 4 * b.toNat + 3 < sp_ldos.length := by
    have : 4 * b.toNat + 4 ≤ 4 * res.toNat := by omega
    omega
  obtain ⟨e0, h0, l0, v0, o0⟩ := addAt_cell sp_ldos (4 * res.toNat * o + 4 * b.toNat + 0)
    (conj (solver.getAmplitude n index_u) * solver.getAmplitude n index_u) (by omega)
  obtain ⟨e1, h1', l1, v1, o1⟩ := addAt_cell e0 (4 * res.toNat * o + 4 * b.toNat + 1)
    (conj (solver.getAmplitude n index_u) * solver.getAmplitude n index_d) (by omega)
  obtain ⟨e2, h2', l2, v2, o2⟩ := addAt_cell e1 (4 * res.toNat * o + 4 * b.toNat + 2)
    (conj (solver.getAmplitude n index_d) * solver.getAmplitude n index_u) (by omega)
  obtain ⟨e3, h3', l3, v3, o3⟩ := addAt_cell e2 (4 * res.toNat * o + 4 * b.toNat + 3)
    (conj (solver.getAmplitude n index_d) * solver.getAmplitude n index_d) (by omega)
  have c0 : 4 * res * (o : Int) + 4 * b + 0 =
      ((4 * res.toNat * o + 4 * b.toNat + 0 : Nat) : Int) := by
    push_cast; rw [hbc, hrc]
  have c1 : 4 * res * (o : Int) + 4 * b + 1 =
      ((4 * res.toNat * o + 4 * b.toNat + 1 : Nat) : Int) := by
    push_cast; rw [hbc, hrc]
  have c2 : 4 * res * (o : Int) + 4 * b + 2 =
      ((4 * res.toNat * o + 4 * b.toNat + 2 : Nat) : Int) := by
    push_cast; rw [hbc, hrc]
  have c3 : 4 * res * (o : Int) + 4 * b + 3 =
      ((4 * res.toNat * o + 4 * b.toNat + 3 : Nat) : Int) := by
    push_cast; rw [hbc, hrc]
  refine ⟨e3, hbn, ?_, by omega, ?_, ?_, ?_, ?_, ?_⟩
  · unfold calculateSP_LDOSStep
    have hg : solver.eigenValues n > l ∧ solver.eigenValues n < u := ⟨h1, h2⟩
    rw [if_pos hg]
    simp only
    rw [htr, if_neg (by omega), c0, c1, c2, c3, h0, Option.some_bind, h1', Option.some_bind, h2',
      Option.some_bind, h3']
  · rw [o3 _ (by omega), o2 _ (by omega), o1 _ (by omega), v0]
  · rw [o3 _ (by omega), o2 _ (by omega), v1, o0 _ (by omega)]
  · rw [o3 _ (by omega), v2, o1 _ (by omega), o0 _ (by omega)]
  · rw [v3, o2 _ (by omega), o1 _ (by omega), o0 _ (by omega)]
  · intro k hk
    rw [o3 _ (by omega), o2 _ (by omega), o1 _ (by omega), o0 _ (by omega)]

/-- C24. For `lowerBound < upperBound`, `resolution > 0` and an eigenvalue that
passes the range test `lowerBound < ev < upperBound` of the LDOS and
SpinPolarizedLDOS callbacks, with exact arithmetic: the bin index computed by
the callbacks is the floor bin and lies in `[0, resolution)`, so the clamp to
`resolution - 1` does not change it; the write of the LDOS callback for offset
`o` goes to a cell of the block `[resolution*o, resolution*o + resolution)`;
the four writes of the SpinPolarizedLDOS callback go to four consecutive cells
inside the block `[4*resolution*o, 4*resolution*o + 4*resolution)`, and every
other cell keeps its value. -/
theorem ldos_writes_stay_in_block {R V : Type} [LinearOrderedField R] [FloorRing R]
    [AddMonoid V] [Mul V] (l u : R) (res : Int) (hlu : l < u) (hres : 0 < res) :
    (∀ ev : R, l < ev → ev < u →
      truncToInt ((ev - l) / ((u - l) / (res : R))) = floorBin l u res ev ∧
      0 ≤ floorBin l u res ev ∧ floorBin l u res ev < res ∧
      (if truncToInt ((ev - l) / ((u - l) / (res : R))) ≥ res then res - 1
        else truncToInt ((ev - l) / ((u - l) / (res : R)))) =
        truncToInt ((ev - l) / ((u - l) / (res : R)))) ∧
    (∀ (solver : Solver R V) (re : V → R) (conj : V → V) (index : Index) (o : Nat)
        (ldos : List R) (n : Nat),
      res.toNat * o + res.toNat ≤ ldos.length →
      l < solver.eigenValues n → solver.eigenValues n < u →
      ∃ idx : Nat, res.toNat * o ≤ idx ∧ idx < res.toNat * o + res.toNat ∧
        calculateLDOSStep solver re conj u l res ((u - l) / (res : R)) index (o : Int) ldos n =
          some (ldos.set idx (ldos.getD idx 0 +
            re (conj (solver.getAmplitude n index) * solver.getAmplitude n index)))) ∧
    (∀ (solver : Solver R V) (conj : V → V) (index_u index_d : Index) (o : Nat)
        (sp_ldos : List V) (n : Nat),
      4 * res.toNat * o + 4 * res.toNat ≤ sp_ldos.length →
      l < solver.eigenValues n → solver.eigenValues n < u →
      ∃ (base : Nat) (e : List V),
        4 * res.toNat * o ≤ base ∧ base + 4 ≤ 4 * res.toNat * o + 4 * res.toNat ∧
        calculateSP_LDOSStep solver conj u l res ((u - l) / (res : R)) index_u index_d (o : Int)
          sp_ldos n = some e ∧
        e.length = sp_ldos.length ∧
        e.getD (base + 0) 0 = sp_ldos.getD (base + 0) 0 +
          conj (solver.getAmplitude n index_u) * solver.getAmplitude n index_u ∧
        e.getD (base + 1) 0 = sp_ldos.getD (base + 1) 0 +
          conj (solver.getAmplitude n index_u) * solver.getAmplitude n index_d ∧
        e.getD (base + 2) 0 = sp_ldos.getD (base + 2) 0 +
          conj (solver.getAmplitude n index_d) * solver.getAmplitude n index_u ∧
        e.getD (base + 3) 0 = sp_ldos.getD (base + 3) 0 +
          conj (solver.getAmplitude n index_d) * solver.getAmplitude n index_d ∧
        ∀ k, (k < base ∨ base + 4 ≤ k) → e.getD k 0 = sp_ldos.getD k 0) := by
  refine ⟨?_, ?_, ?_⟩
  · intro ev h1 h2
    obtain ⟨htr, hb0, hb1⟩ := ldos_bin l u res hlu hres ev h1 h2
    refine ⟨htr, hb0, hb1, ?_⟩
    rw [htr, if_neg (by omega)]
  · intro solver re conj index o ldos n hbuf h1 h2
    obtain ⟨hb0, hb1, hstep⟩ :=
      (calculateLDOSStep_eq solver re conj l u res hlu hres index o ldos hbuf n).1 ⟨h1, h2⟩
    refine ⟨res.toNat * o + (floorBin l u res (solver.eigenValues n)).toNat, by omega, ?_, hstep⟩
    have : (floorBin l u res (solver.eigenValues n)).toNat < res.toNat := by omega
    omega
  · intro solver conj index_u index_d o sp_ldos n hbuf h1 h2
    obtain ⟨e, hbn, hstep, hl, hv0, hv1, hv2, hv3, hother⟩ :=
      calculateSP_LDOSStep_cells solver conj l u res hlu hres index_u index_d o sp_ldos hbuf n
        h1 h2
    exact ⟨4 * res.toNat * o + 4 * (floorBin l u res (solver.eigenValues n)).toNat, e,
      by omega, by omega, hstep, hl, hv0, hv1, hv2, hv3, hother⟩

/-- C24 at `lowerBound = 0`, `upperBound = 1`, `resolution = 2` over the
rationals: the eigenvalue `1/2` has bin 1, and on a buffer of one block the
SpinPolarizedLDOS callback writes the cells 4 to 7. -/
theorem ldos_writes_stay_in_block_witness :
    (0 : ℚ) < 1 ∧ (0 : Int) < 2 ∧ floorBin (0 : ℚ) 1 2 (1 / 2) = 1 ∧
    calculateSP_LDOSCallback (singleSolver (1 / 2)) id 1 0 2 0 (List.replicate 8 0) [0] 0 =
      some [0, 0, 0, 0, 1, 1, 1, 1] ∧
    ((∀ ev : ℚ, 0 < ev → ev < 1 →
      truncToInt ((ev - 0) / ((1 - 0) / ((2 : Int) : ℚ))) = floorBin 0 1 2 ev ∧
      0 ≤ floorBin 0 1 2 ev ∧ floorBin 0 1 2 ev < 2 ∧
      (if truncToInt ((ev - 0) / ((1 - 0) / ((2 : Int) : ℚ))) ≥ 2 then 2 - 1
        else truncToInt ((ev - 0) / ((1 - 0) / ((2 : Int) : ℚ)))) =
        truncToInt ((ev - 0) / ((1 - 0) / ((2 : Int) : ℚ)))) ∧
    (∀ (solver : Solver ℚ ℚ) (re : ℚ → ℚ) (conj : ℚ → ℚ) (index : Index) (o : Nat)
        (ldos : List ℚ) (n : Nat),
      (2 : Int).toNat * o + (2 : Int).toNat ≤ ldos.length →
      0 < solver.eigenValues n → solver.eigenValues n < 1 →
      ∃ idx : Nat, (2 : Int).toNat * o ≤ idx ∧ idx < (2 : Int).toNat * o + (2 : Int).toNat ∧
        calculateLDOSStep solver re conj 1 0 2 ((1 - 0) / ((2 : Int) : ℚ)) index (o : Int) ldos n =
          some (ldos.set idx (ldos.getD idx 0 +
            re (conj (solver.getAmplitude n index) * solver.getAmplitude n index)))) ∧
    (∀ (solver : Solver ℚ ℚ) (conj : ℚ → ℚ) (index_u index_d : Index) (o : Nat)
        (sp_ldos : List ℚ) (n : Nat),
      4 * (2 : Int).toNat * o + 4 * (2 : Int).toNat ≤ sp_ldos.length →
      0 < solver.eigenValues n → solver.eigenValues n < 1 →
      ∃ (base : Nat) (e : List ℚ),
        4 * (2 : Int).toNat * o ≤ base ∧ base + 4 ≤ 4 * (2 : Int).toNat * o + 4 * (2 : Int).toNat ∧
        calculateSP_LDOSStep solver conj 1 0 2 ((1 - 0) / ((2 : Int) : ℚ)) index_u index_d (o : Int)
          sp_ldos n = some e ∧
        e.length = sp_ldos.length ∧
        e.getD (base + 0) 0 = sp_ldos.getD (base + 0) 0 +
          conj (solver.getAmplitude n index_u) * solver.getAmplitude n index_u ∧
        e.getD (base + 1) 0 = sp_ldos.getD (base + 1) 0 +
          conj (solver.getAmplitude n index_u) * solver.getAmplitude n index_d ∧
        e.getD (base + 2) 0 = sp_ldos.getD (base + 2) 0 +
          conj (solver.getAmplitude n index_d) * solver.getAmplitude n index_u ∧
        e.getD (base + 3) 0 = sp_ldos.getD (base + 3) 0 +
          conj (solver.getAmplitude n index_d) * solver.getAmplitude n index_d ∧
        ∀ k, (k < base ∨ base + 4 ≤ k) → e.getD k 0 = sp_ldos.getD k 0)) :=
  ⟨by norm_num, by decide,
    by
      unfold floorBin
      norm_num,
    by
      norm_num [calculateSP_LDOSCallback, calculateSP_LDOSStep, singleSolver, List.range_succ,
        truncToInt, addAt, Int.toNat]
      rfl,
    ldos_writes_stay_in_block 0 1 2 (by norm_num) (by decide)⟩

/-! ## Lemmas and theorems: the Magnetization block -/

theorem Cx.conj_add {R : Type} [CommRing R] (a b : Cx R) :
    Cx.conj (a + b) = Cx.conj a + Cx.conj b := by
  rw [Cx.eq_iff]
  simp only [Cx.conj, Cx.add_re, Cx.add_im, neg_add, and_self]

theorem Cx.conj_zero {R : Type} [CommRing R] : Cx.conj (0 : Cx R) = 0 := by
  rw [Cx.eq_iff]
  simp only [Cx.conj, Cx.zero_re, Cx.zero_im, neg_zero, and_self]

theorem Cx.sum_re {R : Type} [CommRing R] (l : List (Cx R)) :
    l.sum.re = (l.map fun z => z.re).sum := by
  induction l with
  | nil => rfl
  | cons a l ih => rw [List.sum_cons, Cx.add_re, ih, List.map_cons, List.sum_cons]

theorem Cx.sum_im {R : Type} [CommRing R] (l : List (Cx R)) :
    l.sum.im = (l.map fun z => z.im).sum := by
  induction l with
  | nil => rfl
  | cons a l ih => rw [List.sum_cons, Cx.add_im, ih, List.map_cons, List.sum_cons]

/-- The contributions of one eigenstate form a Hermitian block. -/
theorem magTerm_hermitian {R : Type} [CommRing R] (solver : Solver R (Cx R)) (spin : Nat)
    (index : Index) (n : Nat) :
    magTerm solver Cx.conj Cx.ofReal spin index 1 n =
      Cx.conj (magTerm solver Cx.conj Cx.ofReal spin index 2 n) ∧
    (magTerm solver Cx.conj Cx.ofReal spin index 0 n).im = 0 ∧
    (magTerm solver Cx.conj Cx.ofReal spin index 3 n).im = 0 ∧
    (magTerm solver Cx.conj Cx.ofReal spin index 0 n).re =
      solver.weight n * ((solver.getAmplitude n (index.set spin 0)).re *
          (solver.getAmplitude n (index.set spin 0)).re +
        (solver.getAmplitude n (index.set spin 0)).im *
          (solver.getAmplitude n (index.set spin 0)).im) ∧
    (magTerm solver Cx.conj Cx.ofReal spin index 3 n).re =
      solver.weight n * ((solver.getAmplitude n (index.set spin 1)).re *
          (solver.getAmplitude n (index.set spin 1)).re +
        (solver.getAmplitude n (index.set spin 1)).im *
          (solver.getAmplitude n (index.set spin 1)).im) := by
  refine ⟨?_, ?_, ?_, ?_, ?_⟩
  · rw [Cx.eq_iff]
    simp only [magTerm, Cx.conj, Cx.ofReal, Cx.mul_re, Cx.mul_im]
    constructor <;> ring
  · simp only [magTerm, Cx.conj, Cx.ofReal, Cx.mul_re, Cx.mul_im]
    ring
  · simp only [magTerm, Cx.conj, Cx.ofReal, Cx.mul_re, Cx.mul_im]
    ring
  · simp only [magTerm, Cx.conj, Cx.ofReal, Cx.mul_re, Cx.mul_im]
    ring
  · simp only [magTerm, Cx.conj, Cx.ofReal, Cx.mul_re, Cx.mul_im]
    ring

/-- The sums over the eigenstates of the contributions form a Hermitian block,
with non-negative diagonal when the weights are non-negative. -/
theorem magSum_hermitian {R : Type} [LinearOrderedCommRing R] (solver : Solver R (Cx R))
    (spin : Nat) (index : Index) (m : Nat) :
    ((List.range m).map (magTerm solver Cx.conj Cx.ofReal spin index 1)).sum =
      Cx.conj ((List.range m).map (magTerm solver Cx.conj Cx.ofReal spin index 2)).sum ∧
    (((List.range m).map (magTerm solver Cx.conj Cx.ofReal spin index 0)).sum).im = 0 ∧
    (((List.range m).map (magTerm solver Cx.conj Cx.ofReal spin index 3)).sum).im = 0 ∧
    ((∀ n, n < m → 0 ≤ solver.weight n) →
      0 ≤ (((List.range m).map (magTerm solver Cx.conj Cx.ofReal spin index 0)).sum).re ∧
      0 ≤ (((List.range m).map (magTerm solver Cx.conj Cx.ofReal spin index 3)).sum).re) := by
  refine ⟨?_, ?_, ?_, ?_⟩
  · rw [conj_sum Cx.conj Cx.conj_add Cx.conj_zero, List.map_map]
    apply congrArg
    apply List.map_congr_left
    intro n _
    exact (magTerm_hermitian solver spin index n).1
  · rw [Cx.sum_im, List.map_map]
    apply List.sum_eq_zero
    intro x hx
    obtain ⟨n, _, rfl⟩ := List.mem_map.mp hx
    exact (magTerm_hermitian solver spin index n).2.1
  · rw [Cx.sum_im, List.map_map]
    apply List.sum_eq_zero
    intro x hx
    obtain ⟨n, _, rfl⟩ := List.mem_map.mp hx
    exact (magTerm_hermitian solver spin index n).2.2.1
  · intro hw
    constructor
    · rw [Cx.sum_re, List.map_map]
      apply List.sum_nonneg
      intro x hx
      obtain ⟨n, hn, rfl⟩ := List.mem_map.mp hx
      simp only [Function.comp_apply]
      rw [(magTerm_hermitian solver spin index n).2.2.2.1]
      exact mul_nonneg (hw n (List.mem_range.mp hn))
        (add_nonneg (mul_self_nonneg _) (mul_self_nonneg _))
    · rw [Cx.sum_re, List.map_map]
      apply List.sum_nonneg
      intro x hx
      obtain ⟨n, hn, rfl⟩ := List.mem_map.mp hx
      simp only [Function.comp_apply]
      rw [(magTerm_hermitian solver spin index n).2.2.2.2]
      exact mul_nonneg (hw n (List.mem_range.mp hn))
        (add_nonneg (mul_self_nonneg _) (mul_self_nonneg _))

/-- C25. For every concrete index (the spin position inside the index, the cell
inside the buffer), every eigenstate amplitudes and every real occupation
weights, with exact arithmetic on complex numbers: the block
`(m0, m1, m2, m3)` that the Magnetization callback accumulates into the cell of
offset `o` from a zero start is a Hermitian matrix, `m1 = conj(m2)` and `m0`,
`m3` have zero imaginary part, and `m0`, `m3` are non-negative when all weights
are non-negative. More generally the callback keeps a block Hermitian (and its
diagonal non-negative under non-negative weights). -/
theorem magnetization_block_hermitian {R : Type} [LinearOrderedCommRing R]
    (solver : Solver R (Cx R)) (spin : Nat) (index : Index) (o : Nat) (mag : List (Cx R))
    (hs : spin < index.length) (h : 4 * o + 3 < mag.length) :
    ∃ e : List (Cx R),
      calculateMAGCallback solver Cx.conj Cx.ofReal (spin : Int) mag index (o : Int) = some e ∧
      ((∀ j, j < 4 → mag.getD (4 * o + j) 0 = 0) →
        e.getD (4 * o + 1) 0 = Cx.conj (e.getD (4 * o + 2) 0) ∧
        (e.getD (4 * o) 0).im = 0 ∧ (e.getD (4 * o + 3) 0).im = 0 ∧
        ((∀ n, n < solver.basisSize.toNat → 0 ≤ solver.weight n) →
          0 ≤ (e.getD (4 * o) 0).re ∧ 0 ≤ (e.getD (4 * o + 3) 0).re)) ∧
      (mag.getD (4 * o + 1) 0 = Cx.conj (mag.getD (4 * o + 2) 0) →
        (mag.getD (4 * o) 0).im = 0 → (mag.getD (4 * o + 3) 0).im = 0 →
        e.getD (4 * o + 1) 0 = Cx.conj (e.getD (4 * o + 2) 0) ∧
        (e.getD (4 * o) 0).im = 0 ∧ (e.getD (4 * o + 3) 0).im = 0 ∧
        ((∀ n, n < solver.basisSize.toNat → 0 ≤ solver.weight n) →
          0 ≤ (mag.getD (4 * o) 0).re → 0 ≤ (mag.getD (4 * o + 3) 0).re →
          0 ≤ (e.getD (4 * o) 0).re ∧ 0 ≤ (e.getD (4 * o + 3) 0).re)) := by
  obtain ⟨e, he, _, hv, _⟩ := calculateMAGCallback_cells solver Cx.conj Cx.ofReal spin index o
    mag hs h
  obtain ⟨hm12, hm0, hm3, hpos⟩ := magSum_hermitian solver spin index solver.basisSize.toNat
  have hv0 := hv 0 (by omega)
  have hv1 := hv 1 (by omega)
  have hv2 := hv 2 (by omega)
  have hv3 := hv 3 (by omega)
  rw [Nat.add_zero] at hv0
  have hgen : mag.getD (4 * o + 1) 0 = Cx.conj (mag.getD (4 * o + 2) 0) →
      (mag.getD (4 * o) 0).im = 0 → (mag.getD (4 * o + 3) 0).im = 0 →
      e.getD (4 * o + 1) 0 = Cx.conj (e.getD (4 * o + 2) 0) ∧
      (e.getD (4 * o) 0).im = 0 ∧ (e.getD (4 * o + 3) 0).im = 0 ∧
      ((∀ n, n < solver.basisSize.toNat → 0 ≤ solver.weight n) →
        0 ≤ (mag.getD (4 * o) 0).re → 0 ≤ (mag.getD (4 * o + 3) 0).re →
        0 ≤ (e.getD (4 * o) 0).re ∧ 0 ≤ (e.getD (4 * o + 3) 0).re) := by
    intro g12 g0 g3
    refine ⟨?_, ?_, ?_, ?_⟩
    · rw [hv1, hv2, Cx.conj_add, g12, hm12]
    · rw [hv0, Cx.add_im, g0, hm0, add_zero]
    · rw [hv3, Cx.add_im, g3, hm3, add_zero]
    · intro hw p0 p3
      obtain ⟨q0, q3⟩ := hpos hw
      rw [hv0, hv3, Cx.add_re, Cx.add_re]
      exact ⟨add_nonneg p0 q0, add_nonneg p3 q3⟩
  refine ⟨e, he, ?_, hgen⟩
  intro hz
  have z0 := hz 0 (by omega)
  have z1 := hz 1 (by omega)
  have z2 := hz 2 (by omega)
  have z3 := hz 3 (by omega)
  rw [Nat.add_zero] at z0
  obtain ⟨r1, r2, r3, r4⟩ := hgen (by rw [z1, z2, Cx.conj_zero]) (by rw [z0]; rfl)
    (by rw [z3]; rfl)
  exact ⟨r1, r2, r3, fun hw => r4 hw (by rw [z0]; exact le_refl _) (by rw [z3]; exact le_refl _)⟩

/-- C25 on a solver with two eigenstates of weights 2 and 3 and amplitudes
`u_up = 1 + (n+1)i`, `u_down = 2 + (n+1)i`: the cell of offset 1 receives
`19`, `24 - 8i`, `24 + 8i`, `34`. -/
theorem magnetization_block_hermitian_witness :
    (0 : Nat) < ([7, 5] : Index).length ∧
    4 * 1 + 3 < (List.replicate 8 (0 : Cx Int)).length ∧
    calculateMAGCallback cxSolver Cx.conj Cx.ofReal 0 (List.replicate 8 0) [7, 5] 1 =
      some [0, 0, 0, 0, ⟨19, 0⟩, ⟨24, -8⟩, ⟨24, 8⟩, ⟨34, 0⟩] ∧
    (∃ e : List (Cx Int),
      calculateMAGCallback cxSolver Cx.conj Cx.ofReal ((0 : Nat) : Int) (List.replicate 8 0) [7, 5] ((1 : Nat) : Int) = some e ∧
      ((∀ j, j < 4 → (List.replicate 8 (0 : Cx Int)).getD (4 * 1 + j) 0 = 0) →
        e.getD (4 * 1 + 1) 0 = Cx.conj (e.getD (4 * 1 + 2) 0) ∧
        (e.getD (4 * 1) 0).im = 0 ∧ (e.getD (4 * 1 + 3) 0).im = 0 ∧
        ((∀ n, n < cxSolver.basisSize.toNat → 0 ≤ cxSolver.weight n) →
          0 ≤ (e.getD (4 * 1) 0).re ∧ 0 ≤ (e.getD (4 * 1 + 3) 0).re)) ∧
      ((List.replicate 8 (0 : Cx Int)).getD (4 * 1 + 1) 0 = Cx.conj ((List.replicate 8 (0 : Cx Int)).getD (4 * 1 + 2) 0) →
        ((List.replicate 8 (0 : Cx Int)).getD (4 * 1) 0).im = 0 → ((List.replicate 8 (0 : Cx Int)).getD (4 * 1 + 3) 0).im = 0 →
        e.getD (4 * 1 + 1) 0 = Cx.conj (e.getD (4 * 1 + 2) 0) ∧
        (e.getD (4 * 1) 0).im = 0 ∧ (e.getD (4 * 1 + 3) 0).im = 0 ∧
        ((∀ n, n < cxSolver.basisSize.toNat → 0 ≤ cxSolver.weight n) →
          0 ≤ ((List.replicate 8 (0 : Cx Int)).getD (4 * 1) 0).re → 0 ≤ ((List.replicate 8 (0 : Cx Int)).getD (4 * 1 + 3) 0).re →
          0 ≤ (e.getD (4 * 1) 0).re ∧ 0 ≤ (e.getD (4 * 1 + 3) 0).re))) :=
  ⟨by decide, by decide, by decide,
    magnetization_block_hermitian cxSolver 0 [7, 5] 1 (List.replicate 8 0) (by decide)
      (by decide)⟩

end TBTK
